import Mathlib

/-!
# Asynchronous batching log core (`pkg/golib/pkg/log/async_core.go`)

A small-step model of `asyncCore`: the process-wide `stopped` flag, the sinks
(`zapcore.WriteSyncer`), the cores with their two channels and their background
worker goroutine, and the caller goroutines that run `Write` and `Close`.

* Every shared-memory access, channel operation and sink write of the source is one atomic
  step; a schedule (a list of actions) picks which goroutine moves next, so every
  interleaving of the goroutines is a schedule.
* A blocked operation is a step that is not enabled (`step` gives `none`); a goroutine that
  blocks for ever is one whose step is enabled in no continuation.
* Channels are buffered FIFO queues with a capacity; a nil channel is `none`, on which neither
  send nor receive is ever ready.
* Time is not measured: a tick of the worker's ticker (`Frequency`) and the firing of the
  timer of `Close` (2 s) are actions that the schedule may take whenever the goroutine stands
  at the corresponding `select`.
* The encoder and the sink are external: an encoder is a function that may fail, a sink
  records the byte slices it is handed, one per `Write` call, and reports an error or not;
  the source drops what `out.Write` returns.
-/

namespace AsyncLog

/-! ## Data model -/

/-- A byte slice. -/
abbrev Bytes := List Nat

/-- The bytes of an ASCII string literal (`[]byte("...")`). -/
def bytesOf (s : String) : Bytes := s.toList.map Char.toNat

/-- `BatchSize = 100 * 1024` (async_core.go:12). -/
def BatchSize : Nat := 100 * 1024

/-- `zapcore.ErrorLevel` (Debug = -1, Info = 0, Warn = 1, Error = 2, DPanic = 3, Panic = 4,
Fatal = 5). -/
def ErrorLevel : Int := 2

/-- The capacity of `logCh` chosen by `NewCore` (async_core.go:36). -/
def logChCap : Nat := 10240

/-- `[]byte("log chan blocked\n")` (async_core.go:117). -/
def blockedNotice : Bytes := bytesOf "log chan blocked\n"

/-- `[]byte("log flush timeout, log may lost.\n")` (async_core.go:143). -/
def timeoutNotice : Bytes := bytesOf "log flush timeout, log may lost.\n"

/-- `[]byte("log flush successfully.\n")` (async_core.go:145). -/
def successNotice : Bytes := bytesOf "log flush successfully.\n"

/-- A `zapcore.Field`, as far as the core is concerned. -/
structure Field where
  Key : String
  Value : String

/-- A `zapcore.Entry`: the core only looks at the level. -/
structure Entry where
  Level : Int
  Message : String

/-- A `zapcore.Encoder` (external collaborator): the fields added to it so far and its encoding
function, which may fail. -/
structure Encoder where
  fields : List Field
  encode : List Field → Entry → List Field → Except String Bytes

/-- `enc.Clone()`. -/
def Encoder.Clone (e : Encoder) : Encoder := { fields := e.fields, encode := e.encode }

/-- `field.AddTo(enc)`. -/
def Field.AddTo (f : Field) (e : Encoder) : Encoder := { e with fields := e.fields ++ [f] }

/-- `enc.EncodeEntry(ent, fields)`. -/
def Encoder.EncodeEntry (e : Encoder) (ent : Entry) (fs : List Field) : Except String Bytes :=
  e.encode e.fields ent fs

/-- A `zapcore.WriteSyncer` (external collaborator), seen from the core: the byte slices it has
been handed, one entry per `Write` call, and whether its writes report an error. -/
structure Sink where
  received : List Bytes
  failing : Bool

/-- `ws.Write(b)`: the sink after the call and the `(n, err)` it returns. -/
def Sink.Write (s : Sink) (b : Bytes) : Sink × Nat × Option String :=
  ({ s with received := s.received ++ [b] },
    if s.failing then (0, some "write failed") else (b.length, none))

/-- A buffered Go channel: its capacity and the queued values, oldest first. -/
structure Chan (α : Type) where
  cap : Nat
  buf : List α

/-- `ch <- x` on a possibly nil channel: the channel after the send, or `none` when the send
is not ready (full buffer, or nil channel). -/
def send {α : Type} (ch : Option (Chan α)) (x : α) : Option (Chan α) :=
  match ch with
  | none => none
  | some c => if c.buf.length < c.cap then some { c with buf := c.buf ++ [x] } else none

/-- `<-ch` on a possibly nil channel: the value received and the channel after it, or `none`
when the receive is not ready (empty buffer, or nil channel). -/
def recv {α : Type} (ch : Option (Chan α)) : Option (α × Chan α) :=
  match ch with
  | none => none
  | some c =>
    match c.buf with
    | [] => none
    | x :: rest => some (x, { c with buf := rest })

/-- Where the background goroutine of `NewCore` stands (async_core.go:40-75). -/
inductive WorkerPC
  /-- at the `select` of line 46 -/
  | select
  /-- after the `select`, before `if flushLog` of line 68 -/
  | flush
  /-- a nil buffer was received, before `core.out.Write` of line 51 -/
  | drain
  /-- before `core.done <- struct{}{}` of line 53 -/
  | signal
  /-- returned (line 54) -/
  | exited
  deriving DecidableEq, Repr

/-- The local variables of the background goroutine. -/
structure Worker where
  pc : WorkerPC
  logBuffer : Bytes
  flushLog : Bool

/-- An `asyncCore` with the objects it points to. The channels belong to one core only (`clone`
does not copy them), so their contents are kept here; `none` is a nil channel. The sink is
shared, so `out` is an address into the sinks of the world. `worker` is the goroutine that
`NewCore` started for this core, if any. -/
structure Core where
  enab : Int → Bool
  enc : Encoder
  out : Nat
  logCh : Option (Chan (Option Bytes))
  done : Option (Chan Unit)
  worker : Option Worker

/-- `NewCore(enc, ws, enab)` (async_core.go:31-78): the new core, with its goroutine started. -/
def NewCore (enc : Encoder) (ws : Nat) (enab : Int → Bool) : Core :=
  { enab := enab
    enc := enc
    out := ws
    logCh := some { cap := logChCap, buf := [] }
    done := some { cap := 1, buf := [] }
    worker := some { pc := WorkerPC.select, logBuffer := [], flushLog := false } }

/-- `c.clone()` (async_core.go:129-135): `logCh` and `done` are left at their zero value. -/
def Core.clone (c : Core) : Core :=
  { enab := c.enab
    enc := c.enc.Clone
    out := c.out
    logCh := none
    done := none
    worker := none }

/-- `c.With(fields)` (async_core.go:80-88). -/
def Core.With (c : Core) (fields : List Field) : Core :=
  let clone := c.clone
  { clone with enc := fields.foldl (fun e f => f.AddTo e) clone.enc }

/-- `c.Check(ent, ce)` adds the core to the checked entry iff the level is enabled
(async_core.go:90-95): `true` when `Write` will be called. -/
def Core.Check (c : Core) (ent : Entry) : Bool := c.enab ent.Level

/-- A call of a caller goroutine on the core at address `c`. -/
inductive Call
  | Write (c : Nat) (ent : Entry) (fields : List Field)
  | Close (c : Nat)

/-- Where a caller goroutine stands. `inWrite` tells a `Close` that was called from `Write`
(line 105) from one called directly. -/
inductive PC
  /-- not in a call -/
  | idle
  /-- `Write`, before `c.enc.EncodeEntry` (line 98) -/
  | wEncode (c : Nat) (ent : Entry) (fields : List Field)
  /-- `Write`, level above error, before `c.logCh <- buf` (line 104) -/
  | wPanicSend (c : Nat) (buf : Bytes)
  /-- `Write`, before reading `stopped` (line 109) -/
  | wStopped (c : Nat) (buf : Bytes)
  /-- `Write`, before `c.out.Write(buf.Bytes())` (line 110) -/
  | wDirect (c : Nat) (buf : Bytes)
  /-- `Write`, at the `select` (line 114) -/
  | wSelect (c : Nat) (buf : Bytes)
  /-- `Write`, default case, before the warning is written (line 117) -/
  | wWarn (c : Nat) (buf : Bytes)
  /-- `Write`, default case, before `c.logCh <- buf` (line 118) -/
  | wBlocked (c : Nat) (buf : Bytes)
  /-- `Close`, before `stopped = true` (line 138) -/
  | cStopped (c : Nat) (inWrite : Bool)
  /-- `Close`, before `c.logCh <- nil` (line 139) -/
  | cSendNil (c : Nat) (inWrite : Bool)
  /-- `Close`, at the `select` (line 141) -/
  | cSelect (c : Nat) (inWrite : Bool)
  /-- `Close`, the timer fired, before the notice is written (line 143) -/
  | cTimeout (c : Nat) (inWrite : Bool)
  /-- `Close`, `done` was received, before the notice is written (line 145) -/
  | cSuccess (c : Nat) (inWrite : Bool)
  /-- `Write` returned this error (`none` is a nil error) -/
  | retWrite (err : Option String)
  /-- `Close` returned -/
  | retClose

/-- The whole process: the package variable `stopped` (async_core.go:18), the sinks, the cores
(`none` at a free address) and the caller goroutines. -/
structure World where
  stopped : Bool
  sinks : Nat → Sink
  cores : Nat → Option Core
  threads : Nat → PC

/-- Goroutine `t` moves to `pc`. -/
def World.setPC (w : World) (t : Nat) (pc : PC) : World :=
  { w with threads := Function.update w.threads t pc }

/-- The core at address `c` becomes `core`. -/
def World.setCore (w : World) (c : Nat) (core : Core) : World :=
  { w with cores := Function.update w.cores c (some core) }

/-- `out.Write(b)` on the sink at address `s`; the `(n, err)` it returns is dropped, as at every
call site of the source. -/
def World.sinkWrite (w : World) (s : Nat) (b : Bytes) : World :=
  { w with sinks := Function.update w.sinks s ((w.sinks s).Write b).1 }

/-- The program counter after `Close` returns. -/
def afterClose (inWrite : Bool) : PC :=
  if inWrite then PC.retWrite none else PC.retClose

/-! ## Steps -/

/-- One step of `c.Write(ent, fields)` (async_core.go:97-123) by goroutine `t`, on the core
`core` found at address `c`. -/
def Write_step (w : World) (t : Nat) (c : Nat) (core : Core) : PC → Option World
  | PC.wEncode _ ent fields =>
    -- buf, err := c.enc.EncodeEntry(ent, fields); if err != nil { return err }
    match core.enc.EncodeEntry ent fields with
    | Except.error err => some (w.setPC t (PC.retWrite (some err)))
    | Except.ok buf =>
      -- if ent.Level > zapcore.ErrorLevel
      if ent.Level > ErrorLevel then some (w.setPC t (PC.wPanicSend c buf))
      else some (w.setPC t (PC.wStopped c buf))
  | PC.wPanicSend _ buf =>
    -- c.logCh <- buf; c.Close(); return nil
    match send core.logCh (some buf) with
    | some ch => some ((w.setCore c { core with logCh := some ch }).setPC t (PC.cStopped c true))
    | none => none
  | PC.wStopped _ buf =>
    -- if stopped
    if w.stopped then some (w.setPC t (PC.wDirect c buf))
    else some (w.setPC t (PC.wSelect c buf))
  | PC.wDirect _ buf =>
    -- c.out.Write(buf.Bytes()); buf.Free(); return nil
    some ((w.sinkWrite core.out buf).setPC t (PC.retWrite none))
  | PC.wSelect _ buf =>
    -- select { case c.logCh <- buf: default: ... }; return nil
    match send core.logCh (some buf) with
    | some ch => some ((w.setCore c { core with logCh := some ch }).setPC t (PC.retWrite none))
    | none => some (w.setPC t (PC.wWarn c buf))
  | PC.wWarn _ buf =>
    -- c.out.Write([]byte("log chan blocked\n"))
    some ((w.sinkWrite core.out blockedNotice).setPC t (PC.wBlocked c buf))
  | PC.wBlocked _ buf =>
    -- c.logCh <- buf; return nil
    match send core.logCh (some buf) with
    | some ch => some ((w.setCore c { core with logCh := some ch }).setPC t (PC.retWrite none))
    | none => none
  | _ => none

/-- One step of `c.Close()` (async_core.go:137-147) by goroutine `t`, on the core `core` found
at address `c`, other than the firing of `closeTimer`. -/
def Close_step (w : World) (t : Nat) (c : Nat) (core : Core) : PC → Option World
  | PC.cStopped _ k =>
    -- stopped = true
    some ({ w with stopped := true }.setPC t (PC.cSendNil c k))
  | PC.cSendNil _ k =>
    -- c.logCh <- nil; closeTimer := time.NewTimer(time.Second * 2)
    match send core.logCh none with
    | some ch => some ((w.setCore c { core with logCh := some ch }).setPC t (PC.cSelect c k))
    | none => none
  | PC.cSelect _ k =>
    -- case <-c.done:
    match recv core.done with
    | some (_, ch) => some ((w.setCore c { core with done := some ch }).setPC t (PC.cSuccess c k))
    | none => none
  | PC.cTimeout _ k =>
    -- c.out.Write([]byte("log flush timeout, log may lost.\n"))
    some ((w.sinkWrite core.out timeoutNotice).setPC t (afterClose k))
  | PC.cSuccess _ k =>
    -- c.out.Write([]byte("log flush successfully.\n"))
    some ((w.sinkWrite core.out successNotice).setPC t (afterClose k))
  | _ => none

/-- The core a program counter works on. -/
def PC.core? : PC → Option Nat
  | PC.wEncode c _ _ => some c
  | PC.wPanicSend c _ => some c
  | PC.wStopped c _ => some c
  | PC.wDirect c _ => some c
  | PC.wSelect c _ => some c
  | PC.wWarn c _ => some c
  | PC.wBlocked c _ => some c
  | PC.cStopped c _ => some c
  | PC.cSendNil c _ => some c
  | PC.cSelect c _ => some c
  | PC.cTimeout c _ => some c
  | PC.cSuccess c _ => some c
  | _ => none

/-- Whether a program counter is inside `Close`. -/
def PC.inClose : PC → Bool
  | PC.cStopped _ _ => true
  | PC.cSendNil _ _ => true
  | PC.cSelect _ _ => true
  | PC.cTimeout _ _ => true
  | PC.cSuccess _ _ => true
  | _ => false

/-- Goroutine `t` takes its next step. -/
def threadStep (w : World) (t : Nat) : Option World :=
  match (w.threads t).core? with
  | none => none
  | some c =>
    match w.cores c with
    | none => none
    | some core =>
      if (w.threads t).inClose then Close_step w t c core (w.threads t)
      else Write_step w t c core (w.threads t)

/-- The `closeTimer` of goroutine `t` fires while it waits at the `select` of `Close`
(`case <-closeTimer.C:`, line 142). -/
def timerStep (w : World) (t : Nat) : Option World :=
  match w.threads t with
  | PC.cSelect c k => some (w.setPC t (PC.cTimeout c k))
  | _ => none

/-- Goroutine `t`, not in a call, calls `Write` or `Close`. -/
def invokeStep (w : World) (t : Nat) (call : Call) : Option World :=
  match w.threads t with
  | PC.idle | PC.retWrite _ | PC.retClose =>
    match call with
    | Call.Write c ent fields => some (w.setPC t (PC.wEncode c ent fields))
    | Call.Close c => some (w.setPC t (PC.cStopped c false))
  | _ => none

/-- One step of the background goroutine of the core at address `c` (async_core.go:45-74), other
than taking a tick. -/
def workerStep (w : World) (c : Nat) : Option World :=
  match w.cores c with
  | none => none
  | some core =>
    match core.worker with
    | none => none
    | some wk =>
      match wk.pc with
      | WorkerPC.select =>
        -- case buf := <-core.logCh:
        match recv core.logCh with
        | none => none
        | some (none, ch) =>
          -- if buf == nil
          some (w.setCore c { core with logCh := some ch, worker := some { wk with pc := WorkerPC.drain } })
        | some (some buf, ch) =>
          -- logBuffer.Write(buf.Bytes()); if logBuffer.Len() >= BatchSize { flushLog = true }
          let logBuffer := wk.logBuffer ++ buf
          let flushLog := if logBuffer.length ≥ BatchSize then true else wk.flushLog
          some (w.setCore c { core with
            logCh := some ch
            worker := some { pc := WorkerPC.flush, logBuffer := logBuffer, flushLog := flushLog } })
      | WorkerPC.flush =>
        if wk.flushLog then
          -- core.out.Write(logBuffer.Bytes()); logBuffer.Reset(); flushLog = false
          some ((w.sinkWrite core.out wk.logBuffer).setCore c { core with
            worker := some { pc := WorkerPC.select, logBuffer := [], flushLog := false } })
        else
          some (w.setCore c { core with worker := some { wk with pc := WorkerPC.select } })
      | WorkerPC.drain =>
        -- core.out.Write(logBuffer.Bytes()); ticker.Stop()
        some ((w.sinkWrite core.out wk.logBuffer).setCore c { core with
          worker := some { wk with pc := WorkerPC.signal } })
      | WorkerPC.signal =>
        -- core.done <- struct{}{}; return
        match send core.done () with
        | none => none
        | some ch =>
          some (w.setCore c { core with done := some ch, worker := some { wk with pc := WorkerPC.exited } })
      | WorkerPC.exited => none

/-- The background goroutine of the core at address `c` takes a tick at its `select`
(`case <-ticker.C:`, lines 64-65). -/
def tickStep (w : World) (c : Nat) : Option World :=
  match w.cores c with
  | none => none
  | some core =>
    match core.worker with
    | none => none
    | some wk =>
      match wk.pc with
      | WorkerPC.select =>
        some (w.setCore c { core with worker := some { wk with pc := WorkerPC.flush, flushLog := true } })
      | _ => none

/-- What the scheduler can pick. -/
inductive Action
  /-- goroutine `t` calls `call` -/
  | invoke (t : Nat) (call : Call)
  /-- goroutine `t` takes its next step -/
  | thread (t : Nat)
  /-- the `closeTimer` of goroutine `t` fires -/
  | timer (t : Nat)
  /-- the background goroutine of core `c` takes its next step -/
  | worker (c : Nat)
  /-- the background goroutine of core `c` takes a tick -/
  | tick (c : Nat)
  /-- `NewCore(enc, ws, enab)`, the new core stored at the free address `id` -/
  | newCore (id : Nat) (enc : Encoder) (ws : Nat) (enab : Int → Bool)
  /-- `With(fields)` on the core at `c`, the new core stored at the free address `id` -/
  | withFields (c : Nat) (fields : List Field) (id : Nat)

/-- One step of the process; `none` when the action is not enabled. -/
def step (w : World) : Action → Option World
  | Action.invoke t call => invokeStep w t call
  | Action.thread t => threadStep w t
  | Action.timer t => timerStep w t
  | Action.worker c => workerStep w c
  | Action.tick c => tickStep w c
  | Action.newCore id enc ws enab =>
    match w.cores id with
    | none => some (w.setCore id (NewCore enc ws enab))
    | some _ => none
  | Action.withFields c fields id =>
    match w.cores c, w.cores id with
    | some core, none => some (w.setCore id (core.With fields))
    | _, _ => none

/-- Runs a schedule; `none` when one of its actions is not enabled. -/
def run (w : World) : List Action → Option World
  | [] => some w
  | a :: rest =>
    match step w a with
    | none => none
    | some w1 => run w1 rest

/-! ## Auxiliary definitions: the cases of a step, invariants -/

/-- Whether a goroutine may start a call. -/
def PC.notInCall : PC → Bool
  | PC.idle => true
  | PC.retWrite _ => true
  | PC.retClose => true
  | _ => false

/-- The cases of `step`, one per statement of the source. -/
inductive StepCase (w : World) : Action → World → Prop
  | invWrite (t c : Nat) (ent : Entry) (fields : List Field) (h : (w.threads t).notInCall = true) :
    StepCase w (Action.invoke t (Call.Write c ent fields)) (w.setPC t (PC.wEncode c ent fields))
  | invClose (t c : Nat) (h : (w.threads t).notInCall = true) :
    StepCase w (Action.invoke t (Call.Close c)) (w.setPC t (PC.cStopped c false))
  | encErr (t c : Nat) (ent : Entry) (fields : List Field) (core : Core) (err : String)
    (ht : w.threads t = PC.wEncode c ent fields) (hc : w.cores c = some core)
    (he : core.enc.EncodeEntry ent fields = Except.error err) :
    StepCase w (Action.thread t) (w.setPC t (PC.retWrite (some err)))
  | encPanic (t c : Nat) (ent : Entry) (fields : List Field) (core : Core) (buf : Bytes)
    (ht : w.threads t = PC.wEncode c ent fields) (hc : w.cores c = some core)
    (he : core.enc.EncodeEntry ent fields = Except.ok buf) (hl : ent.Level > ErrorLevel) :
    StepCase w (Action.thread t) (w.setPC t (PC.wPanicSend c buf))
  | encNormal (t c : Nat) (ent : Entry) (fields : List Field) (core : Core) (buf : Bytes)
    (ht : w.threads t = PC.wEncode c ent fields) (hc : w.cores c = some core)
    (he : core.enc.EncodeEntry ent fields = Except.ok buf) (hl : ¬ ent.Level > ErrorLevel) :
    StepCase w (Action.thread t) (w.setPC t (PC.wStopped c buf))
  | panicSend (t c : Nat) (buf : Bytes) (core : Core) (ch : Chan (Option Bytes))
    (ht : w.threads t = PC.wPanicSend c buf) (hc : w.cores c = some core)
    (hq : core.logCh = some ch) (hroom : ch.buf.length < ch.cap) :
    StepCase w (Action.thread t)
      ((w.setCore c { core with logCh := some { cap := ch.cap, buf := ch.buf ++ [some buf] } }).setPC t
        (PC.cStopped c true))
  | readStopped (t c : Nat) (buf : Bytes) (core : Core)
    (ht : w.threads t = PC.wStopped c buf) (hc : w.cores c = some core) (hs : w.stopped = true) :
    StepCase w (Action.thread t) (w.setPC t (PC.wDirect c buf))
  | readNotStopped (t c : Nat) (buf : Bytes) (core : Core)
    (ht : w.threads t = PC.wStopped c buf) (hc : w.cores c = some core) (hs : w.stopped = false) :
    StepCase w (Action.thread t) (w.setPC t (PC.wSelect c buf))
  | direct (t c : Nat) (buf : Bytes) (core : Core)
    (ht : w.threads t = PC.wDirect c buf) (hc : w.cores c = some core) :
    StepCase w (Action.thread t) ((w.sinkWrite core.out buf).setPC t (PC.retWrite none))
  | selectSend (t c : Nat) (buf : Bytes) (core : Core) (ch : Chan (Option Bytes))
    (ht : w.threads t = PC.wSelect c buf) (hc : w.cores c = some core)
    (hq : core.logCh = some ch) (hroom : ch.buf.length < ch.cap) :
    StepCase w (Action.thread t)
      ((w.setCore c { core with logCh := some { cap := ch.cap, buf := ch.buf ++ [some buf] } }).setPC t
        (PC.retWrite none))
  | selectDefault (t c : Nat) (buf : Bytes) (core : Core)
    (ht : w.threads t = PC.wSelect c buf) (hc : w.cores c = some core)
    (hfull : ∀ ch, core.logCh = some ch → ¬ ch.buf.length < ch.cap) :
    StepCase w (Action.thread t) (w.setPC t (PC.wWarn c buf))
  | warn (t c : Nat) (buf : Bytes) (core : Core)
    (ht : w.threads t = PC.wWarn c buf) (hc : w.cores c = some core) :
    StepCase w (Action.thread t) ((w.sinkWrite core.out blockedNotice).setPC t (PC.wBlocked c buf))
  | blockedSend (t c : Nat) (buf : Bytes) (core : Core) (ch : Chan (Option Bytes))
    (ht : w.threads t = PC.wBlocked c buf) (hc : w.cores c = some core)
    (hq : core.logCh = some ch) (hroom : ch.buf.length < ch.cap) :
    StepCase w (Action.thread t)
      ((w.setCore c { core with logCh := some { cap := ch.cap, buf := ch.buf ++ [some buf] } }).setPC t
        (PC.retWrite none))
  | setStopped (t c : Nat) (k : Bool) (core : Core)
    (ht : w.threads t = PC.cStopped c k) (hc : w.cores c = some core) :
    StepCase w (Action.thread t) ({ w with stopped := true }.setPC t (PC.cSendNil c k))
  | sendNil (t c : Nat) (k : Bool) (core : Core) (ch : Chan (Option Bytes))
    (ht : w.threads t = PC.cSendNil c k) (hc : w.cores c = some core)
    (hq : core.logCh = some ch) (hroom : ch.buf.length < ch.cap) :
    StepCase w (Action.thread t)
      ((w.setCore c { core with logCh := some { cap := ch.cap, buf := ch.buf ++ [none] } }).setPC t
        (PC.cSelect c k))
  | recvDone (t c : Nat) (k : Bool) (core : Core) (d : Chan Unit) (x : Unit) (rest : List Unit)
    (ht : w.threads t = PC.cSelect c k) (hc : w.cores c = some core)
    (hd : core.done = some d) (hbuf : d.buf = x :: rest) :
    StepCase w (Action.thread t)
      ((w.setCore c { core with done := some { cap := d.cap, buf := rest } }).setPC t (PC.cSuccess c k))
  | timerFires (t c : Nat) (k : Bool) (ht : w.threads t = PC.cSelect c k) :
    StepCase w (Action.timer t) (w.setPC t (PC.cTimeout c k))
  | timeoutNote (t c : Nat) (k : Bool) (core : Core)
    (ht : w.threads t = PC.cTimeout c k) (hc : w.cores c = some core) :
    StepCase w (Action.thread t) ((w.sinkWrite core.out timeoutNotice).setPC t (afterClose k))
  | successNote (t c : Nat) (k : Bool) (core : Core)
    (ht : w.threads t = PC.cSuccess c k) (hc : w.cores c = some core) :
    StepCase w (Action.thread t) ((w.sinkWrite core.out successNotice).setPC t (afterClose k))
  | workerNil (c : Nat) (core : Core) (wk : Worker) (ch : Chan (Option Bytes)) (rest : List (Option Bytes))
    (hc : w.cores c = some core) (hw : core.worker = some wk) (hpc : wk.pc = WorkerPC.select)
    (hq : core.logCh = some ch) (hbuf : ch.buf = none :: rest) :
    StepCase w (Action.worker c)
      (w.setCore c { core with
        logCh := some { cap := ch.cap, buf := rest }
        worker := some { wk with pc := WorkerPC.drain } })
  | workerRecv (c : Nat) (core : Core) (wk : Worker) (ch : Chan (Option Bytes)) (buf : Bytes)
    (rest : List (Option Bytes))
    (hc : w.cores c = some core) (hw : core.worker = some wk) (hpc : wk.pc = WorkerPC.select)
    (hq : core.logCh = some ch) (hbuf : ch.buf = some buf :: rest) :
    StepCase w (Action.worker c)
      (w.setCore c { core with
        logCh := some { cap := ch.cap, buf := rest }
        worker := some
          { pc := WorkerPC.flush, logBuffer := wk.logBuffer ++ buf,
            flushLog := if (wk.logBuffer ++ buf).length ≥ BatchSize then true else wk.flushLog } })
  | workerFlush (c : Nat) (core : Core) (wk : Worker)
    (hc : w.cores c = some core) (hw : core.worker = some wk) (hpc : wk.pc = WorkerPC.flush)
    (hf : wk.flushLog = true) :
    StepCase w (Action.worker c)
      ((w.sinkWrite core.out wk.logBuffer).setCore c { core with
        worker := some { pc := WorkerPC.select, logBuffer := [], flushLog := false } })
  | workerNoFlush (c : Nat) (core : Core) (wk : Worker)
    (hc : w.cores c = some core) (hw : core.worker = some wk) (hpc : wk.pc = WorkerPC.flush)
    (hf : wk.flushLog = false) :
    StepCase w (Action.worker c)
      (w.setCore c { core with worker := some { wk with pc := WorkerPC.select } })
  | workerDrain (c : Nat) (core : Core) (wk : Worker)
    (hc : w.cores c = some core) (hw : core.worker = some wk) (hpc : wk.pc = WorkerPC.drain) :
    StepCase w (Action.worker c)
      ((w.sinkWrite core.out wk.logBuffer).setCore c { core with
        worker := some { wk with pc := WorkerPC.signal } })
  | workerSignal (c : Nat) (core : Core) (wk : Worker) (d : Chan Unit)
    (hc : w.cores c = some core) (hw : core.worker = some wk) (hpc : wk.pc = WorkerPC.signal)
    (hd : core.done = some d) (hroom : d.buf.length < d.cap) :
    StepCase w (Action.worker c)
      (w.setCore c { core with
        done := some { cap := d.cap, buf := d.buf ++ [()] }
        worker := some { wk with pc := WorkerPC.exited } })
  | tick (c : Nat) (core : Core) (wk : Worker)
    (hc : w.cores c = some core) (hw : core.worker = some wk) (hpc : wk.pc = WorkerPC.select) :
    StepCase w (Action.tick c)
      (w.setCore c { core with worker := some { wk with pc := WorkerPC.flush, flushLog := true } })
  | newCore (id : Nat) (enc : Encoder) (ws : Nat) (enab : Int → Bool) (hfree : w.cores id = none) :
    StepCase w (Action.newCore id enc ws enab) (w.setCore id (NewCore enc ws enab))
  | withFields (c : Nat) (fields : List Field) (id : Nat) (core : Core)
    (hc : w.cores c = some core) (hfree : w.cores id = none) :
    StepCase w (Action.withFields c fields id) (w.setCore id (core.With fields))

/-- Whether a program counter is inside a `Write` that got its buffer from the encoder,
including the `Close` that such a `Write` calls. -/
def PC.pastEncode : PC → Bool
  | PC.wPanicSend _ _ => true
  | PC.wStopped _ _ => true
  | PC.wDirect _ _ => true
  | PC.wSelect _ _ => true
  | PC.wWarn _ _ => true
  | PC.wBlocked _ _ => true
  | PC.cStopped _ k => k
  | PC.cSendNil _ k => k
  | PC.cSelect _ k => k
  | PC.cTimeout _ k => k
  | PC.cSuccess _ k => k
  | _ => false

/-- The error that `Write` returns, as the encoder decides it. -/
def encodeError (enc : Encoder) (ent : Entry) (fields : List Field) : Option String :=
  match enc.EncodeEntry ent fields with
  | Except.error err => some err
  | Except.ok _ => none

/-- Where a goroutine can stand during and after `c.Write(ent, fields)` when `expected` is the
error the encoder decides. -/
def PC.inWriteOf (c : Nat) (ent : Entry) (fields : List Field) (expected : Option String) :
    PC → Prop
  | PC.wEncode c1 ent1 fields1 => c1 = c ∧ ent1 = ent ∧ fields1 = fields
  | PC.retWrite r => r = expected
  | pc => pc.pastEncode = true ∧ expected = none

/-- Where a goroutine can stand during and after a `Write` of `buf` on core `c` that found
`stopped` set: it never reaches the `select` of line 114. -/
def PC.inDirectWrite (c : Nat) (ent : Entry) (fields : List Field) (buf : Bytes) : PC → Prop
  | PC.wEncode c1 ent1 fields1 => c1 = c ∧ ent1 = ent ∧ fields1 = fields
  | PC.wStopped c1 buf1 => c1 = c ∧ buf1 = buf
  | PC.wDirect c1 buf1 => c1 = c ∧ buf1 = buf
  | PC.retWrite r => r = none
  | _ => False

/-- What one step does to the core at address `c`, which was `core` before the step, and to
the sinks. -/
inductive CoreEffect (w w1 : World) (c : Nat) (core : Core) : Prop
  /-- the core is untouched; a goroutine working on another core may have written to a sink -/
  | same (hc : w1.cores c = some core)
    (hs : w1.sinks = w.sinks ∨ ∃ s b, w1.sinks = (w.sinkWrite s b).sinks)
  /-- a caller goroutine sent `x` on `logCh` -/
  | enqueue (ch : Chan (Option Bytes)) (x : Option Bytes)
    (hq : core.logCh = some ch) (hroom : ch.buf.length < ch.cap)
    (hc : w1.cores c = some { core with logCh := some { cap := ch.cap, buf := ch.buf ++ [x] } })
    (hs : w1.sinks = w.sinks)
  /-- a goroutine in `Close` received from `done` -/
  | recvDone (d : Chan Unit) (x : Unit) (rest : List Unit)
    (hd : core.done = some d) (hbuf : d.buf = x :: rest)
    (hc : w1.cores c = some { core with done := some { cap := d.cap, buf := rest } })
    (hs : w1.sinks = w.sinks)
  /-- the worker received the nil buffer -/
  | workerNil (wk : Worker) (ch : Chan (Option Bytes)) (rest : List (Option Bytes))
    (hw : core.worker = some wk) (hpc : wk.pc = WorkerPC.select)
    (hq : core.logCh = some ch) (hbuf : ch.buf = none :: rest)
    (hc : w1.cores c = some { core with
        logCh := some { cap := ch.cap, buf := rest }
        worker := some { wk with pc := WorkerPC.drain } })
    (hs : w1.sinks = w.sinks)
  /-- the worker received a record -/
  | workerRecv (wk : Worker) (ch : Chan (Option Bytes)) (buf : Bytes) (rest : List (Option Bytes))
    (hw : core.worker = some wk) (hpc : wk.pc = WorkerPC.select)
    (hq : core.logCh = some ch) (hbuf : ch.buf = some buf :: rest)
    (hc : w1.cores c = some { core with
        logCh := some { cap := ch.cap, buf := rest }
        worker := some
          { pc := WorkerPC.flush, logBuffer := wk.logBuffer ++ buf,
            flushLog := if (wk.logBuffer ++ buf).length ≥ BatchSize then true else wk.flushLog } })
    (hs : w1.sinks = w.sinks)
  /-- the worker flushed -/
  | workerFlush (wk : Worker)
    (hw : core.worker = some wk) (hpc : wk.pc = WorkerPC.flush) (hf : wk.flushLog = true)
    (hc : w1.cores c = some { core with
        worker := some { pc := WorkerPC.select, logBuffer := [], flushLog := false } })
    (hs : w1.sinks = (w.sinkWrite core.out wk.logBuffer).sinks)
  /-- the worker had no flush pending -/
  | workerNoFlush (wk : Worker)
    (hw : core.worker = some wk) (hpc : wk.pc = WorkerPC.flush) (hf : wk.flushLog = false)
    (hc : w1.cores c = some { core with worker := some { wk with pc := WorkerPC.select } })
    (hs : w1.sinks = w.sinks)
  /-- the worker did its final write -/
  | workerDrain (wk : Worker)
    (hw : core.worker = some wk) (hpc : wk.pc = WorkerPC.drain)
    (hc : w1.cores c = some { core with worker := some { wk with pc := WorkerPC.signal } })
    (hs : w1.sinks = (w.sinkWrite core.out wk.logBuffer).sinks)
  /-- the worker sent on `done` and returned -/
  | workerSignal (wk : Worker) (d : Chan Unit)
    (hw : core.worker = some wk) (hpc : wk.pc = WorkerPC.signal)
    (hd : core.done = some d) (hroom : d.buf.length < d.cap)
    (hc : w1.cores c = some { core with
        done := some { cap := d.cap, buf := d.buf ++ [()] }
        worker := some { wk with pc := WorkerPC.exited } })
    (hs : w1.sinks = w.sinks)
  /-- the worker took a tick -/
  | tick (wk : Worker)
    (hw : core.worker = some wk) (hpc : wk.pc = WorkerPC.select)
    (hc : w1.cores c = some { core with
        worker := some { wk with pc := WorkerPC.flush, flushLog := true } })
    (hs : w1.sinks = w.sinks)

/-- What holds of the worker of core `c` at the two points of its loop: at the `select` the
accumulator is below the threshold and no flush is pending; before `if flushLog` a flush is
pending or the accumulator is below the threshold. -/
def workerBounded (w : World) (c : Nat) : Prop :=
  ∀ core wk, w.cores c = some core → core.worker = some wk →
    (wk.pc = WorkerPC.select → wk.logBuffer.length < BatchSize ∧ wk.flushLog = false) ∧
    (wk.pc = WorkerPC.flush → wk.flushLog = true ∨ wk.logBuffer.length < BatchSize)

/-- A core on which a send on `logCh` will never be ready: the channel is nil, or it is full
and the worker, its only receiver, has returned. -/
def Core.neverReady (core : Core) : Prop :=
  core.logCh = none ∨
    ∃ ch wk, core.logCh = some ch ∧ ¬ ch.buf.length < ch.cap ∧ core.worker = some wk ∧
      wk.pc = WorkerPC.exited

/-- Whether a program counter stands before a blocking send on the `logCh` of core `c`. -/
def PC.sendsOn (c : Nat) : PC → Bool
  | PC.wPanicSend c1 _ => c1 == c
  | PC.wBlocked c1 _ => c1 == c
  | PC.cSendNil c1 _ => c1 == c
  | _ => false

/-- The records waiting in a queue before its first nil buffer. -/
def beforeNil : List (Option Bytes) → List Bytes
  | [] => []
  | none :: _ => []
  | some b :: rest => b :: beforeNil rest

/-- The sink at address `s` has been handed `buf` inside one of its writes. -/
def flushedTo (w : World) (s : Nat) (buf : Bytes) : Prop :=
  ∃ b ∈ (w.sinks s).received, buf <:+: b

/-- The record `buf` is on its way through core `c`: it waits in the queue of a running worker
ahead of any nil buffer, or it is in the accumulator of a worker that has not done its final
write yet, or the sink has been handed it. -/
def inPipeline (w : World) (c : Nat) (buf : Bytes) : Prop :=
  ∃ core, w.cores c = some core ∧
    (flushedTo w core.out buf ∨
      ∃ wk, core.worker = some wk ∧
        (((wk.pc = WorkerPC.select ∨ wk.pc = WorkerPC.flush ∨ wk.pc = WorkerPC.drain) ∧
            buf <:+: wk.logBuffer) ∨
          ((wk.pc = WorkerPC.select ∨ wk.pc = WorkerPC.flush) ∧
            ∃ ch, core.logCh = some ch ∧ buf ∈ beforeNil ch.buf)))

/-- The `done` channel of core `c` holds a signal only after the worker has returned. -/
def doneOnlyAfterExit (w : World) (c : Nat) : Prop :=
  ∀ core d, w.cores c = some core → core.done = some d → d.buf ≠ [] →
    ∃ wk, core.worker = some wk ∧ wk.pc = WorkerPC.exited

/-- The concatenation of the records waiting in a queue, in order. -/
def queuedBytes : List (Option Bytes) → Bytes
  | [] => []
  | none :: rest => queuedBytes rest
  | some b :: rest => b ++ queuedBytes rest

/-- The calls that goroutine `t` makes in a schedule, in order. -/
def callsOf (t : Nat) : List Action → List Call
  | [] => []
  | Action.invoke t1 call :: rest => if t1 = t then call :: callsOf t rest else callsOf t rest
  | _ :: rest => callsOf t rest

/-! ## Concrete worlds and schedules -/

/-- An encoder that writes the bytes of the message and rejects the empty message. -/
def demoEncoder : Encoder :=
  { fields := []
    encode := fun _ ent _ =>
      if ent.Message = "" then Except.error "empty message" else Except.ok (bytesOf ent.Message) }

/-- A process with no core, no call in flight and empty sinks. -/
def emptyWorld : World :=
  { stopped := false
    sinks := fun _ => { received := [], failing := false }
    cores := fun _ => none
    threads := fun _ => PC.idle }

/-- The process after `NewCore(demoEncoder, sink 0, all levels)` stored its core at address 0. -/
def demoWorld : World := emptyWorld.setCore 0 (NewCore demoEncoder 0 (fun _ => true))

/-- As `demoWorld`, with sinks whose every write fails. -/
def failingWorld : World :=
  { demoWorld with sinks := fun _ => { received := [], failing := true } }

/-- As `demoWorld`, with goroutine 0 having just called `Close` on the core at address 0. -/
def closingWorld : World := demoWorld.setPC 0 (PC.cStopped 0 false)

/-- A core as `NewCore` builds it, its queue filled with records of one byte. -/
def fullCore : Core :=
  { NewCore demoEncoder 0 (fun _ => true) with
    logCh := some { cap := logChCap, buf := List.replicate logChCap (some [120]) } }

/-- A process whose only core is `fullCore`. -/
def fullWorld : World := emptyWorld.setCore 0 fullCore

/-- `NewCore`, then one `Write` of the record "ab" at info level, which the worker receives. -/
def oneRecordSchedule : List Action :=
  [Action.newCore 0 demoEncoder 0 (fun _ => true),
    Action.invoke 0 (Call.Write 0 { Level := 0, Message := "ab" } []),
    Action.thread 0, Action.thread 0, Action.thread 0, Action.worker 0, Action.worker 0]

/-- One `Close` by goroutine `t` on core `c` whose timer fires. -/
def timedOutClose (t c : Nat) : List Action :=
  [Action.invoke t (Call.Close c), Action.thread t, Action.thread t, Action.timer t, Action.thread t]

/-- `NewCore`, then a `Close` by goroutine 0 that the worker answers. -/
def firstClose : List Action :=
  [Action.newCore 0 demoEncoder 0 (fun _ => true), Action.invoke 0 (Call.Close 0), Action.thread 0,
    Action.thread 0, Action.worker 0, Action.worker 0, Action.worker 0, Action.thread 0,
    Action.thread 0]

/-- `firstClose`, then as many further calls of `Close` as `logCh` has room for. -/
def fillQueue : List Action :=
  firstClose ++ (List.replicate logChCap (timedOutClose 0 0)).flatten

/-- The worker of core `c` has returned and its `logCh` holds `n` nil buffers; goroutine `t` is
not in a call. -/
def closedWith (w : World) (t c n : Nat) : Prop :=
  (w.threads t).notInCall = true ∧
    ∃ core wk, w.cores c = some core ∧
      core.logCh = some { cap := logChCap, buf := List.replicate n none } ∧
      core.worker = some wk ∧ wk.pc = WorkerPC.exited

/-- `NewCore`, `With` on the new core, then `Close` on the core that `With` returned, up to and
including `stopped = true`. -/
def closeOnWithCore : List Action :=
  [Action.newCore 0 demoEncoder 0 (fun _ => true), Action.withFields 0 [] 1,
    Action.invoke 0 (Call.Close 1), Action.thread 0]

/-- `fillQueue`, then one more `Close`, up to and including `stopped = true`. -/
def closeOnFullQueue : List Action :=
  fillQueue ++ [Action.invoke 0 (Call.Close 0), Action.thread 0]

/-- `NewCore`, then a `Write` of "ab" at panic level whose `Close` times out before the worker
has run. -/
def panicTimeout : List Action :=
  [Action.newCore 0 demoEncoder 0 (fun _ => true),
    Action.invoke 0 (Call.Write 0 { Level := 4, Message := "ab" } []),
    Action.thread 0, Action.thread 0, Action.thread 0, Action.thread 0, Action.timer 0,
    Action.thread 0]

/-- `NewCore`, then a `Write` of "ab" at panic level whose `Close` receives `done`, up to the
receive. -/
def panicDone : List Action :=
  [Action.newCore 0 demoEncoder 0 (fun _ => true),
    Action.invoke 0 (Call.Write 0 { Level := 4, Message := "ab" } []),
    Action.thread 0, Action.thread 0, Action.thread 0, Action.thread 0,
    Action.worker 0, Action.worker 0, Action.worker 0, Action.worker 0, Action.worker 0,
    Action.thread 0]

/-- `NewCore`; a `Close` that times out; the worker then receives the nil buffer, does its
final write, signals `done` and returns; then a `Write` of "ab" at panic level, whose `Close`
receives the signal that the first `Close` did not wait for. -/
def panicAfterTimedOutClose : List Action :=
  [Action.newCore 0 demoEncoder 0 (fun _ => true),
    Action.invoke 0 (Call.Close 0), Action.thread 0, Action.thread 0, Action.timer 0,
    Action.thread 0, Action.worker 0, Action.worker 0, Action.worker 0,
    Action.invoke 0 (Call.Write 0 { Level := 4, Message := "ab" } []),
    Action.thread 0, Action.thread 0, Action.thread 0, Action.thread 0, Action.thread 0,
    Action.thread 0]

/-- An entry at info level with the one-byte message "x". -/
def entryX : Entry := { Level := 0, Message := "x" }

/-- One `Write` by goroutine `t` on core `c` that finds room in the queue. -/
def quickWrite (t c : Nat) (ent : Entry) : List Action :=
  [Action.invoke t (Call.Write c ent []), Action.thread t, Action.thread t, Action.thread t]

/-- As many `Write` calls of one byte as the queue has room for, then one more, up to and
including its warning; the worker never runs. -/
def overfill : List Action :=
  (List.replicate logChCap (quickWrite 0 0 entryX)).flatten ++
    [Action.invoke 0 (Call.Write 0 entryX []), Action.thread 0, Action.thread 0, Action.thread 0,
      Action.thread 0]

/-- Goroutine `t` is not in a call, `stopped` is unset, sink 0 has received nothing and the
queue of core `c` holds `n` records of one byte. -/
def filledWith (w : World) (t c n : Nat) : Prop :=
  (w.threads t).notInCall = true ∧ w.stopped = false ∧ (w.sinks 0).received = [] ∧
    ∃ core, w.cores c = some core ∧ core.enc = demoEncoder ∧ core.out = 0 ∧
      core.logCh = some { cap := logChCap, buf := List.replicate n (some [120]) }

/-- The six entries of the scenario: ten bytes each. -/
def sixEntries : List (Entry × List Field) :=
  [({ Level := 0, Message := "aaaaaaaaaa" }, []), ({ Level := 0, Message := "bbbbbbbbbb" }, []),
    ({ Level := 0, Message := "cccccccccc" }, []), ({ Level := 0, Message := "dddddddddd" }, []),
    ({ Level := 0, Message := "eeeeeeeeee" }, []), ({ Level := 0, Message := "ffffffffff" }, [])]

/-- The six `Write` calls of the scenario by goroutine 0 on core 0, one after the other. -/
def sixWrites : List Action :=
  (sixEntries.map (fun e => quickWrite 0 0 e.1)).flatten

/-- The six `Write` calls, after which the worker receives all six records. -/
def sixWritesDrained : List Action :=
  sixWrites ++ List.replicate 12 (Action.worker 0)

/-- The six `Write` calls, after which the worker receives three records and then takes a tick
and flushes. -/
def sixWritesEarlyTick : List Action :=
  sixWrites ++ List.replicate 6 (Action.worker 0) ++ [Action.tick 0, Action.worker 0]

/-- The entry of the record "ab", at info level. -/
def entryAB : Entry := { Level := 0, Message := "ab" }

/-- On the full queue of `fullWorld`: goroutine 0 calls `Write` of "ab" and, the queue being
full, writes the warning and stands before the blocking send; goroutine 1 calls `Close`; the
worker receives one record, and the nil buffer of `Close` takes the free place; the worker
receives a second record, and "ab" takes the free place, behind the nil buffer: `Write`
returns nil. -/
def lostRecordStart : List Action :=
  [Action.invoke 0 (Call.Write 0 entryAB []),
    Action.thread 0, Action.thread 0, Action.thread 0, Action.thread 0,
    Action.invoke 1 (Call.Close 0), Action.thread 1,
    Action.worker 0, Action.worker 0, Action.thread 1,
    Action.worker 0, Action.worker 0, Action.thread 0]

/-- After `lostRecordStart`: the worker drains the records ahead of the nil buffer, receives the
nil buffer, does its final write, signals `done` and returns; `Close` receives `done`, writes
its notice and returns. -/
def lostRecord : List Action :=
  lostRecordStart ++ (List.replicate (logChCap - 2) [Action.worker 0, Action.worker 0]).flatten ++
    [Action.worker 0, Action.worker 0, Action.worker 0, Action.thread 1, Action.thread 1]

/-- `Write` of "ab" by goroutine 0 has returned nil, `Close` by goroutine 1 waits at its
`select`, the sink has received the warning only, and the queue of core 0 holds `n` records of
one byte, then the nil buffer, then "ab"; the worker is at its `select` and has accumulated
the other records. -/
def drainingBehind (w : World) (n : Nat) : Prop :=
  w.threads 0 = PC.retWrite none ∧ w.threads 1 = PC.cSelect 0 false ∧
    (w.sinks 0).received = [blockedNotice] ∧
    ∃ core, w.cores 0 = some core ∧ core.out = 0 ∧ core.done = some { cap := 1, buf := [] } ∧
      core.logCh =
        some { cap := logChCap, buf := List.replicate n (some [120]) ++ [none, some [97, 98]] } ∧
      core.worker =
        some { pc := WorkerPC.select, logBuffer := List.replicate (logChCap - n) 120,
               flushLog := false }

/-! ## Auxiliary definitions: normal load, the enqueue order, the records of the calls -/

/-- Whether a goroutine stands where the normal operation of core `c` allows: between calls, or
in a `Write` of severity at most error that is neither on the full-queue path nor on the
direct-write path of core `c`. -/
def PC.calm (c : Nat) : PC → Bool
  | PC.idle => true
  | PC.retWrite _ => true
  | PC.retClose => true
  | PC.wEncode _ ent _ => decide (ent.Level ≤ ErrorLevel)
  | PC.wStopped _ _ => true
  | PC.wSelect _ _ => true
  | PC.wDirect c1 _ => c1 != c
  | PC.wWarn c1 _ => c1 != c
  | PC.wBlocked c1 _ => c1 != c
  | _ => false

/-- Core `c` in normal operation: `stopped` is unset, the worker is in its loop, no nil buffer
is queued, `done` is empty, and every goroutine is calm. The sink of the core is `s` and its
encoder `enc`. -/
def Normal (c s : Nat) (enc : Encoder) (w : World) : Prop :=
  w.stopped = false ∧ (∀ u, (w.threads u).calm c = true) ∧
    ∃ core ch d wk, w.cores c = some core ∧ core.out = s ∧ core.enc = enc ∧
      core.logCh = some ch ∧ none ∉ ch.buf ∧ core.done = some d ∧ d.buf = [] ∧
      core.worker = some wk ∧ (wk.pc = WorkerPC.select ∨ wk.pc = WorkerPC.flush)

/-- The bytes that core `c` holds on their way to the sink: while the worker is in its loop,
those in the accumulator and those of the records queued ahead of any nil buffer; once it has
received the nil buffer, those in the accumulator until its final write. -/
def heldBy (c : Nat) (w : World) : Bytes :=
  match w.cores c with
  | none => []
  | some core =>
    match core.worker, core.logCh with
    | some wk, some ch =>
      match wk.pc with
      | WorkerPC.select => wk.logBuffer ++ (beforeNil ch.buf).flatten
      | WorkerPC.flush => wk.logBuffer ++ (beforeNil ch.buf).flatten
      | WorkerPC.drain => wk.logBuffer
      | _ => []
    | _, _ => []

/-- Whether no nil buffer has reached core `c` yet: the worker is in its loop and no nil
buffer is queued. -/
def isOpen (c : Nat) (w : World) : Bool :=
  match w.cores c with
  | none => false
  | some core =>
    match core.worker, core.logCh with
    | some wk, some ch =>
      (wk.pc == WorkerPC.select || wk.pc == WorkerPC.flush) && decide (none ∉ ch.buf)
    | _, _ => false

/-- What a step has appended to the queue of core `c`, if it has appended something: a record,
or the nil buffer. -/
def sentAt (c : Nat) (w w1 : World) : Option (Option Bytes) :=
  match w.cores c, w1.cores c with
  | some core, some core1 =>
    match core.logCh, core1.logCh with
    | some ch, some ch1 => if ch1.buf.length = ch.buf.length + 1 then ch1.buf.getLast? else none
    | _, _ => none
  | _, _ => none

/-- What the action has enqueued on core `c`, with the goroutine that enqueued it. -/
def sentBy (c : Nat) (w w1 : World) : Action → List (Nat × Option Bytes)
  | Action.thread u =>
    match sentAt c w w1 with
    | some x => [(u, x)]
    | none => []
  | _ => []

/-- The enqueue order of a run on core `c`: what was appended to its queue (records and nil
buffers), in the order of the steps that appended it, each with the goroutine that enqueued
it. -/
def enqueueOrder (c : Nat) (w : World) : List Action → List (Nat × Option Bytes)
  | [] => []
  | a :: rest =>
    match step w a with
    | none => []
    | some w1 => sentBy c w w1 a ++ enqueueOrder c w1 rest

/-- Of what is enqueued on core `c` from the state `w` on, the records enqueued ahead of any
nil buffer: none if a nil buffer has reached the core already. -/
def sentEarly (c : Nat) (w : World) (l : List (Nat × Option Bytes)) : List Bytes :=
  if isOpen c w then beforeNil (l.map Prod.snd) else []

/-- The encoded records of the `Write` calls on core `c` in a list of calls, in order; a call
whose encoding fails has no record. -/
def recordsOn (c : Nat) (enc : Encoder) : List Call → List Bytes
  | [] => []
  | Call.Write c1 ent fields :: rest =>
    if c1 = c then
      match enc.EncodeEntry ent fields with
      | Except.ok buf => buf :: recordsOn c enc rest
      | Except.error _ => recordsOn c enc rest
    else recordsOn c enc rest
  | Call.Close _ :: rest => recordsOn c enc rest

/-- All the calls made in a schedule, in order. -/
def allCalls : List Action → List Call
  | [] => []
  | Action.invoke _ call :: rest => call :: allCalls rest
  | _ :: rest => allCalls rest

/-- The encoded records of the `Write` calls on core `c` made in a schedule, in call order, each
with the goroutine that made the call. -/
def calledRecords (c : Nat) (enc : Encoder) : List Action → List (Nat × Bytes)
  | [] => []
  | Action.invoke u call :: rest =>
    (recordsOn c enc [call]).map (fun b => (u, b)) ++ calledRecords c enc rest
  | _ :: rest => calledRecords c enc rest

/-- The records among what was enqueued, each with the goroutine that enqueued it. -/
def recordsOf (l : List (Nat × Option Bytes)) : List (Nat × Bytes) :=
  l.filterMap (fun p => p.2.map (fun b => (p.1, b)))

/-- The record that a `Write` on core `c` in flight holds and has not enqueued yet. -/
def PC.record (c : Nat) (enc : Encoder) : PC → List Bytes
  | PC.wEncode c1 ent fields => recordsOn c enc [Call.Write c1 ent fields]
  | PC.wStopped c1 buf => if c1 = c then [buf] else []
  | PC.wSelect c1 buf => if c1 = c then [buf] else []
  | _ => []

/-- The actions of normal load: no call of `Close`, no `Write` of severity above error (which
calls `Close`). -/
def Action.normalLoad : Action → Bool
  | Action.invoke _ (Call.Write _ ent _) => decide (ent.Level ≤ ErrorLevel)
  | Action.invoke _ (Call.Close _) => false
  | _ => true

/-- The actions of normal load other than a tick of the worker of core `c`. -/
def Action.quiet (c : Nat) : Action → Bool
  | Action.tick c1 => c1 != c
  | a => a.normalLoad

/-- Whether the action makes a `Write` on core `c` take the `default` case of its `select` (the
queue is full). -/
def fullQueuePathOn (c : Nat) (w : World) : Action → Bool
  | Action.thread t =>
    match w.threads t with
    | PC.wSelect c1 buf =>
      c1 == c &&
        match w.cores c with
        | some core => (send core.logCh (some buf)).isNone
        | none => false
    | _ => false
  | _ => false

/-- Whether no `Write` on core `c` takes the full-queue path in a run. -/
def neverFullQueueOn (c : Nat) (w : World) : List Action → Bool
  | [] => true
  | a :: rest =>
    !fullQueuePathOn c w a &&
      match step w a with
      | some w1 => neverFullQueueOn c w1 rest
      | none => true

/-- Whether the action makes a `Write` on core `c` find `stopped` set (line 109), and so take
the direct-write path. -/
def findsStoppedOn (c : Nat) (w : World) : Action → Bool
  | Action.thread t =>
    match w.threads t with
    | PC.wStopped c1 _ => c1 == c && w.stopped
    | _ => false
  | _ => false

/-- Whether every `Write` on core `c` that reads `stopped` in a run finds it unset. -/
def neverStoppedOn (c : Nat) (w : World) : List Action → Bool
  | [] => true
  | a :: rest =>
    !findsStoppedOn c w a &&
      match step w a with
      | some w1 => neverStoppedOn c w1 rest
      | none => true

/-- Whether the action is a step of core `c`: of a goroutine in a call on `c`, or of the worker
of `c`. -/
def Action.ofCore (c : Nat) (w : World) : Action → Bool
  | Action.thread u => (w.threads u).core? == some c
  | Action.worker c1 => c1 == c
  | _ => false

/-- Whether in a run the sink `s` is handed bytes by core `c` only: no goroutine in a call on
another core and no worker of another core hands it any byte. -/
def ownSink (c s : Nat) (w : World) : List Action → Bool
  | [] => true
  | a :: rest =>
    match step w a with
    | none => true
    | some w1 =>
      (a.ofCore c w || decide ((w1.sinks s).received.flatten = (w.sinks s).received.flatten)) &&
        ownSink c s w1 rest

/-- The core a call is made on. -/
def Call.core : Call → Nat
  | Call.Write c _ _ => c
  | Call.Close c => c

/-- The actions in which no call is made on core `c`. -/
def Action.noCallOn (c : Nat) : Action → Bool
  | Action.invoke _ call => call.core != c
  | _ => true

/-- No flush is pending in the worker of core `c`. -/
def noFlushPending (c : Nat) (w : World) : Prop :=
  ∀ core wk, w.cores c = some core → core.worker = some wk → wk.flushLog = false

/-- Core `c` exists, with sink `s`, encoder `enc`, a queue and a worker. -/
def Live (c s : Nat) (enc : Encoder) (w : World) : Prop :=
  ∃ core ch wk, w.cores c = some core ∧ core.out = s ∧ core.enc = enc ∧
    core.logCh = some ch ∧ core.worker = some wk

/-- Whether the action is a write to the sink by a goroutine in a call on core `c`: the direct
write of a `Write` (line 110), its warning (line 117), or the notice of a `Close` (lines 143
and 145). -/
def writesSinkOn (c : Nat) (w : World) : Action → Bool
  | Action.thread t =>
    match w.threads t with
    | PC.wDirect c1 _ => c1 == c
    | PC.wWarn c1 _ => c1 == c
    | PC.cTimeout c1 _ => c1 == c
    | PC.cSuccess c1 _ => c1 == c
    | _ => false
  | _ => false

/-- Whether a goroutine is in a `Close` on core `c` that it called itself and that has neither
timed out nor written its notice. -/
def PC.closing (c : Nat) : PC → Bool
  | PC.cStopped c1 k => c1 == c && !k
  | PC.cSendNil c1 k => c1 == c && !k
  | PC.cSelect c1 k => c1 == c && !k
  | PC.cSuccess c1 k => c1 == c && !k
  | _ => false

/-- Core `c` during the `Close` of goroutine `t`, up to the notice: every other goroutine is
calm. -/
def Closing (t c s : Nat) (enc : Encoder) (w : World) : Prop :=
  Live c s enc w ∧ (w.threads t).closing c = true ∧ ∀ u, u ≠ t → (w.threads u).calm c = true

/-- Goroutines 0 and 1 each call `Write` on core 0, of "ab" at info level and of "cd" at warn
level: goroutine 0 enqueues "ab"; goroutine 1 encodes, reads `stopped` (unset) and stands at
its `select`. -/
def twoProducers : List Action :=
  [Action.invoke 0 (Call.Write 0 { Level := 0, Message := "ab" } []),
    Action.invoke 1 (Call.Write 0 { Level := 1, Message := "cd" } []),
    Action.thread 0, Action.thread 0, Action.thread 0, Action.thread 1, Action.thread 1]

/-- After the call of `Close` by goroutine 0 on core 0: `Close` sets the flag; goroutine 1
enqueues "cd"; `Close` sends the nil buffer; the worker receives "ab", "cd" and the nil buffer,
does its final write, signals `done` and returns. -/
def closeAfterTwo : List Action :=
  [Action.thread 0, Action.thread 1, Action.thread 0, Action.worker 0, Action.worker 0,
    Action.worker 0, Action.worker 0, Action.worker 0, Action.worker 0, Action.worker 0]

/-- As `twoProducers`, and goroutine 1 enqueues "cd" too: both calls have returned. -/
def twoProducersDone : List Action := twoProducers ++ [Action.thread 1]

/-- After the call of `Close` by goroutine 0 on core 0 that follows `twoProducersDone`: `Close`
sets the flag and sends the nil buffer; the worker receives "ab", "cd" and the nil buffer, does
its final write, signals `done` and returns. -/
def closeAfterDone : List Action :=
  [Action.thread 0, Action.thread 0, Action.worker 0, Action.worker 0,
    Action.worker 0, Action.worker 0, Action.worker 0, Action.worker 0, Action.worker 0]

/-! ## Theorems -/

/-! ## Basic lemmas -/

@[simp] theorem setPC_threads (w : World) (t : Nat) (pc : PC) (u : Nat) :
    (w.setPC t pc).threads u = if u = t then pc else w.threads u := by
  simp [World.setPC, Function.update_apply]

@[simp] theorem setPC_cores (w : World) (t : Nat) (pc : PC) : (w.setPC t pc).cores = w.cores := rfl
@[simp] theorem setPC_sinks (w : World) (t : Nat) (pc : PC) : (w.setPC t pc).sinks = w.sinks := rfl
@[simp] theorem setPC_stopped (w : World) (t : Nat) (pc : PC) : (w.setPC t pc).stopped = w.stopped := rfl
@[simp] theorem setCore_threads (w : World) (c : Nat) (core : Core) : (w.setCore c core).threads = w.threads := rfl
@[simp] theorem setCore_sinks (w : World) (c : Nat) (core : Core) : (w.setCore c core).sinks = w.sinks := rfl
@[simp] theorem setCore_stopped (w : World) (c : Nat) (core : Core) : (w.setCore c core).stopped = w.stopped := rfl
@[simp] theorem setCore_cores (w : World) (c : Nat) (core : Core) (d : Nat) :
    (w.setCore c core).cores d = if d = c then some core else w.cores d := by
  simp [World.setCore, Function.update_apply]
@[simp] theorem sinkWrite_threads (w : World) (s : Nat) (b : Bytes) : (w.sinkWrite s b).threads = w.threads := rfl
@[simp] theorem sinkWrite_cores (w : World) (s : Nat) (b : Bytes) : (w.sinkWrite s b).cores = w.cores := rfl
@[simp] theorem sinkWrite_stopped (w : World) (s : Nat) (b : Bytes) : (w.sinkWrite s b).stopped = w.stopped := rfl
@[simp] theorem sinkWrite_sinks (w : World) (s : Nat) (b : Bytes) (r : Nat) :
    (w.sinkWrite s b).sinks r =
      if r = s then { received := (w.sinks s).received ++ [b], failing := (w.sinks s).failing }
      else w.sinks r := by
  simp [World.sinkWrite, Function.update_apply, Sink.Write]

theorem send_eq_some {α : Type} (ch : Option (Chan α)) (x : α) (ch1 : Chan α) :
    send ch x = some ch1 ↔
      ∃ c, ch = some c ∧ c.buf.length < c.cap ∧ ch1 = { cap := c.cap, buf := c.buf ++ [x] } := by
  cases ch with
  | none => simp [send]
  | some c =>
    by_cases h : c.buf.length < c.cap
    · simp [send, h, eq_comm]
    · simp [send, h]

theorem send_eq_none {α : Type} (ch : Option (Chan α)) (x : α) :
    send ch x = none ↔ ∀ c, ch = some c → ¬ c.buf.length < c.cap := by
  cases ch with
  | none => simp [send]
  | some c =>
    by_cases h : c.buf.length < c.cap
    · simp [send, h]
    · simp only [send, h, if_false, Option.some.injEq, true_iff]
      intro c1 h1
      subst h1
      exact h

theorem recv_eq_some {α : Type} (ch : Option (Chan α)) (x : α) (ch1 : Chan α) :
    recv ch = some (x, ch1) ↔
      ∃ c rest, ch = some c ∧ c.buf = x :: rest ∧ ch1 = { cap := c.cap, buf := rest } := by
  cases ch with
  | none => simp [recv]
  | some c =>
    cases hb : c.buf with
    | nil => simp [recv, hb]
    | cons y rest => 
      simp only [recv, hb, Option.some.injEq, Prod.mk.injEq]
      constructor
      · rintro ⟨rfl, rfl⟩
        exact ⟨c, rest, rfl, hb, rfl⟩
      · rintro ⟨c1, rest1, h1, h2, h3⟩
        cases h1
        rw [hb] at h2
        cases h2
        exact ⟨rfl, h3.symm⟩

theorem setCore_self (w : World) (c : Nat) (core : Core) :
    (w.setCore c core).cores c = some core := by
  simp

theorem setPC_setCore_self (w : World) (c t : Nat) (core : Core) (pc : PC) :
    ((w.setCore c core).setPC t pc).cores c = some core := by
  simp

theorem step_cases (w w1 : World) (a : Action) (h : step w a = some w1) : StepCase w a w1 := by
  cases a with
  | invoke t call =>
    simp only [step, invokeStep] at h
    split at h
    · cases call <;> simp only [Option.some.injEq] at h <;> subst h
      · exact StepCase.invWrite _ _ _ _ (by simp_all [PC.notInCall])
      · exact StepCase.invClose _ _ (by simp_all [PC.notInCall])
    · cases call <;> simp only [Option.some.injEq] at h <;> subst h
      · exact StepCase.invWrite _ _ _ _ (by simp_all [PC.notInCall])
      · exact StepCase.invClose _ _ (by simp_all [PC.notInCall])
    · cases call <;> simp only [Option.some.injEq] at h <;> subst h
      · exact StepCase.invWrite _ _ _ _ (by simp_all [PC.notInCall])
      · exact StepCase.invClose _ _ (by simp_all [PC.notInCall])
    · contradiction
  | thread t =>
    simp only [step, threadStep] at h
    cases hpc : w.threads t with
    | idle => simp [hpc, PC.core?] at h
    | retWrite e => simp [hpc, PC.core?] at h
    | retClose => simp [hpc, PC.core?] at h
    | wEncode c ent fields =>
      simp only [hpc, PC.core?] at h
      cases hc : w.cores c with
      | none => simp [hc] at h
      | some core =>
        simp only [hc, PC.inClose, Write_step, Bool.false_eq_true, if_false] at h
        cases he : core.enc.EncodeEntry ent fields with
        | error err =>
          simp only [he, Option.some.injEq] at h; subst h
          exact StepCase.encErr t c ent fields core err hpc hc he
        | ok buf =>
          simp only [he] at h
          by_cases hl : ent.Level > ErrorLevel
          · simp only [hl, if_true, Option.some.injEq] at h; subst h
            exact StepCase.encPanic t c ent fields core buf hpc hc he hl
          · simp only [hl, if_false, Option.some.injEq] at h; subst h
            exact StepCase.encNormal t c ent fields core buf hpc hc he hl
    | wPanicSend c buf =>
      simp only [hpc, PC.core?] at h
      cases hc : w.cores c with
      | none => simp [hc] at h
      | some core =>
        simp only [hc, PC.inClose, Write_step, Bool.false_eq_true, if_false] at h
        cases hs : send core.logCh (some buf) with
        | none => simp [hs] at h
        | some ch1 =>
          simp only [hs, Option.some.injEq] at h; subst h
          obtain ⟨ch, hq, hroom, rfl⟩ := (send_eq_some _ _ _).1 hs
          exact StepCase.panicSend t c buf core ch hpc hc hq hroom
    | wStopped c buf =>
      simp only [hpc, PC.core?] at h
      cases hc : w.cores c with
      | none => simp [hc] at h
      | some core =>
        simp only [hc, PC.inClose, Write_step, Bool.false_eq_true, if_false] at h
        by_cases hs : w.stopped = true
        · rw [if_pos hs] at h; simp only [Option.some.injEq] at h; subst h
          exact StepCase.readStopped t c buf core hpc hc hs
        · rw [if_neg hs] at h; simp only [Option.some.injEq] at h; subst h
          exact StepCase.readNotStopped t c buf core hpc hc (by simpa using hs)
    | wDirect c buf =>
      simp only [hpc, PC.core?] at h
      cases hc : w.cores c with
      | none => simp [hc] at h
      | some core =>
        simp only [hc, PC.inClose, Write_step, Bool.false_eq_true, if_false, Option.some.injEq] at h
        subst h
        exact StepCase.direct t c buf core hpc hc
    | wSelect c buf =>
      simp only [hpc, PC.core?] at h
      cases hc : w.cores c with
      | none => simp [hc] at h
      | some core =>
        simp only [hc, PC.inClose, Write_step, Bool.false_eq_true, if_false] at h
        cases hs : send core.logCh (some buf) with
        | none =>
          simp only [hs, Option.some.injEq] at h; subst h
          exact StepCase.selectDefault t c buf core hpc hc ((send_eq_none _ _).1 hs)
        | some ch1 =>
          simp only [hs, Option.some.injEq] at h; subst h
          obtain ⟨ch, hq, hroom, rfl⟩ := (send_eq_some _ _ _).1 hs
          exact StepCase.selectSend t c buf core ch hpc hc hq hroom
    | wWarn c buf =>
      simp only [hpc, PC.core?] at h
      cases hc : w.cores c with
      | none => simp [hc] at h
      | some core =>
        simp only [hc, PC.inClose, Write_step, Bool.false_eq_true, if_false, Option.some.injEq] at h
        subst h
        exact StepCase.warn t c buf core hpc hc
    | wBlocked c buf =>
      simp only [hpc, PC.core?] at h
      cases hc : w.cores c with
      | none => simp [hc] at h
      | some core =>
        simp only [hc, PC.inClose, Write_step, Bool.false_eq_true, if_false] at h
        cases hs : send core.logCh (some buf) with
        | none => simp [hs] at h
        | some ch1 =>
          simp only [hs, Option.some.injEq] at h; subst h
          obtain ⟨ch, hq, hroom, rfl⟩ := (send_eq_some _ _ _).1 hs
          exact StepCase.blockedSend t c buf core ch hpc hc hq hroom
    | cStopped c k =>
      simp only [hpc, PC.core?] at h
      cases hc : w.cores c with
      | none => simp [hc] at h
      | some core =>
        simp only [hc, PC.inClose, Close_step, if_true, Option.some.injEq] at h
        subst h
        exact StepCase.setStopped t c k core hpc hc
    | cSendNil c k =>
      simp only [hpc, PC.core?] at h
      cases hc : w.cores c with
      | none => simp [hc] at h
      | some core =>
        simp only [hc, PC.inClose, Close_step, if_true] at h
        cases hs : send core.logCh none with
        | none => simp [hs] at h
        | some ch1 =>
          simp only [hs, Option.some.injEq] at h; subst h
          obtain ⟨ch, hq, hroom, rfl⟩ := (send_eq_some _ _ _).1 hs
          exact StepCase.sendNil t c k core ch hpc hc hq hroom
    | cSelect c k =>
      simp only [hpc, PC.core?] at h
      cases hc : w.cores c with
      | none => simp [hc] at h
      | some core =>
        simp only [hc, PC.inClose, Close_step, if_true] at h
        cases hs : recv core.done with
        | none => simp [hs] at h
        | some p =>
          obtain ⟨x, ch1⟩ := p
          simp only [hs, Option.some.injEq] at h; subst h
          obtain ⟨d, rest, hd, hbuf, rfl⟩ := (recv_eq_some _ _ _).1 hs
          exact StepCase.recvDone t c k core d x rest hpc hc hd hbuf
    | cTimeout c k =>
      simp only [hpc, PC.core?] at h
      cases hc : w.cores c with
      | none => simp [hc] at h
      | some core =>
        simp only [hc, PC.inClose, Close_step, if_true, Option.some.injEq] at h
        subst h
        exact StepCase.timeoutNote t c k core hpc hc
    | cSuccess c k =>
      simp only [hpc, PC.core?] at h
      cases hc : w.cores c with
      | none => simp [hc] at h
      | some core =>
        simp only [hc, PC.inClose, Close_step, if_true, Option.some.injEq] at h
        subst h
        exact StepCase.successNote t c k core hpc hc
  | timer t =>
    simp only [step, timerStep] at h
    split at h
    · simp only [Option.some.injEq] at h; subst h
      exact StepCase.timerFires _ _ _ (by assumption)
    · contradiction
  | worker c =>
    simp only [step, workerStep] at h
    cases hc : w.cores c with
    | none => simp [hc] at h
    | some core =>
      simp only [hc] at h
      cases hw : core.worker with
      | none => simp [hw] at h
      | some wk =>
        simp only [hw] at h
        cases hpc : wk.pc with
        | select =>
          simp only [hpc] at h
          cases hs : recv core.logCh with
          | none => simp [hs] at h
          | some p =>
            obtain ⟨x, ch1⟩ := p
            obtain ⟨ch, rest, hq, hbuf, rfl⟩ := (recv_eq_some _ _ _).1 hs
            cases x with
            | none =>
              simp only [hs, Option.some.injEq] at h; subst h
              exact StepCase.workerNil c core wk ch rest hc hw hpc hq hbuf
            | some buf =>
              simp only [hs, Option.some.injEq] at h; subst h
              exact StepCase.workerRecv c core wk ch buf rest hc hw hpc hq hbuf
        | flush =>
          simp only [hpc] at h
          by_cases hf : wk.flushLog = true
          · rw [if_pos hf] at h; simp only [Option.some.injEq] at h; subst h
            exact StepCase.workerFlush c core wk hc hw hpc hf
          · rw [if_neg hf] at h; simp only [Option.some.injEq] at h; subst h
            exact StepCase.workerNoFlush c core wk hc hw hpc (by simpa using hf)
        | drain =>
          simp only [hpc, Option.some.injEq] at h; subst h
          exact StepCase.workerDrain c core wk hc hw hpc
        | signal =>
          simp only [hpc] at h
          cases hs : send core.done () with
          | none => simp [hs] at h
          | some ch1 =>
            simp only [hs, Option.some.injEq] at h; subst h
            obtain ⟨d, hd, hroom, rfl⟩ := (send_eq_some _ _ _).1 hs
            exact StepCase.workerSignal c core wk d hc hw hpc hd hroom
        | exited => simp [hpc] at h
  | tick c =>
    simp only [step, tickStep] at h
    cases hc : w.cores c with
    | none => simp [hc] at h
    | some core =>
      simp only [hc] at h
      cases hw : core.worker with
      | none => simp [hw] at h
      | some wk =>
        simp only [hw] at h
        cases hpc : wk.pc <;> simp only [hpc, Option.some.injEq] at h <;> try contradiction
        subst h
        exact StepCase.tick c core wk hc hw hpc
  | newCore id enc ws enab =>
    simp only [step] at h
    split at h
    · simp only [Option.some.injEq] at h; subst h
      exact StepCase.newCore _ _ _ _ (by assumption)
    · contradiction
  | withFields c fields id =>
    simp only [step] at h
    split at h
    · simp only [Option.some.injEq] at h; subst h
      exact StepCase.withFields _ _ _ _ (by assumption) (by assumption)
    · contradiction

/-- A property kept by every step is kept by every run. -/
theorem run_induction (P : World → Prop) (hstep : ∀ w a w1, P w → step w a = some w1 → P w1)
    (w : World) (σ : List Action) (w1 : World) (h0 : P w) (hrun : run w σ = some w1) : P w1 := by
  induction σ generalizing w with
  | nil => simp [run] at hrun; subst hrun; exact h0
  | cons a rest ih =>
    simp only [run] at hrun
    cases hs : step w a with
    | none => simp [hs] at hrun
    | some w2 =>
      simp only [hs] at hrun
      exact ih w2 (hstep w a w2 h0 hs) hrun

/-! ## Frame lemmas -/

theorem step_stopped_mono (w w1 : World) (a : Action) (h : step w a = some w1)
    (hs : w.stopped = true) : w1.stopped = true := by
  have hc := step_cases w w1 a h
  cases hc <;> simp_all

theorem run_stopped_mono (w w1 : World) (σ : List Action) (h : run w σ = some w1)
    (hs : w.stopped = true) : w1.stopped = true :=
  run_induction (fun w => w.stopped = true) (fun w a w1 h0 h => step_stopped_mono w w1 a h h0)
    w σ w1 hs h

/-- A step of another goroutine does not move goroutine `t`. -/
theorem step_threads_other (w w1 : World) (a : Action) (t : Nat) (h : step w a = some w1)
    (h1 : a ≠ Action.thread t) (h2 : ∀ call, a ≠ Action.invoke t call) (h3 : a ≠ Action.timer t) :
    w1.threads t = w.threads t := by
  have hc := step_cases w w1 a h
  cases hc <;> simp_all <;> intro h <;> simp_all

theorem step_core_static (w w1 : World) (a : Action) (c : Nat) (core : Core)
    (h : step w a = some w1) (hc : w.cores c = some core) :
    ∃ core1, w1.cores c = some core1 ∧ core1.enab = core.enab ∧ core1.enc = core.enc ∧
      core1.out = core.out ∧ (core.logCh = none → core1.logCh = none) ∧
      (core.worker = none → core1.worker = none) := by
  have hcase := step_cases w w1 a h
  cases hcase <;> simp only [setPC_cores, setCore_cores, sinkWrite_cores] <;> try split
  all_goals simp_all

theorem step_of_case (w w1 : World) (a : Action) (h : StepCase w a w1) : step w a = some w1 := by
  cases h with
  | invWrite t c ent fields h =>
    cases hpc : w.threads t <;> simp_all [step, invokeStep, PC.notInCall]
  | invClose t c h =>
    cases hpc : w.threads t <;> simp_all [step, invokeStep, PC.notInCall]
  | timerFires t c k ht => simp [step, timerStep, ht]
  | newCore id enc ws enab hfree => simp [step, hfree]
  | withFields c fields id core hc hfree => simp [step, hc, hfree]
  | selectDefault t c buf core ht hc hfull =>
    have hs : send core.logCh (some buf) = none := (send_eq_none _ _).2 hfull
    simp [step, threadStep, ht, hc, PC.core?, PC.inClose, Write_step, hs]
  | recvDone t c k core d x rest ht hc hd hbuf =>
    simp [step, threadStep, ht, hc, PC.core?, PC.inClose, Close_step, recv, hd, hbuf]
  | workerNil c core wk ch rest hc hw hpc hq hbuf =>
    simp [step, workerStep, hc, hw, hpc, recv, hq, hbuf]
  | workerRecv c core wk ch buf rest hc hw hpc hq hbuf =>
    simp [step, workerStep, hc, hw, hpc, recv, hq, hbuf]
  | workerFlush c core wk hc hw hpc hf => simp [step, workerStep, hc, hw, hpc, hf]
  | workerNoFlush c core wk hc hw hpc hf =>
    simp only [step, workerStep, hc, hw, hpc, hf, Bool.false_eq_true, if_false]
  | workerDrain c core wk hc hw hpc => simp [step, workerStep, hc, hw, hpc]
  | workerSignal c core wk d hc hw hpc hd hroom =>
    simp [step, workerStep, hc, hw, hpc, send, hd, hroom]
  | tick c core wk hc hw hpc => simp [step, tickStep, hc, hw, hpc]
  | encErr t c ent fields core err ht hc he =>
    simp [step, threadStep, ht, hc, PC.core?, PC.inClose, Write_step, he]
  | encPanic t c ent fields core buf ht hc he hl =>
    simp [step, threadStep, ht, hc, PC.core?, PC.inClose, Write_step, he, hl]
  | encNormal t c ent fields core buf ht hc he hl =>
    simp [step, threadStep, ht, hc, PC.core?, PC.inClose, Write_step, he, hl]
  | readStopped t c buf core ht hc hs =>
    simp [step, threadStep, ht, hc, PC.core?, PC.inClose, Write_step, hs]
  | readNotStopped t c buf core ht hc hs =>
    simp [step, threadStep, ht, hc, PC.core?, PC.inClose, Write_step, hs]
  | direct t c buf core ht hc =>
    simp [step, threadStep, ht, hc, PC.core?, PC.inClose, Write_step]
  | warn t c buf core ht hc =>
    simp [step, threadStep, ht, hc, PC.core?, PC.inClose, Write_step]
  | setStopped t c k core ht hc =>
    simp [step, threadStep, ht, hc, PC.core?, PC.inClose, Close_step]
  | timeoutNote t c k core ht hc =>
    simp [step, threadStep, ht, hc, PC.core?, PC.inClose, Close_step]
  | successNote t c k core ht hc =>
    simp [step, threadStep, ht, hc, PC.core?, PC.inClose, Close_step]
  | panicSend t c buf core ch ht hc hq hroom =>
    simp [step, threadStep, ht, hc, PC.core?, PC.inClose, Write_step, send, hq, hroom]
  | selectSend t c buf core ch ht hc hq hroom =>
    simp [step, threadStep, ht, hc, PC.core?, PC.inClose, Write_step, send, hq, hroom]
  | blockedSend t c buf core ch ht hc hq hroom =>
    simp [step, threadStep, ht, hc, PC.core?, PC.inClose, Write_step, send, hq, hroom]
  | sendNil t c k core ch ht hc hq hroom =>
    simp [step, threadStep, ht, hc, PC.core?, PC.inClose, Close_step, send, hq, hroom]

theorem step_iff_case (w w1 : World) (a : Action) : step w a = some w1 ↔ StepCase w a w1 :=
  ⟨step_cases w w1 a, step_of_case w w1 a⟩

theorem run_cons_of_step (w w1 : World) (a : Action) (σ : List Action) (h : step w a = some w1) :
    run w (a :: σ) = run w1 σ := by
  simp [run, h]

/-- A property kept by every step of a schedule is kept by its run. -/
theorem run_induction_on (P : World → Prop) (σ : List Action)
    (hstep : ∀ w a w1, a ∈ σ → P w → step w a = some w1 → P w1)
    (w : World) (w1 : World) (h0 : P w) (hrun : run w σ = some w1) : P w1 := by
  induction σ generalizing w with
  | nil => simp [run] at hrun; subst hrun; exact h0
  | cons a rest ih =>
    simp only [run] at hrun
    cases hs : step w a with
    | none => simp [hs] at hrun
    | some w2 =>
      simp only [hs] at hrun
      exact ih (fun w a1 w1 ha => hstep w a1 w1 (List.mem_cons_of_mem _ ha)) w2
        (hstep w a w2 (List.mem_cons_self _ _) h0 hs) hrun

/-! ## C7: the error returned by `Write` -/

theorem Write_ret_inv_step (t c : Nat) (enc : Encoder) (ent : Entry) (fields : List Field)
    (w w1 : World) (a : Action) (hno : ∀ call, a ≠ Action.invoke t call)
    (hI : (∃ core, w.cores c = some core ∧ core.enc = enc) ∧
      (w.threads t).inWriteOf c ent fields (encodeError enc ent fields))
    (h : step w a = some w1) :
    (∃ core, w1.cores c = some core ∧ core.enc = enc) ∧
      (w1.threads t).inWriteOf c ent fields (encodeError enc ent fields) := by
  obtain ⟨⟨core, hcore, henc⟩, hpc⟩ := hI
  refine ⟨?_, ?_⟩
  · obtain ⟨core1, h1, _, h2, _⟩ := step_core_static w w1 a c core h hcore
    exact ⟨core1, h1, h2.trans henc⟩
  · have hcase := step_cases w w1 a h
    cases hcase <;> simp only [setPC_threads, setCore_threads, sinkWrite_threads] <;>
      first
        | exact hpc
        | (split
           · rename_i heq
             subst heq
             first
               | exact absurd rfl (hno _)
               | simp_all [PC.inWriteOf, PC.pastEncode, afterClose, encodeError]
           · exact hpc)

theorem Write_ret_inv_run (t c : Nat) (enc : Encoder) (ent : Entry) (fields : List Field)
    (σ : List Action) (hno : ∀ call, Action.invoke t call ∉ σ) (w w1 : World)
    (hI : (∃ core, w.cores c = some core ∧ core.enc = enc) ∧
      (w.threads t).inWriteOf c ent fields (encodeError enc ent fields))
    (h : run w σ = some w1) :
    (w1.threads t).inWriteOf c ent fields (encodeError enc ent fields) := by
  have := run_induction_on
    (fun w => (∃ core, w.cores c = some core ∧ core.enc = enc) ∧
      (w.threads t).inWriteOf c ent fields (encodeError enc ent fields)) σ
    (fun w a w1 ha hI hs =>
      Write_ret_inv_step t c enc ent fields w w1 a (fun call e => hno call (e ▸ ha)) hI hs)
    w w1 hI h
  exact this.2

/-- C7: `Write` returns an error exactly when the encoder fails. If the encoder fails, `Write`
returns that error in its first step and nothing but the caller's program counter changes: no
core (so no queue), no sink and not the `stopped` flag. In every execution, whatever the other
goroutines and the sinks do (no assumption is made on `failing`), the value `Write` returns is
the encoder's error if there is one and nil otherwise; and on the path that writes to the sink
itself (`stopped` set), `Write` returns nil whether or not that write fails. -/
theorem Write_returns_error_iff_encoder_fails (w : World) (t c : Nat) (core : Core) (ent : Entry)
    (fields : List Field) (hidle : (w.threads t).notInCall = true) (hc : w.cores c = some core) :
    (∀ err, core.enc.EncodeEntry ent fields = Except.error err →
      ∃ w1, run w [Action.invoke t (Call.Write c ent fields), Action.thread t] = some w1 ∧
        w1.threads t = PC.retWrite (some err) ∧ w1.cores = w.cores ∧ w1.sinks = w.sinks ∧
        w1.stopped = w.stopped) ∧
    (∀ σ w1 r, (∀ call, Action.invoke t call ∉ σ) →
      run w (Action.invoke t (Call.Write c ent fields) :: σ) = some w1 →
      w1.threads t = PC.retWrite r →
      ∀ err, r = some err ↔ core.enc.EncodeEntry ent fields = Except.error err) ∧
    (∀ buf, core.enc.EncodeEntry ent fields = Except.ok buf → ent.Level ≤ ErrorLevel →
      w.stopped = true →
      ∃ w1, run w [Action.invoke t (Call.Write c ent fields), Action.thread t, Action.thread t,
          Action.thread t] = some w1 ∧
        w1.threads t = PC.retWrite none ∧
        (w1.sinks core.out).received = (w.sinks core.out).received ++ [buf]) := by
  have hinv : step w (Action.invoke t (Call.Write c ent fields)) =
      some (w.setPC t (PC.wEncode c ent fields)) :=
    step_of_case _ _ _ (StepCase.invWrite t c ent fields hidle)
  refine ⟨?_, ?_, ?_⟩
  · intro err he
    refine ⟨(w.setPC t (PC.wEncode c ent fields)).setPC t (PC.retWrite (some err)), ?_, by simp,
      rfl, rfl, rfl⟩
    rw [run_cons_of_step _ _ _ _ hinv, run_cons_of_step _ _ _ _
      (step_of_case _ _ _ (StepCase.encErr t c ent fields core err (by simp) (by simpa using hc) he))]
    rfl
  · intro σ w1 r hno hrun hr err
    rw [run_cons_of_step _ _ _ _ hinv] at hrun
    have hI := Write_ret_inv_run t c core.enc ent fields σ hno (w.setPC t (PC.wEncode c ent fields))
      w1 ⟨⟨core, by simpa using hc, rfl⟩, by simp [PC.inWriteOf]⟩ hrun
    rw [hr] at hI
    simp only [PC.inWriteOf] at hI
    subst hI
    cases he : core.enc.EncodeEntry ent fields <;> simp [encodeError, he]
  · intro buf he hl hs
    have hl2 : ¬ ent.Level > ErrorLevel := not_lt.mpr hl
    refine ⟨((((w.setPC t (PC.wEncode c ent fields)).setPC t (PC.wStopped c buf)).setPC t
      (PC.wDirect c buf)).sinkWrite core.out buf).setPC t (PC.retWrite none), ?_, by simp, by simp⟩
    rw [run_cons_of_step _ _ _ _ hinv,
      run_cons_of_step _ _ _ _ (step_of_case _ _ _
        (StepCase.encNormal t c ent fields core buf (by simp) (by simpa using hc) he hl2)),
      run_cons_of_step _ _ _ _ (step_of_case _ _ _
        (StepCase.readStopped t c buf core (by simp) (by simpa using hc) (by simpa using hs))),
      run_cons_of_step _ _ _ _ (step_of_case _ _ _
        (StepCase.direct t c buf core (by simp) (by simpa using hc)))]
    rfl

/-- Witness of C7: on a core whose sink fails every write, an empty message is rejected by the
encoder and `Write` returns that error at once. -/
theorem Write_returns_error_iff_encoder_fails_witness :
    (failingWorld.threads 0).notInCall = true ∧
    failingWorld.cores 0 = some (NewCore demoEncoder 0 (fun _ => true)) ∧
    ∃ w1, run failingWorld [Action.invoke 0 (Call.Write 0 { Level := 0, Message := "" } []),
        Action.thread 0] = some w1 ∧
      w1.threads 0 = PC.retWrite (some "empty message") ∧ w1.cores = failingWorld.cores ∧
      w1.sinks = failingWorld.sinks ∧ w1.stopped = failingWorld.stopped :=
  ⟨rfl, rfl, (Write_returns_error_iff_encoder_fails failingWorld 0 0
    (NewCore demoEncoder 0 (fun _ => true)) { Level := 0, Message := "" } [] rfl rfl).1
    "empty message" rfl⟩

/-! ## C6: the process-wide `stopped` flag -/

theorem direct_write_inv_step (t c : Nat) (enc : Encoder) (ent : Entry) (fields : List Field)
    (buf : Bytes) (henc : enc.EncodeEntry ent fields = Except.ok buf)
    (hl : ent.Level ≤ ErrorLevel)
    (w w1 : World) (a : Action) (hno : ∀ call, a ≠ Action.invoke t call)
    (hI : w.stopped = true ∧ (∃ core, w.cores c = some core ∧ core.enc = enc) ∧
      (w.threads t).inDirectWrite c ent fields buf)
    (h : step w a = some w1) :
    w1.stopped = true ∧ (∃ core, w1.cores c = some core ∧ core.enc = enc) ∧
      (w1.threads t).inDirectWrite c ent fields buf := by
  obtain ⟨hs, ⟨core, hcore, he⟩, hpc⟩ := hI
  have hl2 : ¬ ent.Level > ErrorLevel := not_lt.mpr hl
  refine ⟨step_stopped_mono w w1 a h hs, ?_, ?_⟩
  · obtain ⟨core1, h1, _, h2, _⟩ := step_core_static w w1 a c core h hcore
    exact ⟨core1, h1, h2.trans he⟩
  · have hcase := step_cases w w1 a h
    cases hcase <;> simp only [setPC_threads, setCore_threads, sinkWrite_threads] <;>
      first
        | exact hpc
        | (split
           · rename_i heq
             subst heq
             first
               | exact absurd rfl (hno _)
               | (simp_all [PC.inDirectWrite] <;> omega)
           · exact hpc)

/-- C6: the `stopped` flag is one variable for the whole process. Once the first statement of
`Close` has run on any core `c1` (called directly or from a panic-class `Write`), the flag is
set and stays set in every later state. From such a state, a `Write` of severity at most
error on any core `c2` (the same or another one) whose encoding succeeds hands the record's
bytes to the sink of `c2` in exactly one write and returns nil, leaving every core (queues,
`done` channels and the workers' accumulators) as it was; and in every interleaving with the
other goroutines that `Write` only stands before the encoder, before reading `stopped`, before
the direct write, or has returned: it never reaches the `select` that enqueues. -/
theorem stopped_flag_is_process_wide (w : World) (t1 c1 : Nat) (k : Bool) (core1 : Core)
    (hclose : w.threads t1 = PC.cStopped c1 k) (hcore1 : w.cores c1 = some core1) :
    ∃ w0, step w (Action.thread t1) = some w0 ∧ w0.stopped = true ∧
      ∀ σ w1, run w0 σ = some w1 →
        w1.stopped = true ∧
        ∀ t2 c2 core2 ent fields buf, (w1.threads t2).notInCall = true →
          w1.cores c2 = some core2 → ent.Level ≤ ErrorLevel →
          core2.enc.EncodeEntry ent fields = Except.ok buf →
          (∃ w2, run w1 [Action.invoke t2 (Call.Write c2 ent fields), Action.thread t2,
              Action.thread t2, Action.thread t2] = some w2 ∧
            w2.threads t2 = PC.retWrite none ∧ w2.cores = w1.cores ∧
            (w2.sinks core2.out).received = (w1.sinks core2.out).received ++ [buf] ∧
            ∀ s, s ≠ core2.out → w2.sinks s = w1.sinks s) ∧
          (∀ σ2 w2, (∀ call, Action.invoke t2 call ∉ σ2) →
            run w1 (Action.invoke t2 (Call.Write c2 ent fields) :: σ2) = some w2 →
            w2.threads t2 = PC.wEncode c2 ent fields ∨ w2.threads t2 = PC.wStopped c2 buf ∨
            w2.threads t2 = PC.wDirect c2 buf ∨ w2.threads t2 = PC.retWrite none) := by
  refine ⟨_, step_of_case _ _ _ (StepCase.setStopped t1 c1 k core1 hclose hcore1), by simp, ?_⟩
  intro σ w1 hrun
  have hs : w1.stopped = true := run_stopped_mono _ _ σ hrun (by simp)
  refine ⟨hs, ?_⟩
  intro t2 c2 core2 ent fields buf hidle hc2 hl henc
  have hl2 : ¬ ent.Level > ErrorLevel := not_lt.mpr hl
  have hinv : step w1 (Action.invoke t2 (Call.Write c2 ent fields)) =
      some (w1.setPC t2 (PC.wEncode c2 ent fields)) :=
    step_of_case _ _ _ (StepCase.invWrite t2 c2 ent fields hidle)
  refine ⟨?_, ?_⟩
  · refine ⟨((((w1.setPC t2 (PC.wEncode c2 ent fields)).setPC t2 (PC.wStopped c2 buf)).setPC t2
      (PC.wDirect c2 buf)).sinkWrite core2.out buf).setPC t2 (PC.retWrite none), ?_, by simp,
      by simp, by simp, ?_⟩
    · rw [run_cons_of_step _ _ _ _ hinv,
        run_cons_of_step _ _ _ _ (step_of_case _ _ _
          (StepCase.encNormal t2 c2 ent fields core2 buf (by simp) (by simpa using hc2) henc hl2)),
        run_cons_of_step _ _ _ _ (step_of_case _ _ _
          (StepCase.readStopped t2 c2 buf core2 (by simp) (by simpa using hc2) (by simpa using hs))),
        run_cons_of_step _ _ _ _ (step_of_case _ _ _
          (StepCase.direct t2 c2 buf core2 (by simp) (by simpa using hc2)))]
      rfl
    · intro s hne
      simp [hne]
  · intro σ2 w2 hno hrun2
    rw [run_cons_of_step _ _ _ _ hinv] at hrun2
    have hI := run_induction_on
      (fun w => w.stopped = true ∧ (∃ core, w.cores c2 = some core ∧ core.enc = core2.enc) ∧
        (w.threads t2).inDirectWrite c2 ent fields buf) σ2
      (fun w a w1 ha hI hs =>
        direct_write_inv_step t2 c2 core2.enc ent fields buf henc hl w w1 a
          (fun call e => hno call (e ▸ ha)) hI hs)
      (w1.setPC t2 (PC.wEncode c2 ent fields)) w2
      ⟨by simpa using hs, ⟨core2, by simpa using hc2, rfl⟩, by simp [PC.inDirectWrite]⟩ hrun2
    have hpc := hI.2.2
    cases hw2 : w2.threads t2 <;> simp_all [PC.inDirectWrite]

/-- Witness of C6: a goroutine that has just called `Close` on the core at address 0. -/
theorem stopped_flag_is_process_wide_witness :
    closingWorld.threads 0 = PC.cStopped 0 false ∧
    closingWorld.cores 0 = some (NewCore demoEncoder 0 (fun _ => true)) ∧
    ∃ w0, step closingWorld (Action.thread 0) = some w0 ∧ w0.stopped = true :=
  ⟨rfl, rfl, (stopped_flag_is_process_wide closingWorld 0 0 false
    (NewCore demoEncoder 0 (fun _ => true)) rfl rfl).imp (fun _ h => ⟨h.1, h.2.1⟩)⟩

theorem run_core_static (w w1 : World) (σ : List Action) (c : Nat) (core : Core)
    (h : run w σ = some w1) (hc : w.cores c = some core) :
    ∃ core1, w1.cores c = some core1 ∧ core1.enab = core.enab ∧ core1.enc = core.enc ∧
      core1.out = core.out ∧ (core.logCh = none → core1.logCh = none) ∧
      (core.worker = none → core1.worker = none) := by
  refine run_induction
    (fun w => ∃ core1, w.cores c = some core1 ∧ core1.enab = core.enab ∧ core1.enc = core.enc ∧
      core1.out = core.out ∧ (core.logCh = none → core1.logCh = none) ∧
      (core.worker = none → core1.worker = none)) ?_ w σ w1 ⟨core, hc, rfl, rfl, rfl, id, id⟩ h
  rintro w a w1 ⟨core1, h1, h2, h3, h4, h5, h6⟩ hs
  obtain ⟨core2, g1, g2, g3, g4, g5, g6⟩ := step_core_static w w1 a c core1 hs h1
  exact ⟨core2, g1, g2.trans h2, g3.trans h3, g4.trans h4, fun h => g5 (h5 h), fun h => g6 (h6 h)⟩

/-! ## C10: the core returned by `With` -/

/-- A goroutine blocked on the send of line 118 on a core with a nil `logCh` stays there. -/
theorem blocked_on_nil_inv_step (t c : Nat) (buf : Bytes) (w w1 : World) (a : Action)
    (hI : (∃ core, w.cores c = some core ∧ core.logCh = none) ∧ w.threads t = PC.wBlocked c buf)
    (h : step w a = some w1) :
    (∃ core, w1.cores c = some core ∧ core.logCh = none) ∧ w1.threads t = PC.wBlocked c buf := by
  obtain ⟨⟨core, hcore, hnil⟩, hpc⟩ := hI
  refine ⟨?_, ?_⟩
  · obtain ⟨core1, h1, _, _, _, h2, _⟩ := step_core_static w w1 a c core h hcore
    exact ⟨core1, h1, h2 hnil⟩
  · have hcase := step_cases w w1 a h
    cases hcase <;> simp only [setPC_threads, setCore_threads, sinkWrite_threads] <;>
      first
        | exact hpc
        | (split
           · rename_i heq
             subst heq
             simp_all [PC.notInCall]
           · exact hpc)

/-- C10: `With` (through `clone`) returns a core that shares the sink and the level filter of
`c`, has a clone of its encoder with the fields added, and has a nil `logCh`, a nil `done` and
no worker; `c` itself is untouched. Consequently, in any later state where `stopped` is unset,
a `Write` of severity at most error on the returned core (one whose encoding succeeds, giving
`buf`) finds the send of its `select` not ready, writes "log chan blocked\n" to the shared sink
and then stands before the blocking send of line 118 for ever: in every continuation its
program counter is unchanged and its step is not enabled. Up to there it has changed no core
(so not the queue of `c`) and has handed the sink nothing but the warning. -/
theorem With_returns_core_without_queue (w : World) (c id : Nat) (core : Core)
    (fields : List Field) (hc : w.cores c = some core) (hid : w.cores id = none) :
    ∃ w1 clone, step w (Action.withFields c fields id) = some w1 ∧
      w1.cores id = some clone ∧ w1.cores c = some core ∧
      clone.out = core.out ∧ clone.enab = core.enab ∧
      clone.enc = fields.foldl (fun e f => f.AddTo e) core.enc.Clone ∧
      clone.logCh = none ∧ clone.done = none ∧ clone.worker = none ∧
      ∀ σ w2, run w1 σ = some w2 → w2.stopped = false →
        ∀ t ent fs buf, (w2.threads t).notInCall = true → ent.Level ≤ ErrorLevel →
          clone.enc.EncodeEntry ent fs = Except.ok buf →
          ∃ w3, run w2 [Action.invoke t (Call.Write id ent fs), Action.thread t, Action.thread t,
              Action.thread t, Action.thread t] = some w3 ∧
            w3.threads t = PC.wBlocked id buf ∧ w3.cores = w2.cores ∧
            (w3.sinks core.out).received = (w2.sinks core.out).received ++ [blockedNotice] ∧
            (∀ s, s ≠ core.out → w3.sinks s = w2.sinks s) ∧
            ∀ σ3 w4, run w3 σ3 = some w4 →
              w4.threads t = PC.wBlocked id buf ∧ step w4 (Action.thread t) = none := by
  have hne : c ≠ id := fun e => by rw [e, hid] at hc; cases hc
  refine ⟨w.setCore id (core.With fields), core.With fields,
    step_of_case _ _ _ (StepCase.withFields c fields id core hc hid), by simp, by simp [hne, hc],
    rfl, rfl, rfl, rfl, rfl, rfl, ?_⟩
  intro σ w2 hrun hns t ent fs buf hidle hl henc
  obtain ⟨cl, hcl, _, hclenc, hclout, hclnil, _⟩ := run_core_static _ _ σ id (core.With fields)
    hrun (by simp)
  have hclnil := hclnil rfl
  have hout : cl.out = core.out := hclout
  have hl2 : ¬ ent.Level > ErrorLevel := not_lt.mpr hl
  have henc2 : cl.enc.EncodeEntry ent fs = Except.ok buf := by rw [hclenc]; exact henc
  have hfinal : ∀ σ3 w3 w4, ((∃ core, w3.cores id = some core ∧ core.logCh = none) ∧
      w3.threads t = PC.wBlocked id buf) → run w3 σ3 = some w4 →
      w4.threads t = PC.wBlocked id buf ∧ step w4 (Action.thread t) = none := by
    intro σ3 w3 w4 h3 hrun3
    have hI := run_induction
      (fun w => (∃ core, w.cores id = some core ∧ core.logCh = none) ∧
        w.threads t = PC.wBlocked id buf)
      (fun w a w1 hI hs => blocked_on_nil_inv_step t id buf w w1 a hI hs) w3 σ3 w4 h3 hrun3
    obtain ⟨⟨core4, h4, h4nil⟩, h4pc⟩ := hI
    refine ⟨h4pc, ?_⟩
    simp [step, threadStep, h4pc, PC.core?, h4, PC.inClose, Write_step, send, h4nil]
  refine ⟨(((((w2.setPC t (PC.wEncode id ent fs)).setPC t (PC.wStopped id buf)).setPC t
      (PC.wSelect id buf)).setPC t (PC.wWarn id buf)).sinkWrite cl.out blockedNotice).setPC t
      (PC.wBlocked id buf), ?_, by simp, by simp, by simp [hout], ?_, ?_⟩
  · rw [run_cons_of_step _ _ _ _ (step_of_case _ _ _ (StepCase.invWrite t id ent fs hidle)),
      run_cons_of_step _ _ _ _ (step_of_case _ _ _
        (StepCase.encNormal t id ent fs cl buf (by simp) (by simpa using hcl) henc2 hl2)),
      run_cons_of_step _ _ _ _ (step_of_case _ _ _
        (StepCase.readNotStopped t id buf cl (by simp) (by simpa using hcl) (by simpa using hns))),
      run_cons_of_step _ _ _ _ (step_of_case _ _ _
        (StepCase.selectDefault t id buf cl (by simp) (by simpa using hcl) (by simp [hclnil]))),
      run_cons_of_step _ _ _ _ (step_of_case _ _ _
        (StepCase.warn t id buf cl (by simp) (by simpa using hcl)))]
    rfl
  · intro s hs
    simp [hout, hs]
  · intro σ3 w4 hrun3
    exact hfinal σ3 _ w4 ⟨⟨cl, by simpa using hcl, hclnil⟩, by simp⟩ hrun3

/-- Witness of C10: `With` on the core at address 0, the result stored at the free address 1. -/
theorem With_returns_core_without_queue_witness :
    demoWorld.cores 0 = some (NewCore demoEncoder 0 (fun _ => true)) ∧ demoWorld.cores 1 = none ∧
    ∃ w1, step demoWorld (Action.withFields 0 [] 1) = some w1 ∧
      ∃ clone, w1.cores 1 = some clone ∧ clone.logCh = none ∧ clone.done = none ∧
        clone.worker = none :=
  ⟨rfl, rfl, (With_returns_core_without_queue demoWorld 0 1
    (NewCore demoEncoder 0 (fun _ => true)) [] rfl rfl).imp
    (fun _ h => ⟨h.choose_spec.1, h.choose, h.choose_spec.2.1, h.choose_spec.2.2.2.2.2.2.1,
      h.choose_spec.2.2.2.2.2.2.2.1, h.choose_spec.2.2.2.2.2.2.2.2.1⟩)⟩

/-! ## What a step does to one core -/

theorem step_core_effect (w w1 : World) (a : Action) (c : Nat) (core : Core)
    (h : step w a = some w1) (hc : w.cores c = some core) : CoreEffect w w1 c core := by
  have hcase := step_cases w w1 a h
  cases hcase with
  | invWrite t c1 ent fields h => exact CoreEffect.same (by simpa using hc) (Or.inl rfl)
  | invClose t c1 h => exact CoreEffect.same (by simpa using hc) (Or.inl rfl)
  | encErr t c1 ent fields core1 err ht hc1 he =>
    exact CoreEffect.same (by simpa using hc) (Or.inl rfl)
  | encPanic t c1 ent fields core1 buf ht hc1 he hl =>
    exact CoreEffect.same (by simpa using hc) (Or.inl rfl)
  | encNormal t c1 ent fields core1 buf ht hc1 he hl =>
    exact CoreEffect.same (by simpa using hc) (Or.inl rfl)
  | readStopped t c1 buf core1 ht hc1 hs => exact CoreEffect.same (by simpa using hc) (Or.inl rfl)
  | readNotStopped t c1 buf core1 ht hc1 hs =>
    exact CoreEffect.same (by simpa using hc) (Or.inl rfl)
  | selectDefault t c1 buf core1 ht hc1 hfull =>
    exact CoreEffect.same (by simpa using hc) (Or.inl rfl)
  | timerFires t c1 k ht => exact CoreEffect.same (by simpa using hc) (Or.inl rfl)
  | setStopped t c1 k core1 ht hc1 => exact CoreEffect.same (by simpa using hc) (Or.inl rfl)
  | direct t c1 buf core1 ht hc1 =>
    exact CoreEffect.same (by simpa using hc) (Or.inr ⟨core1.out, buf, rfl⟩)
  | warn t c1 buf core1 ht hc1 =>
    exact CoreEffect.same (by simpa using hc) (Or.inr ⟨core1.out, blockedNotice, rfl⟩)
  | timeoutNote t c1 k core1 ht hc1 =>
    exact CoreEffect.same (by simpa using hc) (Or.inr ⟨core1.out, timeoutNotice, rfl⟩)
  | successNote t c1 k core1 ht hc1 =>
    exact CoreEffect.same (by simpa using hc) (Or.inr ⟨core1.out, successNotice, rfl⟩)
  | newCore id enc ws enab hfree =>
    have hne : c ≠ id := fun e => by rw [e, hfree] at hc; cases hc
    exact CoreEffect.same (by simpa [hne] using hc) (Or.inl rfl)
  | withFields c1 fields id core1 hc1 hfree =>
    have hne : c ≠ id := fun e => by rw [e, hfree] at hc; cases hc
    exact CoreEffect.same (by simpa [hne] using hc) (Or.inl rfl)
  | panicSend t c1 buf core1 ch ht hc1 hq hroom =>
    by_cases hcc : c = c1
    · subst hcc; rw [hc] at hc1; cases hc1
      exact CoreEffect.enqueue ch (some buf) hq hroom (by simp) rfl
    · exact CoreEffect.same (by simpa [hcc] using hc) (Or.inl rfl)
  | selectSend t c1 buf core1 ch ht hc1 hq hroom =>
    by_cases hcc : c = c1
    · subst hcc; rw [hc] at hc1; cases hc1
      exact CoreEffect.enqueue ch (some buf) hq hroom (by simp) rfl
    · exact CoreEffect.same (by simpa [hcc] using hc) (Or.inl rfl)
  | blockedSend t c1 buf core1 ch ht hc1 hq hroom =>
    by_cases hcc : c = c1
    · subst hcc; rw [hc] at hc1; cases hc1
      exact CoreEffect.enqueue ch (some buf) hq hroom (by simp) rfl
    · exact CoreEffect.same (by simpa [hcc] using hc) (Or.inl rfl)
  | sendNil t c1 k core1 ch ht hc1 hq hroom =>
    by_cases hcc : c = c1
    · subst hcc; rw [hc] at hc1; cases hc1
      exact CoreEffect.enqueue ch none hq hroom (by simp) rfl
    · exact CoreEffect.same (by simpa [hcc] using hc) (Or.inl rfl)
  | recvDone t c1 k core1 d x rest ht hc1 hd hbuf =>
    by_cases hcc : c = c1
    · subst hcc; rw [hc] at hc1; cases hc1
      exact CoreEffect.recvDone d x rest hd hbuf (by simp) rfl
    · exact CoreEffect.same (by simpa [hcc] using hc) (Or.inl rfl)
  | workerNil c1 core1 wk ch rest hc1 hw hpc hq hbuf =>
    by_cases hcc : c = c1
    · subst hcc; rw [hc] at hc1; cases hc1
      exact CoreEffect.workerNil wk ch rest hw hpc hq hbuf (by simp) rfl
    · exact CoreEffect.same (by simpa [hcc] using hc) (Or.inl rfl)
  | workerRecv c1 core1 wk ch buf rest hc1 hw hpc hq hbuf =>
    by_cases hcc : c = c1
    · subst hcc; rw [hc] at hc1; cases hc1
      exact CoreEffect.workerRecv wk ch buf rest hw hpc hq hbuf (by simp) rfl
    · exact CoreEffect.same (by simpa [hcc] using hc) (Or.inl rfl)
  | workerFlush c1 core1 wk hc1 hw hpc hf =>
    by_cases hcc : c = c1
    · subst hcc; rw [hc] at hc1; cases hc1
      exact CoreEffect.workerFlush wk hw hpc hf (by simp) rfl
    · exact CoreEffect.same (by simpa [hcc] using hc) (Or.inr ⟨core1.out, wk.logBuffer, rfl⟩)
  | workerNoFlush c1 core1 wk hc1 hw hpc hf =>
    by_cases hcc : c = c1
    · subst hcc; rw [hc] at hc1; cases hc1
      exact CoreEffect.workerNoFlush wk hw hpc hf (by simp) rfl
    · exact CoreEffect.same (by simpa [hcc] using hc) (Or.inl rfl)
  | workerDrain c1 core1 wk hc1 hw hpc =>
    by_cases hcc : c = c1
    · subst hcc; rw [hc] at hc1; cases hc1
      exact CoreEffect.workerDrain wk hw hpc (by simp) rfl
    · exact CoreEffect.same (by simpa [hcc] using hc) (Or.inr ⟨core1.out, wk.logBuffer, rfl⟩)
  | workerSignal c1 core1 wk d hc1 hw hpc hd hroom =>
    by_cases hcc : c = c1
    · subst hcc; rw [hc] at hc1; cases hc1
      exact CoreEffect.workerSignal wk d hw hpc hd hroom (by simp) rfl
    · exact CoreEffect.same (by simpa [hcc] using hc) (Or.inl rfl)
  | tick c1 core1 wk hc1 hw hpc =>
    by_cases hcc : c = c1
    · subst hcc; rw [hc] at hc1; cases hc1
      exact CoreEffect.tick wk hw hpc (by simp) rfl
    · exact CoreEffect.same (by simpa [hcc] using hc) (Or.inl rfl)

/-- A step fills a free address only with the result of `NewCore` or of `With`. -/
theorem step_core_created (w w1 : World) (a : Action) (c : Nat)
    (h : step w a = some w1) (hc : w.cores c = none) :
    w1.cores c = none ∨ (∃ enc ws enab, w1.cores c = some (NewCore enc ws enab)) ∨
      ∃ core fields, w1.cores c = some (Core.With core fields) := by
  have hcase := step_cases w w1 a h
  cases hcase <;> simp only [setPC_cores, setCore_cores, sinkWrite_cores] <;>
    first
      | exact Or.inl hc
      | (split
         · rename_i heq
           subst heq
           simp_all
         · exact Or.inl hc)

theorem run_cons_some {w w1 w2 : World} {a : Action} {σ : List Action}
    (h : step w a = some w1) (h2 : run w1 σ = some w2) : run w (a :: σ) = some w2 := by
  simp [run, h, h2]

/-! ## C8: the batch threshold -/

theorem workerBounded_step (c : Nat) (w w1 : World) (a : Action) (hI : workerBounded w c)
    (h : step w a = some w1) : workerBounded w1 c := by
  intro core1 wk1 h1 h2
  cases hc : w.cores c with
  | none =>
    rcases step_core_created w w1 a c h hc with h0 | ⟨enc, ws, enab, h0⟩ | ⟨core0, fields, h0⟩
    · rw [h0] at h1; cases h1
    · rw [h0] at h1; cases h1
      simp only [NewCore, Option.some.injEq] at h2
      subst h2
      simp [BatchSize]
    · rw [h0] at h1; cases h1
      simp [Core.With, Core.clone] at h2
  | some core =>
    have heff := step_core_effect w w1 a c core h hc
    cases heff with
    | same hc1 hs => rw [hc1] at h1; cases h1; exact hI _ _ hc h2
    | enqueue ch x hq hroom hc1 hs => rw [hc1] at h1; cases h1; exact hI _ _ hc h2
    | recvDone d x rest hd hbuf hc1 hs => rw [hc1] at h1; cases h1; exact hI _ _ hc h2
    | workerNil wk ch rest hw hpc hq hbuf hc1 hs =>
      rw [hc1] at h1; cases h1; cases h2
      simp
    | workerRecv wk ch buf rest hw hpc hq hbuf hc1 hs =>
      rw [hc1] at h1; cases h1; cases h2
      refine ⟨by simp, fun _ => ?_⟩
      by_cases hb : (wk.logBuffer ++ buf).length ≥ BatchSize
      · left; exact if_pos hb
      · right; simpa using hb
    | workerFlush wk hw hpc hf hc1 hs =>
      rw [hc1] at h1; cases h1; cases h2
      simp [BatchSize]
    | workerNoFlush wk hw hpc hf hc1 hs =>
      rw [hc1] at h1; cases h1; cases h2
      have := (hI _ _ hc hw).2 hpc
      simp_all
    | workerDrain wk hw hpc hc1 hs =>
      rw [hc1] at h1; cases h1; cases h2
      simp
    | workerSignal wk d hw hpc hd hroom hc1 hs =>
      rw [hc1] at h1; cases h1; cases h2
      simp
    | tick wk hw hpc hc1 hs =>
      rw [hc1] at h1; cases h1; cases h2
      simp

/-- C8: the batch threshold is 100 KiB, 102400 bytes, and it bounds the accumulator. In
every run of a process that starts without any core, whatever the schedule, each time the
worker of a core stands at the head of its loop (the `select`: before its first iteration and
after every iteration that did not receive the nil buffer) its accumulator holds fewer than
102400 bytes and no flush is pending. The reason: when the worker receives a record that
brings the accumulator to 102400 bytes or more, with no tick involved, the same iteration
hands the whole accumulator to the sink in one write and resets it to empty. -/
theorem batch_threshold_bounds_accumulator :
    BatchSize = 102400 ∧
    (∀ w0 σ w, (∀ c, w0.cores c = none) → run w0 σ = some w →
      ∀ c core wk, w.cores c = some core → core.worker = some wk → wk.pc = WorkerPC.select →
        wk.logBuffer.length < 102400 ∧ wk.flushLog = false) ∧
    (∀ w c core wk ch buf rest, w.cores c = some core → core.worker = some wk →
      wk.pc = WorkerPC.select → core.logCh = some ch → ch.buf = some buf :: rest →
      (wk.logBuffer ++ buf).length ≥ 102400 →
      ∃ w2 core2 wk2, run w [Action.worker c, Action.worker c] = some w2 ∧
        (w2.sinks core.out).received = (w.sinks core.out).received ++ [wk.logBuffer ++ buf] ∧
        (∀ s, s ≠ core.out → w2.sinks s = w.sinks s) ∧
        w2.cores c = some core2 ∧ core2.worker = some wk2 ∧ wk2.pc = WorkerPC.select ∧
        wk2.logBuffer = [] ∧ wk2.flushLog = false) := by
  refine ⟨rfl, ?_, ?_⟩
  · intro w0 σ w h0 hrun c core wk hc hw hpc
    have hI : workerBounded w c :=
      run_induction (fun w => workerBounded w c) (fun w a w1 hI hs => workerBounded_step c w w1 a hI hs)
        w0 σ w (fun core wk hc => by rw [h0 c] at hc; cases hc) hrun
    exact (hI core wk hc hw).1 hpc
  · intro w c core wk ch buf rest hc hw hpc hq hbuf hlen
    have hlen2 : (wk.logBuffer ++ buf).length ≥ BatchSize := hlen
    have h1 := step_of_case _ _ _ (StepCase.workerRecv c core wk ch buf rest hc hw hpc hq hbuf)
    have h2 := step_of_case _ _ _ (StepCase.workerFlush c
      { core with
        logCh := some { cap := ch.cap, buf := rest }
        worker := some
          { pc := WorkerPC.flush, logBuffer := wk.logBuffer ++ buf,
            flushLog := if (wk.logBuffer ++ buf).length ≥ BatchSize then true else wk.flushLog } }
      { pc := WorkerPC.flush, logBuffer := wk.logBuffer ++ buf,
        flushLog := if (wk.logBuffer ++ buf).length ≥ BatchSize then true else wk.flushLog }
      (w := w.setCore c { core with
        logCh := some { cap := ch.cap, buf := rest }
        worker := some
          { pc := WorkerPC.flush, logBuffer := wk.logBuffer ++ buf,
            flushLog := if (wk.logBuffer ++ buf).length ≥ BatchSize then true else wk.flushLog } })
      (by simp) rfl rfl (if_pos hlen2))
    refine ⟨_, { core with
        logCh := some { cap := ch.cap, buf := rest }
        worker := some { pc := WorkerPC.select, logBuffer := [], flushLog := false } },
      { pc := WorkerPC.select, logBuffer := [], flushLog := false },
      run_cons_some h1 (run_cons_some h2 rfl), ?_, ?_, ?_, rfl, rfl, rfl, rfl⟩
    · simp
    · intro s hs; simp [hs]
    · simp

/-- Witness of C8: one record written and consumed on a fresh core; the worker is back at its
`select` with two bytes in the accumulator. -/
theorem batch_threshold_bounds_accumulator_witness :
    ∃ w core wk, run emptyWorld oneRecordSchedule = some w ∧ w.cores 0 = some core ∧
      core.worker = some wk ∧ wk.pc = WorkerPC.select ∧ wk.logBuffer = [97, 98] ∧
      wk.logBuffer.length < 102400 ∧ wk.flushLog = false :=
  ⟨_, _, _, rfl, rfl, rfl, rfl, rfl,
    batch_threshold_bounds_accumulator.2.1 emptyWorld oneRecordSchedule _ (fun _ => rfl) rfl 0 _ _
      rfl rfl rfl⟩

theorem run_append (w : World) (σ1 σ2 : List Action) :
    run w (σ1 ++ σ2) = (run w σ1).bind (fun w1 => run w1 σ2) := by
  induction σ1 generalizing w with
  | nil => simp [run]
  | cons a rest ih =>
    simp only [List.cons_append, run]
    cases step w a with
    | none => simp
    | some w1 => simpa using ih w1

theorem run_append_some {w w1 w2 : World} {σ1 σ2 : List Action} (h1 : run w σ1 = some w1)
    (h2 : run w1 σ2 = some w2) : run w (σ1 ++ σ2) = some w2 := by
  rw [run_append, h1]; exact h2

/-! ## Sends that are never ready -/

theorem neverReady_step (c : Nat) (w w1 : World) (a : Action)
    (hI : ∃ core, w.cores c = some core ∧ core.neverReady) (h : step w a = some w1) :
    ∃ core, w1.cores c = some core ∧ core.neverReady := by
  obtain ⟨core, hc, hn⟩ := hI
  have heff := step_core_effect w w1 a c core h hc
  cases heff with
  | same hc1 hs => exact ⟨_, hc1, hn⟩
  | enqueue ch x hq hroom hc1 hs =>
    rcases hn with hn | ⟨ch1, wk, h1, h2, _⟩
    · rw [hn] at hq; cases hq
    · rw [h1] at hq; cases hq; exact absurd hroom h2
  | recvDone d x rest hd hbuf hc1 hs => exact ⟨_, hc1, hn⟩
  | workerNil wk ch rest hw hpc hq hbuf hc1 hs =>
    rcases hn with hn | ⟨ch1, wk1, h1, h2, h3, h4⟩
    · rw [hn] at hq; cases hq
    · rw [h3] at hw; cases hw; rw [h4] at hpc; cases hpc
  | workerRecv wk ch buf rest hw hpc hq hbuf hc1 hs =>
    rcases hn with hn | ⟨ch1, wk1, h1, h2, h3, h4⟩
    · rw [hn] at hq; cases hq
    · rw [h3] at hw; cases hw; rw [h4] at hpc; cases hpc
  | workerFlush wk hw hpc hf hc1 hs =>
    rcases hn with hn | ⟨ch1, wk1, h1, h2, h3, h4⟩
    · exact ⟨_, hc1, Or.inl hn⟩
    · rw [h3] at hw; cases hw; rw [h4] at hpc; cases hpc
  | workerNoFlush wk hw hpc hf hc1 hs =>
    rcases hn with hn | ⟨ch1, wk1, h1, h2, h3, h4⟩
    · exact ⟨_, hc1, Or.inl hn⟩
    · rw [h3] at hw; cases hw; rw [h4] at hpc; cases hpc
  | workerDrain wk hw hpc hc1 hs =>
    rcases hn with hn | ⟨ch1, wk1, h1, h2, h3, h4⟩
    · exact ⟨_, hc1, Or.inl hn⟩
    · rw [h3] at hw; cases hw; rw [h4] at hpc; cases hpc
  | workerSignal wk d hw hpc hd hroom hc1 hs =>
    rcases hn with hn | ⟨ch1, wk1, h1, h2, h3, h4⟩
    · exact ⟨_, hc1, Or.inl hn⟩
    · rw [h3] at hw; cases hw; rw [h4] at hpc; cases hpc
  | tick wk hw hpc hc1 hs =>
    rcases hn with hn | ⟨ch1, wk1, h1, h2, h3, h4⟩
    · exact ⟨_, hc1, Or.inl hn⟩
    · rw [h3] at hw; cases hw; rw [h4] at hpc; cases hpc

theorem sendsOn_cases (c : Nat) (pc : PC) (h : pc.sendsOn c = true) :
    (∃ buf, pc = PC.wPanicSend c buf) ∨ (∃ buf, pc = PC.wBlocked c buf) ∨
      ∃ k, pc = PC.cSendNil c k := by
  cases pc <;> simp_all [PC.sendsOn]

/-- A send that will never be ready is not enabled. -/
theorem stuck_disabled (t c : Nat) (pc : PC) (hpc : pc.sendsOn c = true) (w : World)
    (hI : (∃ core, w.cores c = some core ∧ core.neverReady) ∧ w.threads t = pc) :
    step w (Action.thread t) = none := by
  obtain ⟨⟨core, hc, hn⟩, ht⟩ := hI
  have hs : ∀ x, send core.logCh x = none := by
    intro x
    rw [send_eq_none]
    intro ch hq
    rcases hn with hn | ⟨ch1, wk, h1, h2, _⟩
    · rw [hn] at hq; cases hq
    · rw [h1] at hq; cases hq; exact h2
  rcases sendsOn_cases c pc hpc with ⟨buf, rfl⟩ | ⟨buf, rfl⟩ | ⟨k, rfl⟩
  · simp [step, threadStep, ht, PC.core?, hc, PC.inClose, Write_step, hs]
  · simp [step, threadStep, ht, PC.core?, hc, PC.inClose, Write_step, hs]
  · simp [step, threadStep, ht, PC.core?, hc, PC.inClose, Close_step, hs]

/-- A goroutine that stands before a send that will never be ready does not move. -/
theorem stuck_step (t c : Nat) (pc : PC) (hpc : pc.sendsOn c = true) (w w1 : World) (a : Action)
    (hI : (∃ core, w.cores c = some core ∧ core.neverReady) ∧ w.threads t = pc)
    (h : step w a = some w1) :
    (∃ core, w1.cores c = some core ∧ core.neverReady) ∧ w1.threads t = pc := by
  refine ⟨neverReady_step c w w1 a hI.1 h, ?_⟩
  have hdis := stuck_disabled t c pc hpc w hI
  have hinv : ∀ call, step w (Action.invoke t call) = none := by
    intro call
    rcases sendsOn_cases c pc hpc with ⟨buf, rfl⟩ | ⟨buf, rfl⟩ | ⟨k, rfl⟩ <;>
      simp [step, invokeStep, hI.2]
  have htim : step w (Action.timer t) = none := by
    rcases sendsOn_cases c pc hpc with ⟨buf, rfl⟩ | ⟨buf, rfl⟩ | ⟨k, rfl⟩ <;>
      simp [step, timerStep, hI.2]
  rw [← hI.2]
  apply step_threads_other w w1 a t h
  · intro e; rw [e, hdis] at h; cases h
  · intro call e; rw [e, hinv] at h; cases h
  · intro e; rw [e, htim] at h; cases h

theorem stuck_run (t c : Nat) (pc : PC) (hpc : pc.sendsOn c = true) (w w1 : World)
    (σ : List Action)
    (hI : (∃ core, w.cores c = some core ∧ core.neverReady) ∧ w.threads t = pc)
    (h : run w σ = some w1) :
    w1.threads t = pc ∧ step w1 (Action.thread t) = none := by
  have hI1 := run_induction
    (fun w => (∃ core, w.cores c = some core ∧ core.neverReady) ∧ w.threads t = pc)
    (fun w a w1 hI hs => stuck_step t c pc hpc w w1 a hI hs) w σ w1 hI h
  exact ⟨hI1.2, stuck_disabled t c pc hpc w1 hI1⟩

/-! ## C9: `Close` is not idempotent -/

/-- Once the worker of core `c` has returned, nothing is received from `logCh` any more and
nothing is sent on `done` any more. -/
theorem exited_worker_step (c : Nat) (cap : Nat) (base : List (Option Bytes)) (wk : Worker)
    (n : Nat) (hex : wk.pc = WorkerPC.exited) (w w1 : World) (a : Action)
    (hI : ∃ core tail, w.cores c = some core ∧
      core.logCh = some { cap := cap, buf := base ++ tail } ∧ core.worker = some wk ∧
      ∀ d, core.done = some d → d.buf.length ≤ n)
    (h : step w a = some w1) :
    ∃ core tail, w1.cores c = some core ∧
      core.logCh = some { cap := cap, buf := base ++ tail } ∧ core.worker = some wk ∧
      ∀ d, core.done = some d → d.buf.length ≤ n := by
  obtain ⟨core, tail, hc, hq0, hw0, hd0⟩ := hI
  have heff := step_core_effect w w1 a c core h hc
  cases heff with
  | same hc1 hs => exact ⟨_, tail, hc1, hq0, hw0, hd0⟩
  | enqueue ch x hq hroom hc1 hs =>
    rw [hq0] at hq; cases hq
    exact ⟨_, tail ++ [x], hc1, by simp, hw0, hd0⟩
  | recvDone d x rest hd hbuf hc1 hs =>
    refine ⟨_, tail, hc1, hq0, hw0, ?_⟩
    intro d1 hd1
    simp only [Option.some.injEq] at hd1
    subst hd1
    have := hd0 d hd
    rw [hbuf] at this
    simp only [List.length_cons] at this
    simp only
    omega
  | workerNil wk1 ch rest hw hpc hq hbuf hc1 hs =>
    rw [hw0] at hw; cases hw; rw [hex] at hpc; cases hpc
  | workerRecv wk1 ch buf rest hw hpc hq hbuf hc1 hs =>
    rw [hw0] at hw; cases hw; rw [hex] at hpc; cases hpc
  | workerFlush wk1 hw hpc hf hc1 hs =>
    rw [hw0] at hw; cases hw; rw [hex] at hpc; cases hpc
  | workerNoFlush wk1 hw hpc hf hc1 hs =>
    rw [hw0] at hw; cases hw; rw [hex] at hpc; cases hpc
  | workerDrain wk1 hw hpc hc1 hs =>
    rw [hw0] at hw; cases hw; rw [hex] at hpc; cases hpc
  | workerSignal wk1 d hw hpc hd hroom hc1 hs =>
    rw [hw0] at hw; cases hw; rw [hex] at hpc; cases hpc
  | tick wk1 hw hpc hc1 hs =>
    rw [hw0] at hw; cases hw; rw [hex] at hpc; cases hpc

/-- One more `Close` whose timer fires leaves one more nil buffer in the queue. -/
theorem timedOutClose_round (w : World) (t c n : Nat) (h : closedWith w t c n)
    (hn : n < logChCap) :
    ∃ w1, run w (timedOutClose t c) = some w1 ∧ closedWith w1 t c (n + 1) := by
  obtain ⟨hidle, core, wk, hc, hq, hw, hpc⟩ := h
  refine ⟨_,
    run_cons_some (step_of_case _ _ _ (StepCase.invClose t c hidle))
    (run_cons_some (step_of_case _ _ _
      (StepCase.setStopped t c false core (by simp) (by simpa using hc)))
    (run_cons_some (step_of_case _ _ _
      (StepCase.sendNil t c false core { cap := logChCap, buf := List.replicate n none }
        (by simp) (by simpa using hc) hq (by simpa using hn)))
    (run_cons_some (step_of_case _ _ _ (StepCase.timerFires t c false (by simp)))
    (run_cons_some (step_of_case _ _ _
      (StepCase.timeoutNote t c false
        { core with logCh := some { cap := logChCap, buf := List.replicate n none ++ [none] } }
        (by simp) (by simp))) rfl)))), ?_⟩
  refine ⟨by simp [afterClose, PC.notInCall],
    { core with logCh := some { cap := logChCap, buf := List.replicate n none ++ [none] } }, wk,
    by simp, ?_, hw, hpc⟩
  simp [List.replicate_succ']

theorem timedOutClose_rounds (t c k : Nat) (w : World) (n : Nat) (h : closedWith w t c n)
    (hn : n + k ≤ logChCap) :
    ∃ w1, run w (List.replicate k (timedOutClose t c)).flatten = some w1 ∧
      closedWith w1 t c (n + k) := by
  induction k generalizing w n with
  | zero => exact ⟨w, rfl, h⟩
  | succ k ih =>
    obtain ⟨w1, hr1, hc1⟩ := timedOutClose_round w t c n h (by omega)
    obtain ⟨w2, hr2, hc2⟩ := ih w1 (n + 1) hc1 (by omega)
    refine ⟨w2, ?_, by rw [← Nat.add_assoc, Nat.add_right_comm]; exact hc2⟩
    rw [List.replicate_succ, List.flatten_cons]
    exact run_append_some hr1 hr2

theorem firstClose_closed : ∃ w, run emptyWorld firstClose = some w ∧ closedWith w 0 0 0 :=
  ⟨_, rfl, rfl, _, _, rfl, rfl, rfl, rfl⟩

theorem fillQueue_full : ∃ w, run emptyWorld fillQueue = some w ∧ closedWith w 0 0 logChCap := by
  obtain ⟨w, hr, hc⟩ := firstClose_closed
  obtain ⟨w1, hr1, hc1⟩ := timedOutClose_rounds 0 0 logChCap w 0 hc (by omega)
  refine ⟨w1, ?_, by simpa using hc1⟩
  exact run_append_some hr hr1

/-- After `fillQueue`, one more `Close` sets the flag and then never moves again. -/
theorem Close_on_full_queue_stuck (w : World) (t c : Nat) (h : closedWith w t c logChCap) :
    ∃ w1, run w [Action.invoke t (Call.Close c), Action.thread t] = some w1 ∧
      w1.stopped = true ∧ w1.sinks = w.sinks ∧ w1.cores = w.cores ∧
      ∀ σ w2, run w1 σ = some w2 →
        w2.threads t = PC.cSendNil c false ∧ step w2 (Action.thread t) = none := by
  obtain ⟨hidle, core, wk, hc, hq, hw, hpc⟩ := h
  have h1 := step_of_case _ _ _ (StepCase.invClose t c hidle)
  have h2 := step_of_case _ _ _ (StepCase.setStopped t c false core
    (w := w.setPC t (PC.cStopped c false)) (by simp) (by simpa using hc))
  refine ⟨_, run_cons_some h1 (run_cons_some h2 rfl), rfl, rfl, rfl, ?_⟩
  intro σ w2 hrun
  refine stuck_run t c (PC.cSendNil c false) (by simp [PC.sendsOn]) _ w2 σ ⟨⟨core, by simpa using hc,
    Or.inr ⟨_, wk, hq, by simp, hw, hpc⟩⟩, by simp⟩ hrun

/-- C9: `Close` is not idempotent. On every core whose worker has already returned (after a
first `Close`), a second `Close`, when `logCh` has room, appends a second nil buffer at the
tail of the queue; in every continuation the queue still starts with everything it held plus
that nil buffer (nothing is ever received from it again), the worker stays returned, and `done`
never holds more signals than it held (it is not signalled a second time). And there is a
reachable state, `NewCore` followed by one answered `Close` and then as many timed-out calls
of `Close` as the queue has room for, where the worker has returned and the queue is full: there
one more `Close` sets the flag and then stands before `c.logCh <- nil` for ever. -/
theorem Close_is_not_idempotent :
    (∀ w t c core wk ch, w.cores c = some core → core.worker = some wk →
      wk.pc = WorkerPC.exited → core.logCh = some ch → ch.buf.length < ch.cap →
      (w.threads t).notInCall = true →
      ∃ w1 core1, run w [Action.invoke t (Call.Close c), Action.thread t, Action.thread t] =
          some w1 ∧
        w1.threads t = PC.cSelect c false ∧ w1.cores c = some core1 ∧
        core1.logCh = some { cap := ch.cap, buf := ch.buf ++ [none] } ∧
        core1.done = core.done ∧ core1.worker = some wk ∧
        ∀ σ w2, run w1 σ = some w2 →
          ∃ core2 tail, w2.cores c = some core2 ∧
            core2.logCh = some { cap := ch.cap, buf := ch.buf ++ [none] ++ tail } ∧
            core2.worker = some wk ∧
            ∀ d d2, core.done = some d → core2.done = some d2 → d2.buf.length ≤ d.buf.length) ∧
    (∃ w, run emptyWorld fillQueue = some w ∧
      (∃ core wk, w.cores 0 = some core ∧ core.worker = some wk ∧ wk.pc = WorkerPC.exited ∧
        core.logCh = some { cap := 10240, buf := List.replicate 10240 none }) ∧
      ∃ w1, run w [Action.invoke 0 (Call.Close 0), Action.thread 0] = some w1 ∧
        w1.threads 0 = PC.cSendNil 0 false ∧
        ∀ σ w2, run w1 σ = some w2 →
          w2.threads 0 = PC.cSendNil 0 false ∧ step w2 (Action.thread 0) = none) := by
  refine ⟨?_, ?_⟩
  · intro w t c core wk ch hc hw hpc hq hroom hidle
    refine ⟨_, { core with logCh := some { cap := ch.cap, buf := ch.buf ++ [none] } },
      run_cons_some (step_of_case _ _ _ (StepCase.invClose t c hidle))
      (run_cons_some (step_of_case _ _ _
        (StepCase.setStopped t c false core (by simp) (by simpa using hc)))
      (run_cons_some (step_of_case _ _ _
        (StepCase.sendNil t c false core ch (by simp) (by simpa using hc) hq hroom)) rfl)),
      by simp, by simp, rfl, rfl, hw, ?_⟩
    intro σ w2 hrun
    cases hd : core.done with
    | none =>
      have hI := run_induction
        (fun w => ∃ core tail, w.cores c = some core ∧
          core.logCh = some { cap := ch.cap, buf := (ch.buf ++ [none]) ++ tail } ∧
          core.worker = some wk ∧ ∀ d, core.done = some d → d.buf.length ≤ 0)
        (fun w a w1 hI hs => exited_worker_step c ch.cap (ch.buf ++ [none]) wk 0 hpc w w1 a hI hs)
        _ σ w2 ⟨{ core with logCh := some { cap := ch.cap, buf := ch.buf ++ [none] } }, [], by simp,
          by simp, hw, by simp [hd]⟩ hrun
      obtain ⟨core2, tail, h1, h2, h3, h4⟩ := hI
      exact ⟨core2, tail, h1, h2, h3, fun d d2 hd1 _ => by cases hd1⟩
    | some d0 =>
      have hI := run_induction
        (fun w => ∃ core tail, w.cores c = some core ∧
          core.logCh = some { cap := ch.cap, buf := (ch.buf ++ [none]) ++ tail } ∧
          core.worker = some wk ∧ ∀ d, core.done = some d → d.buf.length ≤ d0.buf.length)
        (fun w a w1 hI hs =>
          exited_worker_step c ch.cap (ch.buf ++ [none]) wk d0.buf.length hpc w w1 a hI hs)
        _ σ w2 ⟨{ core with logCh := some { cap := ch.cap, buf := ch.buf ++ [none] } }, [], by simp,
          by simp, hw, by simp [hd]⟩ hrun
      obtain ⟨core2, tail, h1, h2, h3, h4⟩ := hI
      exact ⟨core2, tail, h1, h2, h3, fun d d2 hd1 hd2 => by cases hd1; exact h4 d2 hd2⟩
  · obtain ⟨w, hr, hcl⟩ := fillQueue_full
    obtain ⟨w1, hr1, _, _, _, hst⟩ := Close_on_full_queue_stuck w 0 0 hcl
    obtain ⟨_, core, wk, hc, hq, hw, hpc⟩ := hcl
    exact ⟨w, hr, ⟨core, wk, hc, hw, hpc, hq⟩, w1, hr1, (hst [] w1 rfl).1, hst⟩

/-- Witness of C9: after `firstClose` the worker has returned and the queue is empty; a second
`Close` leaves a nil buffer in it. -/
theorem Close_is_not_idempotent_witness :
    ∃ w w1 core1, run emptyWorld firstClose = some w ∧
      run w [Action.invoke 0 (Call.Close 0), Action.thread 0, Action.thread 0] = some w1 ∧
      w1.threads 0 = PC.cSelect 0 false ∧ w1.cores 0 = some core1 ∧
      core1.logCh = some { cap := logChCap, buf := [none] } := by
  obtain ⟨w1, core1, h1, h2, h3, h4, -⟩ := Close_is_not_idempotent.1
    ((run emptyWorld firstClose).getD emptyWorld) 0 0 _
    { pc := WorkerPC.exited, logBuffer := [], flushLog := false } { cap := logChCap, buf := [] }
    rfl rfl rfl rfl (by decide) rfl
  exact ⟨_, w1, core1, rfl, h1, h2, h3, h4⟩

/-! ## C5: what `Close` does -/

/-- C5, as the code has it: on every core, `Close` first sets the `stopped` flag, touching
nothing else. Its second statement is a blocking send: where the goroutine stands before it,
the step is enabled exactly when `logCh` is not nil and has room, and it then appends exactly
one nil buffer at the tail of the queue and changes nothing else. At the `select`, the timer
branch is enabled whatever `done` holds (signalled or not, nil or not), leaves every core as
it is (`done` included), writes exactly the timeout notice to the sink and returns; the `done`
branch is enabled exactly when `done` holds a signal, takes that one signal, writes exactly the
success notice to the sink and returns. A `Close` called directly returns to `retClose`, which
carries no error value. -/
theorem Close_sets_flag_enqueues_nil_and_writes_one_notice (w : World) (t c : Nat) (core : Core)
    (hidle : (w.threads t).notInCall = true) (hc : w.cores c = some core) :
    (∃ w1, run w [Action.invoke t (Call.Close c), Action.thread t] = some w1 ∧
      w1.stopped = true ∧ w1.threads t = PC.cSendNil c false ∧ w1.cores = w.cores ∧
      w1.sinks = w.sinks) ∧
    (∀ w1 k core1, w1.threads t = PC.cSendNil c k → w1.cores c = some core1 →
      (∀ ch, core1.logCh = some ch → ch.buf.length < ch.cap →
        ∃ w2, step w1 (Action.thread t) = some w2 ∧ w2.threads t = PC.cSelect c k ∧
          w2.cores c = some { core1 with logCh := some { cap := ch.cap, buf := ch.buf ++ [none] } } ∧
          (∀ c1, c1 ≠ c → w2.cores c1 = w1.cores c1) ∧ w2.sinks = w1.sinks ∧
          w2.stopped = w1.stopped) ∧
      ((∀ ch, core1.logCh = some ch → ¬ ch.buf.length < ch.cap) →
        step w1 (Action.thread t) = none)) ∧
    (∀ w2 k core2, w2.threads t = PC.cSelect c k → w2.cores c = some core2 →
      (∃ w3, run w2 [Action.timer t, Action.thread t] = some w3 ∧
        w3.threads t = afterClose k ∧ w3.cores = w2.cores ∧
        (w3.sinks core2.out).received = (w2.sinks core2.out).received ++ [timeoutNotice] ∧
        ∀ s, s ≠ core2.out → w3.sinks s = w2.sinks s) ∧
      (∀ d x rest, core2.done = some d → d.buf = x :: rest →
        ∃ w3, run w2 [Action.thread t, Action.thread t] = some w3 ∧
          w3.threads t = afterClose k ∧
          w3.cores c = some { core2 with done := some { cap := d.cap, buf := rest } } ∧
          (w3.sinks core2.out).received = (w2.sinks core2.out).received ++ [successNotice] ∧
          ∀ s, s ≠ core2.out → w3.sinks s = w2.sinks s) ∧
      ((∀ d, core2.done = some d → d.buf = []) → step w2 (Action.thread t) = none)) ∧
    afterClose false = PC.retClose := by
  refine ⟨?_, ?_, ?_, rfl⟩
  · exact ⟨_, run_cons_some (step_of_case _ _ _ (StepCase.invClose t c hidle))
      (run_cons_some (step_of_case _ _ _
        (StepCase.setStopped t c false core (by simp) (by simpa using hc))) rfl),
      rfl, by simp, rfl, rfl⟩
  · intro w1 k core1 ht1 hc1
    refine ⟨?_, ?_⟩
    · intro ch hq hroom
      refine ⟨_, step_of_case _ _ _ (StepCase.sendNil t c k core1 ch ht1 hc1 hq hroom), by simp,
        by simp, ?_, rfl, rfl⟩
      intro c1 hne
      simp [hne]
    · intro hfull
      have hs : send core1.logCh (none : Option Bytes) = none := (send_eq_none _ _).2 hfull
      simp [step, threadStep, ht1, PC.core?, hc1, PC.inClose, Close_step, hs]
  · intro w2 k core2 ht2 hc2
    refine ⟨?_, ?_, ?_⟩
    · refine ⟨_, run_cons_some (step_of_case _ _ _ (StepCase.timerFires t c k ht2))
        (run_cons_some (step_of_case _ _ _
          (StepCase.timeoutNote t c k core2 (by simp) (by simpa using hc2))) rfl),
        by simp, rfl, by simp, ?_⟩
      intro s hs
      simp [hs]
    · intro d x rest hd hbuf
      refine ⟨_, run_cons_some (step_of_case _ _ _ (StepCase.recvDone t c k core2 d x rest ht2 hc2 hd hbuf))
        (run_cons_some (step_of_case _ _ _
          (StepCase.successNote t c k { core2 with done := some { cap := d.cap, buf := rest } }
            (by simp) (by simp))) rfl),
        by simp, by simp, by simp, ?_⟩
      intro s hs
      simp [hs]
    · intro hempty
      have hr : recv core2.done = none := by
        cases hd : core2.done with
        | none => rfl
        | some d => simp [recv, hempty d hd]
      simp [step, threadStep, ht2, PC.core?, hc2, PC.inClose, Close_step, hr]

/-- Witness of C5 (amended): `Close` called on the fresh core of `demoWorld`. -/
theorem Close_sets_flag_enqueues_nil_and_writes_one_notice_witness :
    (demoWorld.threads 0).notInCall = true ∧
    demoWorld.cores 0 = some (NewCore demoEncoder 0 (fun _ => true)) ∧
    ∃ w1, run demoWorld [Action.invoke 0 (Call.Close 0), Action.thread 0] = some w1 ∧
      w1.stopped = true ∧ w1.threads 0 = PC.cSendNil 0 false ∧ w1.cores = demoWorld.cores ∧
      w1.sinks = demoWorld.sinks :=
  ⟨rfl, rfl, (Close_sets_flag_enqueues_nil_and_writes_one_notice demoWorld 0 0
    (NewCore demoEncoder 0 (fun _ => true)) rfl rfl).1⟩

/-- C5 as stated fails: `Close` does not return on every core. On the core that `With` returned
(nil `logCh`), and on a core built by `NewCore` whose worker has returned and whose queue is
full, `Close` sets `stopped` and then stands before `c.logCh <- nil` for ever: it enqueues no
nil buffer, writes no notice and never returns. -/
theorem Close_does_not_return_on_every_core :
    (∃ w, run emptyWorld closeOnWithCore = some w ∧ w.stopped = true ∧
      (w.sinks 0).received = [] ∧
      ∀ σ w2, run w σ = some w2 →
        w2.threads 0 = PC.cSendNil 1 false ∧ step w2 (Action.thread 0) = none) ∧
    (∃ w, run emptyWorld closeOnFullQueue = some w ∧ w.stopped = true ∧
      ∀ σ w2, run w σ = some w2 →
        w2.threads 0 = PC.cSendNil 0 false ∧ step w2 (Action.thread 0) = none) := by
  refine ⟨⟨_, rfl, rfl, rfl, ?_⟩, ?_⟩
  · intro σ w2 hrun
    exact stuck_run 0 1 (PC.cSendNil 1 false) rfl _ w2 σ ⟨⟨_, rfl, Or.inl rfl⟩, rfl⟩ hrun
  · obtain ⟨w, hr, hcl⟩ := fillQueue_full
    obtain ⟨w1, hr1, hs, _, _, hst⟩ := Close_on_full_queue_stuck w 0 0 hcl
    exact ⟨w1, run_append_some hr hr1, hs, hst⟩

/-! ## Records on their way to the sink -/

theorem mem_beforeNil_append (q l : List (Option Bytes)) (b : Bytes) (h : b ∈ beforeNil q) :
    b ∈ beforeNil (q ++ l) := by
  induction q with
  | nil => simp [beforeNil] at h
  | cons x rest ih =>
    cases x with
    | none => simp [beforeNil] at h
    | some y =>
      simp only [beforeNil, List.mem_cons, List.cons_append] at h ⊢
      rcases h with h | h
      · exact Or.inl h
      · exact Or.inr (ih h)

theorem mem_beforeNil_snoc (q : List (Option Bytes)) (b : Bytes) (h : none ∉ q) :
    b ∈ beforeNil (q ++ [some b]) := by
  induction q with
  | nil => simp [beforeNil]
  | cons x rest ih =>
    cases x with
    | none => simp at h
    | some y =>
      simp only [beforeNil, List.mem_cons, List.cons_append]
      exact Or.inr (ih (fun hn => h (List.mem_cons_of_mem _ hn)))

theorem flushedTo_of_sinks_eq (w w1 : World) (s : Nat) (buf : Bytes) (h : w1.sinks = w.sinks)
    (hf : flushedTo w s buf) : flushedTo w1 s buf := by
  unfold flushedTo at *
  rw [h]; exact hf

theorem flushedTo_sinkWrite (w : World) (s r : Nat) (b buf : Bytes) (hf : flushedTo w s buf) :
    flushedTo (w.sinkWrite r b) s buf := by
  obtain ⟨x, hx, hi⟩ := hf
  refine ⟨x, ?_, hi⟩
  simp only [sinkWrite_sinks]
  split
  · rename_i h; subst h; simp [hx]
  · exact hx

theorem flushedTo_sinkWrite_self (w : World) (s : Nat) (b buf : Bytes) (hi : buf <:+: b) :
    flushedTo (w.sinkWrite s b) s buf :=
  ⟨b, by simp, hi⟩

/-- What a sink has been handed is never taken back. -/
theorem flushedTo_step (w w1 : World) (a : Action) (s : Nat) (buf : Bytes)
    (h : step w a = some w1) (hf : flushedTo w s buf) : flushedTo w1 s buf := by
  have hcase := step_cases w w1 a h
  cases hcase <;>
    first
      | exact hf
      | exact flushedTo_sinkWrite _ _ _ _ _ hf

theorem flushedTo_run (w w1 : World) (σ : List Action) (s : Nat) (buf : Bytes)
    (h : run w σ = some w1) (hf : flushedTo w s buf) : flushedTo w1 s buf :=
  run_induction (fun w => flushedTo w s buf) (fun w a w1 h0 hs => flushedTo_step w w1 a s buf hs h0)
    w σ w1 hf h

/-- No step takes a record out of the pipeline. -/
theorem inPipeline_step (c : Nat) (buf : Bytes) (w w1 : World) (a : Action)
    (hI : inPipeline w c buf) (h : step w a = some w1) : inPipeline w1 c buf := by
  obtain ⟨core, hc, hp⟩ := hI
  have heff := step_core_effect w w1 a c core h hc
  rcases hp with hf | ⟨wk0, hw0, hp⟩
  · obtain ⟨core1, hc1, _, _, hout, _⟩ := step_core_static w w1 a c core h hc
    exact ⟨core1, hc1, Or.inl (by rw [hout]; exact flushedTo_step w w1 a _ buf h hf)⟩
  · cases heff with
    | same hc1 hs => exact ⟨_, hc1, Or.inr ⟨wk0, hw0, hp⟩⟩
    | enqueue ch x hq hroom hc1 hs =>
      refine ⟨_, hc1, Or.inr ⟨wk0, hw0, ?_⟩⟩
      rcases hp with hp | ⟨hpc, ch1, hq1, hm⟩
      · exact Or.inl hp
      · rw [hq] at hq1; cases hq1
        exact Or.inr ⟨hpc, _, rfl, mem_beforeNil_append _ _ _ hm⟩
    | recvDone d x rest hd hbuf hc1 hs => exact ⟨_, hc1, Or.inr ⟨wk0, hw0, hp⟩⟩
    | workerNil wk ch rest hw hpc hq hbuf hc1 hs =>
      rw [hw0] at hw; cases hw
      refine ⟨_, hc1, Or.inr ⟨_, rfl, ?_⟩⟩
      rcases hp with ⟨_, hi⟩ | ⟨_, ch1, hq1, hm⟩
      · exact Or.inl ⟨Or.inr (Or.inr rfl), hi⟩
      · rw [hq] at hq1; cases hq1
        rw [hbuf] at hm
        simp [beforeNil] at hm
    | workerRecv wk ch b rest hw hpc hq hbuf hc1 hs =>
      rw [hw0] at hw; cases hw
      refine ⟨_, hc1, Or.inr ⟨_, rfl, ?_⟩⟩
      rcases hp with ⟨_, hi⟩ | ⟨_, ch1, hq1, hm⟩
      · exact Or.inl ⟨Or.inr (Or.inl rfl), hi.trans (List.prefix_append _ _).isInfix⟩
      · rw [hq] at hq1; cases hq1
        rw [hbuf] at hm
        simp only [beforeNil, List.mem_cons] at hm
        rcases hm with hm | hm
        · subst hm
          exact Or.inl ⟨Or.inr (Or.inl rfl), (List.suffix_append _ _).isInfix⟩
        · exact Or.inr ⟨Or.inr rfl, _, rfl, hm⟩
    | workerFlush wk hw hpc hf hc1 hs =>
      rw [hw0] at hw; cases hw
      rcases hp with ⟨_, hi⟩ | ⟨_, ch1, hq1, hm⟩
      · exact ⟨_, hc1, Or.inl (flushedTo_of_sinks_eq _ w1 _ buf hs
          (flushedTo_sinkWrite_self w core.out _ buf hi))⟩
      · exact ⟨_, hc1, Or.inr ⟨_, rfl, Or.inr ⟨Or.inl rfl, ch1, hq1, hm⟩⟩⟩
    | workerNoFlush wk hw hpc hf hc1 hs =>
      rw [hw0] at hw; cases hw
      refine ⟨_, hc1, Or.inr ⟨_, rfl, ?_⟩⟩
      rcases hp with ⟨_, hi⟩ | ⟨_, ch1, hq1, hm⟩
      · exact Or.inl ⟨Or.inl rfl, hi⟩
      · exact Or.inr ⟨Or.inl rfl, ch1, hq1, hm⟩
    | workerDrain wk hw hpc hc1 hs =>
      rw [hw0] at hw; cases hw
      rcases hp with ⟨_, hi⟩ | ⟨hpc1, _⟩
      · exact ⟨_, hc1, Or.inl (flushedTo_of_sinks_eq _ w1 _ buf hs
          (flushedTo_sinkWrite_self w core.out _ buf hi))⟩
      · rw [hpc] at hpc1; simp at hpc1
    | workerSignal wk d hw hpc hd hroom hc1 hs =>
      rw [hw0] at hw; cases hw
      rcases hp with ⟨hpc1, _⟩ | ⟨hpc1, _⟩ <;> (rw [hpc] at hpc1; simp at hpc1)
    | tick wk hw hpc hc1 hs =>
      rw [hw0] at hw; cases hw
      refine ⟨_, hc1, Or.inr ⟨_, rfl, ?_⟩⟩
      rcases hp with ⟨_, hi⟩ | ⟨_, ch1, hq1, hm⟩
      · exact Or.inl ⟨Or.inr (Or.inl rfl), hi⟩
      · exact Or.inr ⟨Or.inr rfl, ch1, hq1, hm⟩

theorem inPipeline_run (c : Nat) (buf : Bytes) (w w1 : World) (σ : List Action)
    (hI : inPipeline w c buf) (h : run w σ = some w1) : inPipeline w1 c buf :=
  run_induction (fun w => inPipeline w c buf)
    (fun w a w1 h0 hs => inPipeline_step c buf w w1 a h0 hs) w σ w1 hI h

theorem doneOnlyAfterExit_step (c : Nat) (w w1 : World) (a : Action)
    (hI : doneOnlyAfterExit w c) (h : step w a = some w1) : doneOnlyAfterExit w1 c := by
  intro core1 d1 h1 h2 h3
  cases hc : w.cores c with
  | none =>
    rcases step_core_created w w1 a c h hc with h0 | ⟨enc, ws, enab, h0⟩ | ⟨core0, fields, h0⟩
    · rw [h0] at h1; cases h1
    · rw [h0] at h1; cases h1
      simp only [NewCore, Option.some.injEq] at h2
      subst h2
      simp at h3
    · rw [h0] at h1; cases h1
      simp [Core.With, Core.clone] at h2
  | some core =>
    have heff := step_core_effect w w1 a c core h hc
    cases heff with
    | same hc1 hs => rw [hc1] at h1; cases h1; exact hI _ _ hc h2 h3
    | enqueue ch x hq hroom hc1 hs => rw [hc1] at h1; cases h1; exact hI core _ hc h2 h3
    | recvDone d x rest hd hbuf hc1 hs =>
      rw [hc1] at h1; cases h1
      exact hI core _ hc hd (by rw [hbuf]; simp)
    | workerNil wk ch rest hw hpc hq hbuf hc1 hs =>
      rw [hc1] at h1; cases h1
      obtain ⟨wk1, hw1, hpc1⟩ := hI core _ hc h2 h3
      rw [hw] at hw1; cases hw1; rw [hpc] at hpc1; cases hpc1
    | workerRecv wk ch buf rest hw hpc hq hbuf hc1 hs =>
      rw [hc1] at h1; cases h1
      obtain ⟨wk1, hw1, hpc1⟩ := hI core _ hc h2 h3
      rw [hw] at hw1; cases hw1; rw [hpc] at hpc1; cases hpc1
    | workerFlush wk hw hpc hf hc1 hs =>
      rw [hc1] at h1; cases h1
      obtain ⟨wk1, hw1, hpc1⟩ := hI core _ hc h2 h3
      rw [hw] at hw1; cases hw1; rw [hpc] at hpc1; cases hpc1
    | workerNoFlush wk hw hpc hf hc1 hs =>
      rw [hc1] at h1; cases h1
      obtain ⟨wk1, hw1, hpc1⟩ := hI core _ hc h2 h3
      rw [hw] at hw1; cases hw1; rw [hpc] at hpc1; cases hpc1
    | workerDrain wk hw hpc hc1 hs =>
      rw [hc1] at h1; cases h1
      obtain ⟨wk1, hw1, hpc1⟩ := hI core _ hc h2 h3
      rw [hw] at hw1; cases hw1; rw [hpc] at hpc1; cases hpc1
    | workerSignal wk d hw hpc hd hroom hc1 hs =>
      rw [hc1] at h1; cases h1
      exact ⟨_, rfl, rfl⟩
    | tick wk hw hpc hc1 hs =>
      rw [hc1] at h1; cases h1
      obtain ⟨wk1, hw1, hpc1⟩ := hI core _ hc h2 h3
      rw [hw] at hw1; cases hw1; rw [hpc] at hpc1; cases hpc1

/-! ## C3: panic-class records -/

/-- A goroutine arrives after the `done` case of `Close` only by receiving from `done`. -/
theorem enter_cSuccess (w w1 : World) (a : Action) (t c : Nat) (k : Bool)
    (h : step w a = some w1) (h1 : w1.threads t = PC.cSuccess c k)
    (h0 : w.threads t ≠ PC.cSuccess c k) :
    ∃ core d x rest, w.cores c = some core ∧ core.done = some d ∧ d.buf = x :: rest := by
  have hcase := step_cases w w1 a h
  cases hcase <;> simp only [setPC_threads, setCore_threads, sinkWrite_threads] at h1 <;>
    first
      | exact absurd h1 h0
      | (split at h1
         · first
             | (simp only [PC.cSuccess.injEq] at h1
                obtain ⟨rfl, rfl⟩ := h1
                exact ⟨_, _, _, _, by assumption, by assumption, by assumption⟩)
             | (rename_i k1 _ _ _ _; cases k1 <;> simp [afterClose] at h1)
             | simp at h1
         · exact absurd h1 h0)

theorem panic_inv_step (t c s : Nat) (buf : Bytes) (w w1 : World) (a : Action)
    (hI : (∃ core, w.cores c = some core ∧ core.out = s) ∧ inPipeline w c buf ∧
      doneOnlyAfterExit w c ∧ ∀ k, w.threads t = PC.cSuccess c k → flushedTo w s buf)
    (h : step w a = some w1) :
    (∃ core, w1.cores c = some core ∧ core.out = s) ∧ inPipeline w1 c buf ∧
      doneOnlyAfterExit w1 c ∧ ∀ k, w1.threads t = PC.cSuccess c k → flushedTo w1 s buf := by
  obtain ⟨⟨core, hc, hout⟩, hp, hd, hs⟩ := hI
  refine ⟨?_, inPipeline_step c buf w w1 a hp h, doneOnlyAfterExit_step c w w1 a hd h, ?_⟩
  · obtain ⟨core1, hc1, _, _, hout1, _⟩ := step_core_static w w1 a c core h hc
    exact ⟨core1, hc1, hout1.trans hout⟩
  · intro k hk
    by_cases h0 : w.threads t = PC.cSuccess c k
    · exact flushedTo_step w w1 a s buf h (hs k h0)
    · obtain ⟨core0, d, x, rest, hc0, hd0, hbuf⟩ := enter_cSuccess w w1 a t c k h hk h0
      obtain ⟨wk, hw, hpc⟩ := hd core0 d hc0 hd0 (by rw [hbuf]; simp)
      obtain ⟨core2, hc2, hp2⟩ := hp
      rw [hc] at hc0; cases hc0
      rw [hc] at hc2; cases hc2
      rcases hp2 with hf | ⟨wk2, hw2, hp2⟩
      · exact flushedTo_step w w1 a s buf h (by rw [← hout]; exact hf)
      · rw [hw] at hw2; cases hw2
        rcases hp2 with ⟨hpc2, _⟩ | ⟨hpc2, _⟩ <;> (rw [hpc] at hpc2; simp at hpc2)

/-- C3, as the code has it. For every core state and every record whose severity exceeds
error (and whose encoding succeeds, giving `buf`), `Write` goes to the blocking send of line
104 without touching anything; that send is enabled exactly when `logCh` is not nil and has
room, appends the record at the tail of the queue and enters `Close`. If at that point the
core was not shut down (its worker is running, no nil buffer is queued and `done` is empty),
then in every continuation, whatever the other goroutines do and whether or not a tick fires
or the threshold is reached, the record stays in the pipeline, and once this goroutine has
received `done` the sink has been handed the record's bytes, there and in every later state,
so when `Write` returns. (Nothing of the kind holds when the timer of `Close` fires first.) -/
theorem panic_Write_is_flushed_when_Close_receives_done (w : World) (t c : Nat) (core : Core)
    (ent : Entry) (fields : List Field) (buf : Bytes)
    (hidle : (w.threads t).notInCall = true) (hc : w.cores c = some core)
    (henc : core.enc.EncodeEntry ent fields = Except.ok buf) (hl : ent.Level > ErrorLevel) :
    (∃ w1, run w [Action.invoke t (Call.Write c ent fields), Action.thread t] = some w1 ∧
      w1.threads t = PC.wPanicSend c buf ∧ w1.cores = w.cores ∧ w1.sinks = w.sinks ∧
      w1.stopped = w.stopped) ∧
    (∀ w1 core1, w1.threads t = PC.wPanicSend c buf → w1.cores c = some core1 →
      ((∀ ch, core1.logCh = some ch → ¬ ch.buf.length < ch.cap) →
        step w1 (Action.thread t) = none) ∧
      ∀ ch, core1.logCh = some ch → ch.buf.length < ch.cap →
        ∃ w2, step w1 (Action.thread t) = some w2 ∧ w2.threads t = PC.cStopped c true ∧
          w2.cores c =
            some { core1 with logCh := some { cap := ch.cap, buf := ch.buf ++ [some buf] } } ∧
          w2.sinks = w1.sinks ∧
          ∀ wk d, core1.worker = some wk → (wk.pc = WorkerPC.select ∨ wk.pc = WorkerPC.flush) →
            none ∉ ch.buf → core1.done = some d → d.buf = [] →
            ∀ σ w3, run w2 σ = some w3 →
              inPipeline w3 c buf ∧
              (w3.threads t = PC.cSuccess c true →
                ∀ σ1 w4, run w3 σ1 = some w4 → flushedTo w4 core1.out buf)) := by
  refine ⟨?_, ?_⟩
  · exact ⟨_, run_cons_some (step_of_case _ _ _ (StepCase.invWrite t c ent fields hidle))
      (run_cons_some (step_of_case _ _ _
        (StepCase.encPanic t c ent fields core buf (by simp) (by simpa using hc) henc hl)) rfl),
      by simp, rfl, rfl, rfl⟩
  · intro w1 core1 ht1 hc1
    refine ⟨?_, ?_⟩
    · intro hfull
      have hs : send core1.logCh (some buf) = none := (send_eq_none _ _).2 hfull
      simp [step, threadStep, ht1, PC.core?, hc1, PC.inClose, Write_step, hs]
    · intro ch hq hroom
      refine ⟨_, step_of_case _ _ _ (StepCase.panicSend t c buf core1 ch ht1 hc1 hq hroom),
        by simp, by simp, rfl, ?_⟩
      intro wk d hw hpc hnil hd hdb σ w3 hrun
      have hI := run_induction
        (fun w => (∃ core, w.cores c = some core ∧ core.out = core1.out) ∧ inPipeline w c buf ∧
          doneOnlyAfterExit w c ∧ ∀ k, w.threads t = PC.cSuccess c k → flushedTo w core1.out buf)
        (fun w a w1 hI hs => panic_inv_step t c core1.out buf w w1 a hI hs) _ σ w3
        ⟨⟨{ core1 with logCh := some { cap := ch.cap, buf := ch.buf ++ [some buf] } }, by simp, rfl⟩,
          ⟨{ core1 with logCh := some { cap := ch.cap, buf := ch.buf ++ [some buf] } }, by simp,
            Or.inr ⟨wk, hw, Or.inr ⟨hpc, _, rfl, mem_beforeNil_snoc _ _ hnil⟩⟩⟩,
          by
            intro core2 d2 h1 h2 h3
            simp only [setPC_cores, setCore_cores, if_true, Option.some.injEq] at h1
            subst h1
            simp only at h2
            rw [hd] at h2; cases h2
            exact absurd hdb h3,
          by simp⟩ hrun
      refine ⟨hI.2.1, ?_⟩
      intro hk σ1 w4 hrun1
      exact flushedTo_run w3 w4 σ1 _ buf hrun1 (hI.2.2.2 true hk)

/-- Witness of C3 (amended): a panic-class `Write` of "ab" on the fresh core of `demoWorld`
whose `Close` receives `done`: the sink has been handed the record. -/
theorem panic_Write_is_flushed_when_Close_receives_done_witness :
    (demoWorld.threads 0).notInCall = true ∧
    demoWorld.cores 0 = some (NewCore demoEncoder 0 (fun _ => true)) ∧
    demoEncoder.EncodeEntry { Level := 4, Message := "ab" } [] = Except.ok [97, 98] ∧
    (4 : Int) > ErrorLevel ∧
    ∃ w3, run emptyWorld panicDone = some w3 ∧ w3.threads 0 = PC.cSuccess 0 true ∧
      flushedTo w3 0 [97, 98] := by
  refine ⟨rfl, rfl, rfl, by decide, ?_⟩
  have h := (panic_Write_is_flushed_when_Close_receives_done demoWorld 0 0
    (NewCore demoEncoder 0 (fun _ => true)) { Level := 4, Message := "ab" } [] [97, 98] rfl rfl rfl
    (by decide)).2
    ((demoWorld.setPC 0 (PC.wEncode 0 { Level := 4, Message := "ab" } [])).setPC 0
      (PC.wPanicSend 0 [97, 98]))
    (NewCore demoEncoder 0 (fun _ => true)) rfl rfl
  obtain ⟨w2, hstep, -, -, -, hfl⟩ := h.2 { cap := logChCap, buf := [] } rfl (by decide)
  have hw2 : (((demoWorld.setPC 0 (PC.wEncode 0 { Level := 4, Message := "ab" } [])).setPC 0
      (PC.wPanicSend 0 [97, 98])).setCore 0
        { NewCore demoEncoder 0 (fun _ => true) with
          logCh := some { cap := logChCap, buf := [some [97, 98]] } }).setPC 0
      (PC.cStopped 0 true) = w2 :=
    Option.some.inj (by rw [← hstep]; rfl)
  subst hw2
  have h3 := hfl { pc := WorkerPC.select, logBuffer := [], flushLog := false }
    { cap := 1, buf := [] } rfl (Or.inl rfl) (by simp) rfl rfl
    [Action.thread 0, Action.thread 0, Action.worker 0, Action.worker 0, Action.worker 0,
      Action.worker 0, Action.worker 0, Action.thread 0] _ rfl
  exact ⟨_, rfl, rfl, h3.2 rfl [] _ rfl⟩

/-- C3 as stated fails. First, a panic-class `Write` on a fresh core can return while the sink
holds nothing but the timeout notice of `Close`: the timer fired before the worker ran, and the
record "ab" is still in the queue. Second, on a core that an earlier `Close` (one that timed
out) has shut down, a panic-class `Write` returns after its `Close` has received `done` and
written the success notice, and still the sink has never been handed the record: the worker
had returned before, and the record stays in the queue for ever. -/
theorem panic_Write_may_return_before_flush :
    (∃ w, run emptyWorld panicTimeout = some w ∧ w.threads 0 = PC.retWrite none ∧
      (w.sinks 0).received = [timeoutNotice] ∧ ¬ flushedTo w 0 [97, 98] ∧
      ∃ core ch, w.cores 0 = some core ∧ core.logCh = some ch ∧
        ch.buf = [some [97, 98], none]) ∧
    (∃ w, run emptyWorld panicAfterTimedOutClose = some w ∧ w.threads 0 = PC.retWrite none ∧
      (w.sinks 0).received = [timeoutNotice, [], successNotice] ∧ ¬ flushedTo w 0 [97, 98] ∧
      ∃ core ch wk, w.cores 0 = some core ∧ core.logCh = some ch ∧
        ch.buf = [some [97, 98], none] ∧ core.worker = some wk ∧ wk.pc = WorkerPC.exited) := by
  refine ⟨⟨_, rfl, rfl, rfl, ?_, _, _, rfl, rfl, rfl⟩, ⟨_, rfl, rfl, rfl, ?_, _, _, _, rfl, rfl, rfl,
    rfl, rfl⟩⟩
  · rintro ⟨b, hb, hi⟩
    have hb2 : b = timeoutNotice := by
      have : b ∈ [timeoutNotice] := hb
      simpa using this
    subst hb2
    revert hi
    decide
  · rintro ⟨b, hb, hi⟩
    have hb2 : b = timeoutNotice ∨ b = [] ∨ b = successNotice := by
      have : b ∈ [timeoutNotice, [], successNotice] := hb
      simpa using this
    rcases hb2 with rfl | rfl | rfl <;> revert hi <;> decide

/-! ## C2: backpressure -/

/-- From the flush check, the worker alone gets back to its `select` in one step, the queue
untouched. -/
theorem worker_flush_to_select (w : World) (c : Nat) (core : Core) (wk : Worker)
    (hc : w.cores c = some core) (hw : core.worker = some wk) (hpc : wk.pc = WorkerPC.flush) :
    ∃ w1 core1 wk1, step w (Action.worker c) = some w1 ∧ w1.cores c = some core1 ∧
      core1.worker = some wk1 ∧ wk1.pc = WorkerPC.select ∧ core1.logCh = core.logCh ∧
      core1.out = core.out ∧
      (wk.flushLog = true → ∀ buf, buf <:+: wk.logBuffer → flushedTo w1 core.out buf) ∧
      (wk.flushLog = false → wk1.logBuffer = wk.logBuffer) := by
  by_cases hf : wk.flushLog = true
  · refine ⟨_, { core with worker := some { pc := WorkerPC.select, logBuffer := [], flushLog := false } },
      _, step_of_case _ _ _ (StepCase.workerFlush c core wk hc hw hpc hf), by simp, rfl, rfl, rfl, rfl,
      ?_, ?_⟩
    · intro _ buf hi
      exact ⟨wk.logBuffer, by simp, hi⟩
    · intro h; rw [h] at hf; cases hf
  · have hf2 : wk.flushLog = false := by simpa using hf
    refine ⟨_, { core with worker := some { wk with pc := WorkerPC.select } },
      _, step_of_case _ _ _ (StepCase.workerNoFlush c core wk hc hw hpc hf2), by simp, rfl, rfl, rfl,
      rfl, ?_, ?_⟩
    · intro h; exact absurd h hf
    · intro _; rfl

/-- At its `select`, the worker alone receives the record at the head of the queue. -/
theorem worker_recv_to_flush (w : World) (c : Nat) (core : Core) (wk : Worker)
    (ch : Chan (Option Bytes)) (b : Bytes) (rest : List (Option Bytes))
    (hc : w.cores c = some core) (hw : core.worker = some wk) (hpc : wk.pc = WorkerPC.select)
    (hq : core.logCh = some ch) (hb : ch.buf = some b :: rest) :
    ∃ w1 core1 wk1, step w (Action.worker c) = some w1 ∧ w1.cores c = some core1 ∧
      core1.worker = some wk1 ∧ wk1.pc = WorkerPC.flush ∧ wk1.logBuffer = wk.logBuffer ++ b ∧
      core1.logCh = some { cap := ch.cap, buf := rest } ∧ core1.out = core.out :=
  ⟨_, { core with
      logCh := some { cap := ch.cap, buf := rest }
      worker := some
        { pc := WorkerPC.flush, logBuffer := wk.logBuffer ++ b,
          flushLog := if (wk.logBuffer ++ b).length ≥ BatchSize then true else wk.flushLog } }, _,
    step_of_case _ _ _ (StepCase.workerRecv c core wk ch b rest hc hw hpc hq hb), by simp, rfl, rfl,
    rfl, rfl, rfl⟩

/-- A record in the accumulator reaches the sink by steps of the worker and a tick alone. -/
theorem deliver_from_accumulator (w : World) (c : Nat) (core : Core) (wk : Worker) (buf : Bytes)
    (hc : w.cores c = some core) (hw : core.worker = some wk)
    (hpc : wk.pc = WorkerPC.select ∨ wk.pc = WorkerPC.flush ∨ wk.pc = WorkerPC.drain)
    (hi : buf <:+: wk.logBuffer) :
    ∃ σ w1, (∀ a ∈ σ, a = Action.worker c ∨ a = Action.tick c) ∧ run w σ = some w1 ∧
      flushedTo w1 core.out buf := by
  rcases hpc with hpc | hpc | hpc
  · refine ⟨[Action.tick c, Action.worker c], _, by simp,
      run_cons_some (step_of_case _ _ _ (StepCase.tick c core wk hc hw hpc))
      (run_cons_some (step_of_case _ _ _
        (StepCase.workerFlush c { core with worker := some { wk with pc := WorkerPC.flush, flushLog := true } }
          { wk with pc := WorkerPC.flush, flushLog := true } (by simp) rfl rfl rfl)) rfl), ?_⟩
    exact ⟨wk.logBuffer, by simp, hi⟩
  · obtain ⟨w1, core1, wk1, hs, hc1, hw1, hpc1, _, hout, hft, hff⟩ :=
      worker_flush_to_select w c core wk hc hw hpc
    by_cases hf : wk.flushLog = true
    · exact ⟨[Action.worker c], w1, by simp, run_cons_some hs rfl, hft hf buf hi⟩
    · have hf2 : wk.flushLog = false := by simpa using hf
      refine ⟨[Action.worker c, Action.tick c, Action.worker c], _, by simp,
        run_cons_some hs
        (run_cons_some (step_of_case _ _ _ (StepCase.tick c core1 wk1 hc1 hw1 hpc1))
        (run_cons_some (step_of_case _ _ _
          (StepCase.workerFlush c
            { core1 with worker := some { wk1 with pc := WorkerPC.flush, flushLog := true } }
            { wk1 with pc := WorkerPC.flush, flushLog := true } (by simp) rfl rfl rfl)) rfl)), ?_⟩
      refine ⟨wk1.logBuffer, ?_, by rw [hff hf2]; exact hi⟩
      simp [hout]
  · refine ⟨[Action.worker c], _, by simp,
      run_cons_some (step_of_case _ _ _ (StepCase.workerDrain c core wk hc hw hpc)) rfl, ?_⟩
    exact ⟨wk.logBuffer, by simp, hi⟩

/-- A record queued ahead of any nil buffer reaches the sink by steps of the worker and a tick
alone (worker at its `select`). -/
theorem deliver_from_queue_select (c : Nat) (buf : Bytes) (n : Nat) :
    ∀ (w : World) (core : Core) (wk : Worker) (ch : Chan (Option Bytes)),
      w.cores c = some core → core.worker = some wk → wk.pc = WorkerPC.select →
      core.logCh = some ch → ch.buf.length = n → buf ∈ beforeNil ch.buf →
      ∃ σ w1, (∀ a ∈ σ, a = Action.worker c ∨ a = Action.tick c) ∧ run w σ = some w1 ∧
        flushedTo w1 core.out buf := by
  induction n with
  | zero =>
    intro w core wk ch hc hw hpc hq hlen hm
    have : ch.buf = [] := List.length_eq_zero.mp hlen
    rw [this] at hm
    simp [beforeNil] at hm
  | succ n ih =>
    intro w core wk ch hc hw hpc hq hlen hm
    cases hb : ch.buf with
    | nil => rw [hb] at hm; simp [beforeNil] at hm
    | cons x rest =>
      cases x with
      | none => rw [hb] at hm; simp [beforeNil] at hm
      | some b =>
        rw [hb] at hm hlen
        simp only [beforeNil, List.mem_cons] at hm
        obtain ⟨w1, core1, wk1, hs1, hc1, hw1, hpc1, hlb1, hq1, hout1⟩ :=
          worker_recv_to_flush w c core wk ch b rest hc hw hpc hq hb
        by_cases hbb : buf = b
        · subst hbb
          obtain ⟨σ, w2, hσ, hr, hf⟩ := deliver_from_accumulator w1 c core1 wk1 buf hc1 hw1
            (Or.inr (Or.inl hpc1)) (by rw [hlb1]; exact (List.suffix_append _ _).isInfix)
          refine ⟨Action.worker c :: σ, w2, ?_, run_cons_some hs1 hr, by rw [← hout1]; exact hf⟩
          intro a ha
          rcases List.mem_cons.1 ha with h | h
          · exact Or.inl h
          · exact hσ a h
        · have hm2 : buf ∈ beforeNil rest := by
            rcases hm with h | h
            · exact absurd h hbb
            · exact h
          obtain ⟨w2, core2, wk2, hs2, hc2, hw2, hpc2, hq2, hout2, _, _⟩ :=
            worker_flush_to_select w1 c core1 wk1 hc1 hw1 hpc1
          obtain ⟨σ, w3, hσ, hr, hf⟩ := ih w2 core2 wk2 { cap := ch.cap, buf := rest } hc2 hw2 hpc2
            (hq2.trans hq1) (by simpa using hlen) hm2
          refine ⟨Action.worker c :: Action.worker c :: σ, w3, ?_,
            run_cons_some hs1 (run_cons_some hs2 hr), by rw [← hout1, ← hout2]; exact hf⟩
          intro a ha
          rcases List.mem_cons.1 ha with h | h
          · exact Or.inl h
          · rcases List.mem_cons.1 h with h | h
            · exact Or.inl h
            · exact hσ a h

/-- A record queued ahead of any nil buffer reaches the sink by steps of the worker and a tick
alone. -/
theorem deliver_from_queue (w : World) (c : Nat) (buf : Bytes) (core : Core) (wk : Worker)
    (ch : Chan (Option Bytes)) (hc : w.cores c = some core) (hw : core.worker = some wk)
    (hpc : wk.pc = WorkerPC.select ∨ wk.pc = WorkerPC.flush) (hq : core.logCh = some ch)
    (hm : buf ∈ beforeNil ch.buf) :
    ∃ σ w1, (∀ a ∈ σ, a = Action.worker c ∨ a = Action.tick c) ∧ run w σ = some w1 ∧
      flushedTo w1 core.out buf := by
  rcases hpc with hpc | hpc
  · exact deliver_from_queue_select c buf _ w core wk ch hc hw hpc hq rfl hm
  · obtain ⟨w1, core1, wk1, hs, hc1, hw1, hpc1, hq1, hout1, _, _⟩ :=
      worker_flush_to_select w c core wk hc hw hpc
    obtain ⟨σ, w2, hσ, hr, hf⟩ := deliver_from_queue_select c buf _ w1 core1 wk1 ch hc1 hw1 hpc1
      (hq1.trans hq) rfl hm
    refine ⟨Action.worker c :: σ, w2, ?_, run_cons_some hs hr, by rw [← hout1]; exact hf⟩
    intro a ha
    rcases List.mem_cons.1 ha with h | h
    · exact Or.inl h
    · exact hσ a h

/-- A goroutine standing before the blocking send of line 118 moves only by that send. -/
theorem wBlocked_frame (t c : Nat) (buf : Bytes) (w w1 : World) (a : Action)
    (ht : w.threads t = PC.wBlocked c buf) (ha : a ≠ Action.thread t) (h : step w a = some w1) :
    w1.threads t = PC.wBlocked c buf := by
  rw [← ht]
  apply step_threads_other w w1 a t h ha
  · intro call e
    rw [e] at h
    simp [step, invokeStep, ht] at h
  · intro e
    rw [e] at h
    simp [step, timerStep, ht] at h

/-- C2 (amended): backpressure, not drop. On a core that is not stopped and whose queue is full, a
`Write` of severity at most error (whose encoding succeeds, giving `buf`) writes the warning
"log chan blocked\n" to the sink, touching no core, and then stands before the blocking send of
line 118, which is not enabled. While it stands there no other goroutine moves it; its step is
enabled exactly when the queue has room, and it then appends the record at the tail of the
queue and returns nil. If at that point the core has not been shut down (its worker is running
and no nil buffer is queued), the record is never discarded: in every continuation it is in the
queue ahead of any nil buffer, or in the accumulator, or the sink has been handed it; and the
worker alone, by draining the queue and taking a tick, delivers it to the sink. -/
theorem blocked_Write_waits_and_is_not_dropped (w : World) (t c : Nat) (core : Core)
    (ch : Chan (Option Bytes)) (ent : Entry) (fields : List Field) (buf : Bytes)
    (hidle : (w.threads t).notInCall = true) (hc : w.cores c = some core)
    (hns : w.stopped = false) (hq : core.logCh = some ch) (hfull : ¬ ch.buf.length < ch.cap)
    (henc : core.enc.EncodeEntry ent fields = Except.ok buf) (hl : ent.Level ≤ ErrorLevel) :
    (∃ w1, run w [Action.invoke t (Call.Write c ent fields), Action.thread t, Action.thread t,
        Action.thread t, Action.thread t] = some w1 ∧
      w1.threads t = PC.wBlocked c buf ∧ w1.cores = w.cores ∧
      (w1.sinks core.out).received = (w.sinks core.out).received ++ [blockedNotice] ∧
      (∀ s, s ≠ core.out → w1.sinks s = w.sinks s) ∧
      step w1 (Action.thread t) = none ∧
      ∀ σ w2, Action.thread t ∉ σ → run w1 σ = some w2 → w2.threads t = PC.wBlocked c buf) ∧
    (∀ w2 core2, w2.threads t = PC.wBlocked c buf → w2.cores c = some core2 →
      ((∀ ch2, core2.logCh = some ch2 → ¬ ch2.buf.length < ch2.cap) →
        step w2 (Action.thread t) = none) ∧
      ∀ ch2, core2.logCh = some ch2 → ch2.buf.length < ch2.cap →
        ∃ w3, step w2 (Action.thread t) = some w3 ∧ w3.threads t = PC.retWrite none ∧
          w3.cores c =
            some { core2 with logCh := some { cap := ch2.cap, buf := ch2.buf ++ [some buf] } } ∧
          w3.sinks = w2.sinks ∧
          ∀ wk, core2.worker = some wk → (wk.pc = WorkerPC.select ∨ wk.pc = WorkerPC.flush) →
            none ∉ ch2.buf →
            (∀ σ w4, run w3 σ = some w4 → inPipeline w4 c buf) ∧
            ∃ σ w4, (∀ a ∈ σ, a = Action.worker c ∨ a = Action.tick c) ∧ run w3 σ = some w4 ∧
              flushedTo w4 core2.out buf) := by
  have hl2 : ¬ ent.Level > ErrorLevel := not_lt.mpr hl
  have hfull2 : ∀ ch1, core.logCh = some ch1 → ¬ ch1.buf.length < ch1.cap := by
    intro ch1 h1; rw [hq] at h1; cases h1; exact hfull
  refine ⟨?_, ?_⟩
  · refine ⟨_, run_cons_some (step_of_case _ _ _ (StepCase.invWrite t c ent fields hidle))
      (run_cons_some (step_of_case _ _ _
        (StepCase.encNormal t c ent fields core buf (by simp) (by simpa using hc) henc hl2))
      (run_cons_some (step_of_case _ _ _
        (StepCase.readNotStopped t c buf core (by simp) (by simpa using hc) (by simpa using hns)))
      (run_cons_some (step_of_case _ _ _
        (StepCase.selectDefault t c buf core (by simp) (by simpa using hc) hfull2))
      (run_cons_some (step_of_case _ _ _
        (StepCase.warn t c buf core (by simp) (by simpa using hc))) rfl)))),
      by simp, rfl, by simp, ?_, ?_, ?_⟩
    · intro s hs; simp [hs]
    · have hs : send core.logCh (some buf) = none := (send_eq_none _ _).2 hfull2
      simp [step, threadStep, PC.core?, hc, PC.inClose, Write_step, hs]
    · intro σ w2 hσ hrun
      exact run_induction_on (fun w => w.threads t = PC.wBlocked c buf) σ
        (fun w a w1 ha h0 hs => wBlocked_frame t c buf w w1 a h0 (fun e => hσ (e ▸ ha)) hs)
        _ w2 (by simp) hrun
  · intro w2 core2 ht2 hc2
    refine ⟨?_, ?_⟩
    · intro hf
      have hs : send core2.logCh (some buf) = none := (send_eq_none _ _).2 hf
      simp [step, threadStep, ht2, PC.core?, hc2, PC.inClose, Write_step, hs]
    · intro ch2 hq2 hroom
      refine ⟨_, step_of_case _ _ _ (StepCase.blockedSend t c buf core2 ch2 ht2 hc2 hq2 hroom),
        by simp, by simp, rfl, ?_⟩
      intro wk hw hpc hnil
      have hm := mem_beforeNil_snoc ch2.buf buf hnil
      refine ⟨?_, ?_⟩
      · intro σ w4 hrun
        exact inPipeline_run c buf _ w4 σ
          ⟨{ core2 with logCh := some { cap := ch2.cap, buf := ch2.buf ++ [some buf] } }, by simp,
            Or.inr ⟨wk, hw, Or.inr ⟨hpc, _, rfl, hm⟩⟩⟩ hrun
      · exact deliver_from_queue _ c buf
          { core2 with logCh := some { cap := ch2.cap, buf := ch2.buf ++ [some buf] } } wk
          { cap := ch2.cap, buf := ch2.buf ++ [some buf] } (by simp) hw hpc rfl hm

/-- Witness of C2: a core whose queue is full of records of one byte. -/
theorem blocked_Write_waits_and_is_not_dropped_witness :
    (fullWorld.threads 0).notInCall = true ∧ fullWorld.stopped = false ∧
    ∃ w1, run fullWorld [Action.invoke 0 (Call.Write 0 { Level := 0, Message := "ab" } []),
        Action.thread 0, Action.thread 0, Action.thread 0, Action.thread 0] = some w1 ∧
      w1.threads 0 = PC.wBlocked 0 [97, 98] ∧ w1.cores = fullWorld.cores ∧
      (w1.sinks 0).received = [blockedNotice] :=
  ⟨rfl, rfl, (blocked_Write_waits_and_is_not_dropped fullWorld 0 0 fullCore
    { cap := logChCap, buf := List.replicate logChCap (some [120]) }
    { Level := 0, Message := "ab" } [] [97, 98] rfl rfl rfl rfl (by simp) rfl (by decide)).1.imp (fun _ h => ⟨h.1, h.2.1, h.2.2.1, h.2.2.2.1⟩)⟩

theorem lostRecordStart_run :
    ∃ w, run fullWorld lostRecordStart = some w ∧ drainingBehind w (logChCap - 2) := by
  have e1 : List.replicate logChCap (some [120]) =
      (some [120] : Option Bytes) :: List.replicate (logChCap - 1) (some [120]) := rfl
  have e2 : List.replicate (logChCap - 1) (some [120]) =
      (some [120] : Option Bytes) :: List.replicate (logChCap - 2) (some [120]) := rfl
  refine ⟨_,
    run_cons_some (step_of_case _ _ _ (StepCase.invWrite 0 0 entryAB [] rfl))
    (run_cons_some (step_of_case _ _ _
      (StepCase.encNormal 0 0 entryAB [] fullCore [97, 98] (by simp) rfl rfl (by decide)))
    (run_cons_some (step_of_case _ _ _
      (StepCase.readNotStopped 0 0 [97, 98] fullCore (by simp) rfl rfl))
    (run_cons_some (step_of_case _ _ _
      (StepCase.selectDefault 0 0 [97, 98] fullCore (by simp) rfl
        (by intro ch h; cases h; simp)))
    (run_cons_some (step_of_case _ _ _
      (StepCase.warn 0 0 [97, 98] fullCore (by simp) rfl))
    (run_cons_some (step_of_case _ _ _ (StepCase.invClose 1 0 (by simp [fullWorld, emptyWorld, PC.notInCall])))
    (run_cons_some (step_of_case _ _ _
      (StepCase.setStopped 1 0 false fullCore (by simp) rfl))
    (run_cons_some (step_of_case _ _ _
      (StepCase.workerRecv 0 fullCore { pc := WorkerPC.select, logBuffer := [], flushLog := false }
        { cap := logChCap, buf := List.replicate logChCap (some [120]) } [120]
        (List.replicate (logChCap - 1) (some [120])) rfl rfl rfl rfl e1))
    (run_cons_some (step_of_case _ _ _
      (StepCase.workerNoFlush 0
        { fullCore with
          logCh := some { cap := logChCap, buf := List.replicate (logChCap - 1) (some [120]) }
          worker := some { pc := WorkerPC.flush, logBuffer := [120], flushLog := false } }
        { pc := WorkerPC.flush, logBuffer := [120], flushLog := false }
        (by simp [BatchSize]) rfl rfl rfl))
    (run_cons_some (step_of_case _ _ _
      (StepCase.sendNil 1 0 false
        { fullCore with
          logCh := some { cap := logChCap, buf := List.replicate (logChCap - 1) (some [120]) }
          worker := some { pc := WorkerPC.select, logBuffer := [120], flushLog := false } }
        { cap := logChCap, buf := List.replicate (logChCap - 1) (some [120]) }
        (by simp) (by simp) rfl (by simp only [List.length_replicate]; decide)))
    (run_cons_some (step_of_case _ _ _
      (StepCase.workerRecv 0
        { fullCore with
          logCh := some { cap := logChCap,
                          buf := List.replicate (logChCap - 1) (some [120]) ++ [none] }
          worker := some { pc := WorkerPC.select, logBuffer := [120], flushLog := false } }
        { pc := WorkerPC.select, logBuffer := [120], flushLog := false }
        { cap := logChCap, buf := List.replicate (logChCap - 1) (some [120]) ++ [none] } [120]
        (List.replicate (logChCap - 2) (some [120]) ++ [none]) (by simp) rfl rfl rfl
        (by simp only [e2]; rfl)))
    (run_cons_some (step_of_case _ _ _
      (StepCase.workerNoFlush 0
        { fullCore with
          logCh := some { cap := logChCap,
                          buf := List.replicate (logChCap - 2) (some [120]) ++ [none] }
          worker := some { pc := WorkerPC.flush, logBuffer := [120, 120], flushLog := false } }
        { pc := WorkerPC.flush, logBuffer := [120, 120], flushLog := false }
        (by simp [BatchSize]) rfl rfl rfl))
    (run_cons_some (step_of_case _ _ _
      (StepCase.blockedSend 0 0 [97, 98]
        { fullCore with
          logCh := some { cap := logChCap,
                          buf := List.replicate (logChCap - 2) (some [120]) ++ [none] }
          worker := some { pc := WorkerPC.select, logBuffer := [120, 120], flushLog := false } }
        { cap := logChCap, buf := List.replicate (logChCap - 2) (some [120]) ++ [none] }
        (by simp) (by simp) rfl
        (by simp only [List.length_append, List.length_replicate, List.length_singleton]; decide)))
      rfl)))))))))))), ?_⟩
  refine ⟨by simp, by simp, by simp [fullWorld, emptyWorld, fullCore, NewCore], _, by simp; rfl, rfl, rfl, ?_, ?_⟩
  · simp
  · simp [logChCap]

/-- The worker receives one more record of one byte: two steps. -/
theorem drainingBehind_round (w : World) (n : Nat) (h : drainingBehind w (n + 1))
    (hn : n < logChCap) :
    ∃ w1, run w [Action.worker 0, Action.worker 0] = some w1 ∧ drainingBehind w1 n := by
  obtain ⟨h0, h1, hs, core, hc, hout, hd, hq, hw⟩ := h
  have hlen : ¬ (List.replicate (logChCap - (n + 1)) 120 ++ [120]).length ≥ BatchSize := by
    simp only [List.length_append, List.length_replicate, List.length_singleton, BatchSize,
      logChCap] at hn ⊢
    omega
  have hlt : logChCap - (n + 1) + 1 < BatchSize := by
    simp only [BatchSize, logChCap] at hn ⊢
    omega
  refine ⟨_,
    run_cons_some (step_of_case _ _ _
      (StepCase.workerRecv 0 core _ _ [120] (List.replicate n (some [120]) ++ [none, some [97, 98]])
        hc hw rfl hq (by simp [List.replicate_succ])))
    (run_cons_some (step_of_case _ _ _
      (StepCase.workerNoFlush 0
        { core with
          logCh := some { cap := logChCap,
                          buf := List.replicate n (some [120]) ++ [none, some [97, 98]] }
          worker := some { pc := WorkerPC.flush,
                           logBuffer := List.replicate (logChCap - (n + 1)) 120 ++ [120],
                           flushLog := false } }
        { pc := WorkerPC.flush, logBuffer := List.replicate (logChCap - (n + 1)) 120 ++ [120],
          flushLog := false }
        (by simp [hlt]) rfl rfl rfl)) rfl), ?_⟩
  refine ⟨by simpa using h0, by simpa using h1, by simpa using hs, _, setCore_self _ _ _, hout, hd,
    rfl, ?_⟩
  have e : logChCap - n = (logChCap - (n + 1)) + 1 := by omega
  simp only [e, List.replicate_succ']

theorem drainingBehind_rounds (k : Nat) (w : World) (n : Nat) (h : drainingBehind w (n + k))
    (hn : n + k ≤ logChCap) :
    ∃ w1, run w (List.replicate k [Action.worker 0, Action.worker 0]).flatten = some w1 ∧
      drainingBehind w1 n := by
  induction k generalizing w with
  | zero => exact ⟨w, rfl, h⟩
  | succ k ih =>
    obtain ⟨w1, hr1, hd1⟩ := drainingBehind_round w (n + k) h (by omega)
    obtain ⟨w2, hr2, hd2⟩ := ih w1 hd1 (by omega)
    refine ⟨w2, ?_, hd2⟩
    rw [List.replicate_succ, List.flatten_cons]
    exact run_append_some hr1 hr2

/-- With only the nil buffer ahead of "ab": the worker receives the nil buffer, does its final
write, signals `done` and returns; `Close` receives `done`, writes its notice and returns. -/
theorem drainingBehind_end (w : World) (h : drainingBehind w 0) :
    ∃ w1, run w [Action.worker 0, Action.worker 0, Action.worker 0, Action.thread 1,
        Action.thread 1] = some w1 ∧
      w1.threads 0 = PC.retWrite none ∧ w1.threads 1 = PC.retClose ∧
      (w1.sinks 0).received = [blockedNotice, List.replicate logChCap 120, successNotice] ∧
      ∃ core wk, w1.cores 0 = some core ∧ core.out = 0 ∧
        core.logCh = some { cap := logChCap, buf := [some [97, 98]] } ∧
        core.worker = some wk ∧ wk.pc = WorkerPC.exited ∧
        core.done = some { cap := 1, buf := [] } := by
  obtain ⟨h0, h1, hs, core, hc, hout, hd, hq, hw⟩ := h
  refine ⟨_,
    run_cons_some (step_of_case _ _ _
      (StepCase.workerNil 0 core _ _ [some [97, 98]] hc hw rfl hq (by simp)))
    (run_cons_some (step_of_case _ _ _
      (StepCase.workerDrain 0
        { core with
          logCh := some { cap := logChCap, buf := [some [97, 98]] }
          worker := some { pc := WorkerPC.drain, logBuffer := List.replicate (logChCap - 0) 120,
                           flushLog := false } }
        { pc := WorkerPC.drain, logBuffer := List.replicate (logChCap - 0) 120, flushLog := false }
        (by simp) rfl rfl))
    (run_cons_some (step_of_case _ _ _
      (StepCase.workerSignal 0
        { core with
          logCh := some { cap := logChCap, buf := [some [97, 98]] }
          worker := some { pc := WorkerPC.signal, logBuffer := List.replicate (logChCap - 0) 120,
                           flushLog := false } }
        { pc := WorkerPC.signal, logBuffer := List.replicate (logChCap - 0) 120, flushLog := false }
        { cap := 1, buf := [] } (by simp) rfl rfl hd (by simp)))
    (run_cons_some (step_of_case _ _ _
      (StepCase.recvDone 1 0 false
        { core with
          logCh := some { cap := logChCap, buf := [some [97, 98]] }
          done := some { cap := 1, buf := [()] }
          worker := some { pc := WorkerPC.exited, logBuffer := List.replicate (logChCap - 0) 120,
                           flushLog := false } }
        { cap := 1, buf := [()] } () [] (by simpa using h1) (by simp) rfl rfl))
    (run_cons_some (step_of_case _ _ _
      (StepCase.successNote 1 0 false
        { core with
          logCh := some { cap := logChCap, buf := [some [97, 98]] }
          done := some { cap := 1, buf := [] }
          worker := some { pc := WorkerPC.exited, logBuffer := List.replicate (logChCap - 0) 120,
                           flushLog := false } }
        (by simp) (by simp))) rfl)))), ?_⟩
  refine ⟨by simpa using h0, by simp [afterClose], ?_,
    { core with
      logCh := some { cap := logChCap, buf := [some [97, 98]] }
      done := some { cap := 1, buf := [] }
      worker := some { pc := WorkerPC.exited, logBuffer := List.replicate (logChCap - 0) 120,
                       flushLog := false } },
    { pc := WorkerPC.exited, logBuffer := List.replicate (logChCap - 0) 120, flushLog := false },
    by simp, hout, rfl, rfl, rfl, rfl⟩
  simp [hout, hs]

theorem ab_not_in_replicate (n : Nat) : ¬ ([97, 98] : Bytes) <:+: List.replicate n 120 := by
  intro h
  have : (97 : Nat) ∈ List.replicate n 120 := h.subset (by simp)
  simp at this

/-- C2 as stated fails: the record of a `Write` that found the queue full can be lost. On the
full queue of `fullWorld` (not stopped, worker running), goroutine 0 calls `Write` of "ab" at
info level, writes the warning and blocks. Goroutine 1 calls `Close`; when the worker makes
room, the nil buffer of `Close` is enqueued first, and "ab" is enqueued behind it. `Write`
returns nil; the worker drains the queue up to the nil buffer, does its final write and
returns; `Close` reports "log flush successfully.\n" and returns. The sink has been handed the
warning, the 10240 bytes that were queued and the notice, and not "ab", which is still in the
queue; in every continuation it stays there, the worker having returned. -/
theorem blocked_Write_may_lose_record :
    (fullWorld.threads 0).notInCall = true ∧ fullWorld.stopped = false ∧
    fullWorld.cores 0 = some fullCore ∧
    (∃ ch, fullCore.logCh = some ch ∧ ch.buf.length = ch.cap) ∧ entryAB.Level ≤ ErrorLevel ∧
    (∃ wk, fullCore.worker = some wk ∧ wk.pc = WorkerPC.select) ∧
    ∃ w, run fullWorld lostRecord = some w ∧
      w.threads 0 = PC.retWrite none ∧ w.threads 1 = PC.retClose ∧
      (w.sinks 0).received = [blockedNotice, List.replicate logChCap 120, successNotice] ∧
      ¬ flushedTo w 0 [97, 98] ∧
      ∀ σ w1, run w σ = some w1 →
        ∃ core tail wk, w1.cores 0 = some core ∧
          core.logCh = some { cap := logChCap, buf := [some [97, 98]] ++ tail } ∧
          core.worker = some wk ∧ wk.pc = WorkerPC.exited := by
  refine ⟨rfl, rfl, rfl, ⟨_, rfl, List.length_replicate _ _⟩, by decide, ⟨_, rfl, rfl⟩, ?_⟩
  obtain ⟨w1, hr1, hd1⟩ := lostRecordStart_run
  obtain ⟨w2, hr2, hd2⟩ := drainingBehind_rounds (logChCap - 2) w1 0 (by simpa using hd1)
    (by simp)
  obtain ⟨w3, hr3, h0, h1, hs, core, wk, hc, hout, hq, hw, hpc, hd⟩ := drainingBehind_end w2 hd2
  refine ⟨w3, run_append_some (run_append_some hr1 hr2) hr3, h0, h1, hs, ?_, ?_⟩
  · rintro ⟨b, hb, hi⟩
    rw [hs] at hb
    simp only [List.mem_cons, List.mem_singleton, List.not_mem_nil, or_false] at hb
    rcases hb with rfl | rfl | rfl
    · revert hi; decide
    · exact ab_not_in_replicate _ hi
    · revert hi; decide
  · intro σ w4 hrun
    have hI := run_induction
      (fun w => ∃ core tail, w.cores 0 = some core ∧
        core.logCh = some { cap := logChCap, buf := [some [97, 98]] ++ tail } ∧
        core.worker = some wk ∧ ∀ d, core.done = some d → d.buf.length ≤ 0)
      (fun w a w1 hI hs => exited_worker_step 0 logChCap [some [97, 98]] wk 0 hpc w w1 a hI hs)
      w3 σ w4 ⟨core, [], hc, by simpa using hq, hw, by rw [hd]; simp⟩ hrun
    obtain ⟨core2, tail, h1, h2, h3, _⟩ := hI
    exact ⟨core2, tail, wk, h1, h2, h3, hpc⟩

/-! ## Normal load: the account of the bytes -/

theorem setCore_cores_ne (w : World) (c1 : Nat) (core : Core) (c : Nat) (h : c1 ≠ c) :
    (w.setCore c1 core).cores c = w.cores c := by
  simp [Ne.symm h]

@[simp] theorem heldBy_setPC (c : Nat) (w : World) (t : Nat) (pc : PC) :
    heldBy c (w.setPC t pc) = heldBy c w := rfl

@[simp] theorem heldBy_sinkWrite (c : Nat) (w : World) (s : Nat) (b : Bytes) :
    heldBy c (w.sinkWrite s b) = heldBy c w := rfl

theorem heldBy_of_cores_eq (c : Nat) (w w1 : World) (h : w1.cores c = w.cores c) :
    heldBy c w1 = heldBy c w := by
  simp [heldBy, h]

theorem isOpen_of_cores_eq (c : Nat) (w w1 : World) (h : w1.cores c = w.cores c) :
    isOpen c w1 = isOpen c w := by
  simp [isOpen, h]

theorem sentAt_of_cores_eq (c : Nat) (w w1 : World) (h : w1.cores c = w.cores c) :
    sentAt c w w1 = none := by
  unfold sentAt
  rw [h]
  cases w.cores c with
  | none => rfl
  | some core => cases hq : core.logCh <;> simp [hq]

theorem sentAt_send (c : Nat) (w w1 : World) (core core1 : Core) (ch : Chan (Option Bytes))
    (x : Option Bytes) (hc : w.cores c = some core) (hq : core.logCh = some ch)
    (hc1 : w1.cores c = some core1)
    (hq1 : core1.logCh = some { cap := ch.cap, buf := ch.buf ++ [x] }) :
    sentAt c w w1 = some x := by
  simp [sentAt, hc, hc1, hq, hq1]

theorem sentBy_of_cores_eq (c : Nat) (w w1 : World) (a : Action)
    (h : w1.cores c = w.cores c) : sentBy c w w1 a = [] := by
  cases a <;> simp [sentBy, sentAt_of_cores_eq c w w1 h]

theorem calm_setPC (c : Nat) (w : World) (t : Nat) (pc : PC)
    (h : ∀ u, (w.threads u).calm c = true) (hpc : pc.calm c = true) :
    ∀ u, ((w.setPC t pc).threads u).calm c = true := by
  intro u
  simp only [setPC_threads]
  split
  · exact hpc
  · exact h u

theorem beforeNil_append (q l : List (Option Bytes)) (h : none ∉ q) :
    beforeNil (q ++ l) = beforeNil q ++ beforeNil l := by
  induction q with
  | nil => rfl
  | cons x rest ih =>
    cases x with
    | none => simp at h
    | some b =>
      simp only [List.cons_append, beforeNil, List.cons.injEq, true_and]
      exact ih (fun hm => h (List.mem_cons_of_mem _ hm))

theorem beforeNil_flatten (q : List (Option Bytes)) (h : none ∉ q) :
    (beforeNil q).flatten = queuedBytes q := by
  induction q with
  | nil => rfl
  | cons x rest ih =>
    cases x with
    | none => simp at h
    | some b =>
      simp only [beforeNil, queuedBytes, List.flatten_cons]
      rw [ih (fun hm => h (List.mem_cons_of_mem _ hm))]

theorem record_step_none (c : Nat) (enc : Encoder) (w w1 : World) (a : Action)
    (henq : sentBy c w w1 a = []) (hcalls : ∀ u, callsOf u [a] = [])
    (hrec : ∀ u, (w1.threads u).record c enc = (w.threads u).record c enc) :
    ∀ u, ((sentBy c w w1 a).filter (fun p => p.1 = u)).filterMap Prod.snd ++
        (w1.threads u).record c enc =
      (w.threads u).record c enc ++ recordsOn c enc (callsOf u [a]) := by
  intro u
  simp [henq, hcalls u, hrec u, recordsOn]

theorem record_setPC (c : Nat) (enc : Encoder) (w : World) (t : Nat) (pc : PC)
    (h : pc.record c enc = (w.threads t).record c enc) :
    ∀ u, ((w.setPC t pc).threads u).record c enc = (w.threads u).record c enc := by
  intro u
  simp only [setPC_threads]
  split
  · rename_i e; subst e; exact h
  · rfl

@[simp] theorem sentEarly_nil (c : Nat) (w : World) : sentEarly c w [] = [] := by
  unfold sentEarly
  split <;> rfl

theorem flow_same (c s : Nat) (w w1 : World) (a : Action) (hc : w1.cores c = w.cores c)
    (hs : (w1.sinks s).received.flatten = (w.sinks s).received.flatten) :
    (w1.sinks s).received.flatten ++ heldBy c w1 =
      (w.sinks s).received.flatten ++ heldBy c w ++
        (sentEarly c w (sentBy c w w1 a)).flatten := by
  rw [sentBy_of_cores_eq c w w1 a hc, heldBy_of_cores_eq c w w1 hc, hs]
  simp

theorem normal_open (c s : Nat) (enc : Encoder) (w : World) (hN : Normal c s enc w) :
    isOpen c w = true := by
  obtain ⟨_, _, core, ch, d, wk, hc, _, _, hq, hnil, _, _, hw, hpc⟩ := hN
  rcases hpc with h | h <;> simp [isOpen, hc, hw, hq, h, hnil]

theorem normal_heldBy (c : Nat) (w : World) (core : Core) (ch : Chan (Option Bytes))
    (wk : Worker) (hc : w.cores c = some core) (hq : core.logCh = some ch)
    (hw : core.worker = some wk) (hpc : wk.pc = WorkerPC.select ∨ wk.pc = WorkerPC.flush) :
    heldBy c w = wk.logBuffer ++ (beforeNil ch.buf).flatten := by
  rcases hpc with h | h <;> simp [heldBy, hc, hw, hq, h]

theorem normal_of_frame (c s : Nat) (enc : Encoder) (w w1 : World) (hN : Normal c s enc w)
    (hc : w1.cores c = w.cores c) (hst : w1.stopped = w.stopped)
    (hcalm : ∀ u, (w1.threads u).calm c = true) : Normal c s enc w1 := by
  obtain ⟨hns, _, h⟩ := hN
  exact ⟨hst.trans hns, hcalm, by rw [hc]; exact h⟩

theorem record_step_worker (c : Nat) (enc : Encoder) (w w1 : World) (a : Action)
    (henq : sentBy c w w1 a = []) (hcalls : ∀ u, callsOf u [a] = [])
    (hthr : w1.threads = w.threads) :
    ∀ u, ((sentBy c w w1 a).filter (fun p => p.1 = u)).filterMap Prod.snd ++
        (w1.threads u).record c enc =
      (w.threads u).record c enc ++ recordsOn c enc (callsOf u [a]) :=
  record_step_none c enc w w1 a henq hcalls (fun u => by rw [hthr])

theorem normal_step (c s : Nat) (enc : Encoder) (w w1 : World) (a : Action)
    (hN : Normal c s enc w) (ha : a.normalLoad = true) (hnf : fullQueuePathOn c w a = false)
    (hown : a.ofCore c w = true ∨ (w1.sinks s).received.flatten = (w.sinks s).received.flatten)
    (h : step w a = some w1) :
    Normal c s enc w1 ∧
    (w1.sinks s).received.flatten ++ heldBy c w1 =
      (w.sinks s).received.flatten ++ heldBy c w ++
        (sentEarly c w (sentBy c w w1 a)).flatten ∧
    (∀ u, ((sentBy c w w1 a).filter (fun p => p.1 = u)).filterMap Prod.snd ++
        (w1.threads u).record c enc =
      (w.threads u).record c enc ++ recordsOn c enc (callsOf u [a])) := by
  obtain ⟨hns, hcalm, core, ch, d, wk, hc, hout, henc, hq, hnil, hd, hdb, hw, hpc⟩ := hN
  have hcase := step_cases w w1 a h
  cases hcase with
  | invWrite t c1 ent fields hidle =>
    refine ⟨⟨hns, calm_setPC c w t _ hcalm (by simpa [PC.calm, Action.normalLoad] using ha),
      core, ch, d, wk, hc, hout, henc, hq, hnil, hd, hdb, hw, hpc⟩, by simp [sentBy], ?_⟩
    intro u
    by_cases hu : u = t
    · subst hu
      have : (w.threads u).record c enc = [] := by
        cases hp : w.threads u <;> simp_all [PC.notInCall, PC.record]
      simp only [sentBy, setPC_threads, if_true, callsOf, this]
      simp [PC.record]
    · simp [sentBy, callsOf, hu, Ne.symm hu, recordsOn]
  | invClose t c1 hidle => simp [Action.normalLoad] at ha
  | encErr t c1 ent fields core1 err ht hc1 he =>
    refine ⟨⟨hns, calm_setPC c w t _ hcalm rfl,
      core, ch, d, wk, hc, hout, henc, hq, hnil, hd, hdb, hw, hpc⟩,
      flow_same c s w _ _ rfl rfl,
      record_step_none c enc w _ _ (sentBy_of_cores_eq c w _ _ rfl) (fun _ => rfl)
        (record_setPC c enc w t _ ?_)⟩
    rw [ht]
    simp only [PC.record, recordsOn]
    split
    · rename_i e; subst e
      rw [hc] at hc1; cases hc1
      rw [← henc, he]
    · rfl
  | encPanic t c1 ent fields core1 buf ht hc1 he hl =>
    have := hcalm t
    rw [ht] at this
    simp only [PC.calm, decide_eq_true_eq] at this
    exact absurd this (not_le.mpr hl)
  | encNormal t c1 ent fields core1 buf ht hc1 he hl =>
    refine ⟨⟨hns, calm_setPC c w t _ hcalm rfl,
      core, ch, d, wk, hc, hout, henc, hq, hnil, hd, hdb, hw, hpc⟩,
      flow_same c s w _ _ rfl rfl,
      record_step_none c enc w _ _ (sentBy_of_cores_eq c w _ _ rfl) (fun _ => rfl)
        (record_setPC c enc w t _ ?_)⟩
    rw [ht]
    simp only [PC.record, recordsOn]
    split
    · rename_i e; subst e
      rw [hc] at hc1; cases hc1
      rw [← henc, he]
    · rfl
  | panicSend t c1 buf core1 ch1 ht hc1 hq1 hroom =>
    have := hcalm t
    rw [ht] at this
    simp [PC.calm] at this
  | readStopped t c1 buf core1 ht hc1 hs => rw [hns] at hs; cases hs
  | readNotStopped t c1 buf core1 ht hc1 hs =>
    refine ⟨⟨hns, calm_setPC c w t _ hcalm rfl,
      core, ch, d, wk, hc, hout, henc, hq, hnil, hd, hdb, hw, hpc⟩,
      flow_same c s w _ _ rfl rfl,
      record_step_none c enc w _ _ (sentBy_of_cores_eq c w _ _ rfl) (fun _ => rfl)
        (record_setPC c enc w t _ ?_)⟩
    rw [ht]
    rfl
  | direct t c1 buf core1 ht hc1 =>
    have hcc : c1 ≠ c := by
      have := hcalm t
      rw [ht] at this
      simpa [PC.calm] using this
    have hs := hown.resolve_left (by simp [Action.ofCore, ht, PC.core?, hcc])
    refine ⟨⟨hns, calm_setPC c (w.sinkWrite _ _) t _ hcalm rfl,
      core, ch, d, wk, hc, hout, henc, hq, hnil, hd, hdb, hw, hpc⟩,
      flow_same c s w _ _ rfl hs,
      record_step_none c enc w _ _ (sentBy_of_cores_eq c w _ _ rfl) (fun _ => rfl)
        (record_setPC c enc (w.sinkWrite _ _) t _ ?_)⟩
    simp [ht, PC.record, hcc]
  | selectSend t c1 buf core1 ch1 ht hc1 hq1 hroom =>
    by_cases hcc : c1 = c
    · subst hcc
      rw [hc] at hc1; cases hc1; rw [hq] at hq1; cases hq1
      have henq : sentBy c1 w
          ((w.setCore c1 { core with logCh := some { cap := ch.cap, buf := ch.buf ++ [some buf] } }).setPC
            t (PC.retWrite none)) (Action.thread t) = [(t, some buf)] := by
        simp only [sentBy]
        rw [sentAt_send c1 w _ core _ ch (some buf) hc hq (setPC_setCore_self _ _ _ _ _) rfl]
      have hopen : isOpen c1 w = true :=
        normal_open c1 s enc w ⟨hns, hcalm, core, ch, d, wk, hc, hout, henc, hq, hnil, hd, hdb, hw, hpc⟩
      refine ⟨⟨hns, calm_setPC c1 (w.setCore c1 _) t _ hcalm rfl,
        _, { cap := ch.cap, buf := ch.buf ++ [some buf] }, d, wk, setPC_setCore_self _ _ _ _ _,
        hout, henc, rfl, by simpa using hnil, hd, hdb, hw, hpc⟩, ?_, ?_⟩
      · rw [henq]
        rcases hpc with h1 | h1 <;>
          simp [heldBy, hc, hq, hw, h1, sentEarly, hopen, beforeNil_append _ _ hnil, beforeNil]
      · intro u
        rw [henq]
        by_cases hu : u = t
        · subst hu
          simp [ht, PC.record, callsOf, recordsOn]
        · simp [hu, Ne.symm hu, callsOf, recordsOn]
    · refine ⟨normal_of_frame c s enc w _
        ⟨hns, hcalm, core, ch, d, wk, hc, hout, henc, hq, hnil, hd, hdb, hw, hpc⟩ (setCore_cores_ne _ _ _ _ hcc) rfl
        (calm_setPC c (w.setCore c1 _) t _ hcalm rfl),
        flow_same c s w _ _ (setCore_cores_ne _ _ _ _ hcc) rfl,
        record_step_none c enc w _ _ (sentBy_of_cores_eq c w _ _ (setCore_cores_ne _ _ _ _ hcc)) (fun _ => rfl)
          (record_setPC c enc (w.setCore c1 _) t _ ?_)⟩
      simp [ht, PC.record, hcc]
  | selectDefault t c1 buf core1 ht hc1 hfull =>
    have hcc : c1 ≠ c := by
      intro e
      subst e
      have hs : send core1.logCh (some buf) = none := (send_eq_none _ _).2 hfull
      simp [fullQueuePathOn, ht, hc1, hs] at hnf
    refine ⟨⟨hns, calm_setPC c w t _ hcalm (by simpa [PC.calm] using hcc),
      core, ch, d, wk, hc, hout, henc, hq, hnil, hd, hdb, hw, hpc⟩,
      flow_same c s w _ _ rfl rfl,
      record_step_none c enc w _ _ (sentBy_of_cores_eq c w _ _ rfl) (fun _ => rfl)
        (record_setPC c enc w t _ ?_)⟩
    simp [ht, PC.record, hcc]
  | warn t c1 buf core1 ht hc1 =>
    have hcc : c1 ≠ c := by
      have := hcalm t
      rw [ht] at this
      simpa [PC.calm] using this
    have hs := hown.resolve_left (by simp [Action.ofCore, ht, PC.core?, hcc])
    refine ⟨⟨hns, calm_setPC c (w.sinkWrite _ _) t _ hcalm (by simpa [PC.calm] using hcc),
      core, ch, d, wk, hc, hout, henc, hq, hnil, hd, hdb, hw, hpc⟩,
      flow_same c s w _ _ rfl hs,
      record_step_none c enc w _ _ (sentBy_of_cores_eq c w _ _ rfl) (fun _ => rfl)
        (record_setPC c enc (w.sinkWrite _ _) t _ ?_)⟩
    simp [ht, PC.record]
  | blockedSend t c1 buf core1 ch1 ht hc1 hq1 hroom =>
    have hcc : c1 ≠ c := by
      have := hcalm t
      rw [ht] at this
      simpa [PC.calm] using this
    refine ⟨normal_of_frame c s enc w _
      ⟨hns, hcalm, core, ch, d, wk, hc, hout, henc, hq, hnil, hd, hdb, hw, hpc⟩ (setCore_cores_ne _ _ _ _ hcc) rfl
      (calm_setPC c (w.setCore c1 _) t _ hcalm rfl),
      flow_same c s w _ _ (setCore_cores_ne _ _ _ _ hcc) rfl,
      record_step_none c enc w _ _ (sentBy_of_cores_eq c w _ _ (setCore_cores_ne _ _ _ _ hcc)) (fun _ => rfl)
        (record_setPC c enc (w.setCore c1 _) t _ ?_)⟩
    simp [ht, PC.record]
  | setStopped t c1 k core1 ht hc1 =>
    have := hcalm t
    rw [ht] at this
    simp [PC.calm] at this
  | sendNil t c1 k core1 ch1 ht hc1 hq1 hroom =>
    have := hcalm t
    rw [ht] at this
    simp [PC.calm] at this
  | recvDone t c1 k core1 d1 x rest ht hc1 hd1 hbuf =>
    have := hcalm t
    rw [ht] at this
    simp [PC.calm] at this
  | timerFires t c1 k ht =>
    have := hcalm t
    rw [ht] at this
    simp [PC.calm] at this
  | timeoutNote t c1 k core1 ht hc1 =>
    have := hcalm t
    rw [ht] at this
    simp [PC.calm] at this
  | successNote t c1 k core1 ht hc1 =>
    have := hcalm t
    rw [ht] at this
    simp [PC.calm] at this
  | workerNil c1 core1 wk1 ch1 rest hc1 hw1 hpc1 hq1 hbuf =>
    by_cases hcc : c1 = c
    · subst hcc
      rw [hc] at hc1; cases hc1; rw [hq] at hq1; cases hq1
      exact absurd (hbuf ▸ List.mem_cons_self _ _) hnil
    · exact ⟨normal_of_frame c s enc w _
        ⟨hns, hcalm, core, ch, d, wk, hc, hout, henc, hq, hnil, hd, hdb, hw, hpc⟩ (setCore_cores_ne _ _ _ _ hcc) rfl hcalm,
        flow_same c s w _ _ (setCore_cores_ne _ _ _ _ hcc) rfl, record_step_worker c enc w _ _ rfl (fun _ => rfl) rfl⟩
  | workerRecv c1 core1 wk1 ch1 b rest hc1 hw1 hpc1 hq1 hbuf =>
    by_cases hcc : c1 = c
    · subst hcc
      rw [hc] at hc1; cases hc1; rw [hq] at hq1; cases hq1; rw [hw] at hw1; cases hw1
      refine ⟨⟨hns, hcalm, _, { cap := ch.cap, buf := rest }, d, _, setCore_self _ _ _, hout, henc,
        rfl, fun hm => hnil (hbuf ▸ List.mem_cons_of_mem _ hm), hd, hdb, rfl, Or.inr rfl⟩, ?_,
        record_step_worker c1 enc w _ _ rfl (fun _ => rfl) rfl⟩
      simp [heldBy, hc, hq, hw, hbuf, beforeNil, hpc1, sentBy]
    · exact ⟨normal_of_frame c s enc w _
        ⟨hns, hcalm, core, ch, d, wk, hc, hout, henc, hq, hnil, hd, hdb, hw, hpc⟩ (setCore_cores_ne _ _ _ _ hcc) rfl hcalm,
        flow_same c s w _ _ (setCore_cores_ne _ _ _ _ hcc) rfl, record_step_worker c enc w _ _ rfl (fun _ => rfl) rfl⟩
  | workerFlush c1 core1 wk1 hc1 hw1 hpc1 hf =>
    by_cases hcc : c1 = c
    · subst hcc
      rw [hc] at hc1; cases hc1; rw [hw] at hw1; cases hw1
      refine ⟨⟨hns, hcalm, _, ch, d, _, setCore_self _ _ _, hout, henc, hq, hnil, hd, hdb, rfl,
        Or.inl rfl⟩, ?_, record_step_worker c1 enc w _ _ rfl (fun _ => rfl) rfl⟩
      simp [heldBy, hc, hq, hw, hpc1, sentBy, hout]
    · have hs := hown.resolve_left (by simp [Action.ofCore, hcc])
      exact ⟨normal_of_frame c s enc w _
        ⟨hns, hcalm, core, ch, d, wk, hc, hout, henc, hq, hnil, hd, hdb, hw, hpc⟩ (setCore_cores_ne _ _ _ _ hcc) rfl hcalm,
        flow_same c s w _ _ (setCore_cores_ne _ _ _ _ hcc) hs, record_step_worker c enc w _ _ rfl (fun _ => rfl) rfl⟩
  | workerNoFlush c1 core1 wk1 hc1 hw1 hpc1 hf =>
    by_cases hcc : c1 = c
    · subst hcc
      rw [hc] at hc1; cases hc1; rw [hw] at hw1; cases hw1
      refine ⟨⟨hns, hcalm, _, ch, d, _, setCore_self _ _ _, hout, henc, hq, hnil, hd, hdb, rfl,
        Or.inl rfl⟩, ?_, record_step_worker c1 enc w _ _ rfl (fun _ => rfl) rfl⟩
      simp [heldBy, hc, hq, hw, hpc1, sentBy]
    · exact ⟨normal_of_frame c s enc w _
        ⟨hns, hcalm, core, ch, d, wk, hc, hout, henc, hq, hnil, hd, hdb, hw, hpc⟩ (setCore_cores_ne _ _ _ _ hcc) rfl hcalm,
        flow_same c s w _ _ (setCore_cores_ne _ _ _ _ hcc) rfl, record_step_worker c enc w _ _ rfl (fun _ => rfl) rfl⟩
  | workerDrain c1 core1 wk1 hc1 hw1 hpc1 =>
    by_cases hcc : c1 = c
    · subst hcc
      rw [hc] at hc1; cases hc1; rw [hw] at hw1; cases hw1
      rcases hpc with h1 | h1 <;> (rw [hpc1] at h1; cases h1)
    · have hs := hown.resolve_left (by simp [Action.ofCore, hcc])
      exact ⟨normal_of_frame c s enc w _
        ⟨hns, hcalm, core, ch, d, wk, hc, hout, henc, hq, hnil, hd, hdb, hw, hpc⟩ (setCore_cores_ne _ _ _ _ hcc) rfl hcalm,
        flow_same c s w _ _ (setCore_cores_ne _ _ _ _ hcc) hs, record_step_worker c enc w _ _ rfl (fun _ => rfl) rfl⟩
  | workerSignal c1 core1 wk1 d1 hc1 hw1 hpc1 hd1 hroom =>
    by_cases hcc : c1 = c
    · subst hcc
      rw [hc] at hc1; cases hc1; rw [hw] at hw1; cases hw1
      rcases hpc with h1 | h1 <;> (rw [hpc1] at h1; cases h1)
    · exact ⟨normal_of_frame c s enc w _
        ⟨hns, hcalm, core, ch, d, wk, hc, hout, henc, hq, hnil, hd, hdb, hw, hpc⟩ (setCore_cores_ne _ _ _ _ hcc) rfl hcalm,
        flow_same c s w _ _ (setCore_cores_ne _ _ _ _ hcc) rfl, record_step_worker c enc w _ _ rfl (fun _ => rfl) rfl⟩
  | tick c1 core1 wk1 hc1 hw1 hpc1 =>
    by_cases hcc : c1 = c
    · subst hcc
      rw [hc] at hc1; cases hc1; rw [hw] at hw1; cases hw1
      refine ⟨⟨hns, hcalm, _, ch, d, _, setCore_self _ _ _, hout, henc, hq, hnil, hd, hdb, rfl,
        Or.inr rfl⟩, ?_, record_step_worker c1 enc w _ _ rfl (fun _ => rfl) rfl⟩
      simp [heldBy, hc, hq, hw, hpc1, sentBy]
    · exact ⟨normal_of_frame c s enc w _
        ⟨hns, hcalm, core, ch, d, wk, hc, hout, henc, hq, hnil, hd, hdb, hw, hpc⟩ (setCore_cores_ne _ _ _ _ hcc) rfl hcalm,
        flow_same c s w _ _ (setCore_cores_ne _ _ _ _ hcc) rfl, record_step_worker c enc w _ _ rfl (fun _ => rfl) rfl⟩
  | newCore id enc1 ws enab hfree =>
    have hcc : id ≠ c := fun e => by rw [e, hc] at hfree; cases hfree
    exact ⟨normal_of_frame c s enc w _
      ⟨hns, hcalm, core, ch, d, wk, hc, hout, henc, hq, hnil, hd, hdb, hw, hpc⟩ (setCore_cores_ne _ _ _ _ hcc) rfl hcalm,
      flow_same c s w _ _ (setCore_cores_ne _ _ _ _ hcc) rfl, record_step_worker c enc w _ _ rfl (fun _ => rfl) rfl⟩
  | withFields c1 fields id core1 hc1 hfree =>
    have hcc : id ≠ c := fun e => by rw [e, hc] at hfree; cases hfree
    exact ⟨normal_of_frame c s enc w _
      ⟨hns, hcalm, core, ch, d, wk, hc, hout, henc, hq, hnil, hd, hdb, hw, hpc⟩ (setCore_cores_ne _ _ _ _ hcc) rfl hcalm,
      flow_same c s w _ _ (setCore_cores_ne _ _ _ _ hcc) rfl, record_step_worker c enc w _ _ rfl (fun _ => rfl) rfl⟩

theorem normalLoad_of_quiet (c : Nat) (a : Action) (h : a.quiet c = true) :
    a.normalLoad = true := by
  cases a <;> first | exact h | rfl

theorem noFlush_of_cores_eq (c : Nat) (w w1 : World) (h : w1.cores c = w.cores c)
    (hfl : noFlushPending c w) : noFlushPending c w1 := by
  intro core wk h1 h2
  rw [h] at h1
  exact hfl core wk h1 h2

theorem noFlush_setCore (c : Nat) (w : World) (core : Core) (wk : Worker)
    (hw : core.worker = some wk) (hf : wk.flushLog = false) :
    noFlushPending c (w.setCore c core) := by
  intro core1 wk1 h1 h2
  simp only [setCore_cores, if_true, Option.some.injEq] at h1
  subst h1
  rw [hw] at h2
  cases h2
  exact hf

/-- In normal operation, without a tick, with no flush pending and fewer bytes held than the
threshold, a step writes nothing to the sink and leaves no flush pending. -/
theorem quiet_step (c s : Nat) (enc : Encoder) (w w1 : World) (a : Action)
    (hN : Normal c s enc w) (ha : a.quiet c = true)
    (hown : a.ofCore c w = true ∨ (w1.sinks s).received.flatten = (w.sinks s).received.flatten)
    (hfl : noFlushPending c w) (hsz : (heldBy c w).length < BatchSize)
    (h : step w a = some w1) :
    (w1.sinks s).received.flatten = (w.sinks s).received.flatten ∧ noFlushPending c w1 := by
  obtain ⟨hns, hcalm, core, ch, d, wk, hc, hout, henc, hq, hnil, hd, hdb, hw, hpc⟩ := hN
  have hflk := hfl core wk hc hw
  have hcase := step_cases w w1 a h
  cases hcase with
  | invWrite t c1 ent fields hidle => exact ⟨rfl, hfl⟩
  | invClose t c1 hidle => exact ⟨rfl, hfl⟩
  | encErr t c1 ent fields core1 err ht hc1 he => exact ⟨rfl, hfl⟩
  | encPanic t c1 ent fields core1 buf ht hc1 he hl => exact ⟨rfl, hfl⟩
  | encNormal t c1 ent fields core1 buf ht hc1 he hl => exact ⟨rfl, hfl⟩
  | readStopped t c1 buf core1 ht hc1 hs => exact ⟨rfl, hfl⟩
  | readNotStopped t c1 buf core1 ht hc1 hs => exact ⟨rfl, hfl⟩
  | selectDefault t c1 buf core1 ht hc1 hfull => exact ⟨rfl, hfl⟩
  | timerFires t c1 k ht => exact ⟨rfl, hfl⟩
  | setStopped t c1 k core1 ht hc1 => exact ⟨rfl, hfl⟩
  | panicSend t c1 buf core1 ch1 ht hc1 hq1 hroom =>
    have := hcalm t
    rw [ht] at this
    simp [PC.calm] at this
  | direct t c1 buf core1 ht hc1 =>
    have hcc : c1 ≠ c := by
      have := hcalm t
      rw [ht] at this
      simpa [PC.calm] using this
    exact ⟨hown.resolve_left (by simp [Action.ofCore, ht, PC.core?, hcc]), hfl⟩
  | sendNil t c1 k core1 ch1 ht hc1 hq1 hroom =>
    have := hcalm t
    rw [ht] at this
    simp [PC.calm] at this
  | recvDone t c1 k core1 d1 x rest ht hc1 hd1 hbuf =>
    have := hcalm t
    rw [ht] at this
    simp [PC.calm] at this
  | timeoutNote t c1 k core1 ht hc1 =>
    have := hcalm t
    rw [ht] at this
    simp [PC.calm] at this
  | successNote t c1 k core1 ht hc1 =>
    have := hcalm t
    rw [ht] at this
    simp [PC.calm] at this
  | selectSend t c1 buf core1 ch1 ht hc1 hq1 hroom =>
    refine ⟨rfl, ?_⟩
    by_cases hcc : c1 = c
    · subst hcc
      rw [hc] at hc1; cases hc1
      exact noFlush_setCore c1 w _ wk hw hflk
    · exact noFlush_of_cores_eq c w _ (setCore_cores_ne _ _ _ _ hcc) hfl
  | blockedSend t c1 buf core1 ch1 ht hc1 hq1 hroom =>
    refine ⟨rfl, ?_⟩
    by_cases hcc : c1 = c
    · subst hcc
      rw [hc] at hc1; cases hc1
      exact noFlush_setCore c1 w _ wk hw hflk
    · exact noFlush_of_cores_eq c w _ (setCore_cores_ne _ _ _ _ hcc) hfl
  | warn t c1 buf core1 ht hc1 =>
    have hcc : c1 ≠ c := by
      have := hcalm t
      rw [ht] at this
      simpa [PC.calm] using this
    exact ⟨hown.resolve_left (by simp [Action.ofCore, ht, PC.core?, hcc]), hfl⟩
  | workerNil c1 core1 wk1 ch1 rest hc1 hw1 hpc1 hq1 hbuf =>
    refine ⟨rfl, ?_⟩
    by_cases hcc : c1 = c
    · subst hcc
      rw [hc] at hc1; cases hc1; rw [hw] at hw1; cases hw1
      exact noFlush_setCore c1 w _ _ rfl hflk
    · exact noFlush_of_cores_eq c w _ (setCore_cores_ne _ _ _ _ hcc) hfl
  | workerRecv c1 core1 wk1 ch1 b rest hc1 hw1 hpc1 hq1 hbuf =>
    refine ⟨rfl, ?_⟩
    by_cases hcc : c1 = c
    · subst hcc
      rw [hc] at hc1; cases hc1; rw [hw] at hw1; cases hw1; rw [hq] at hq1; cases hq1
      refine noFlush_setCore c1 w _ _ rfl ?_
      have hlen : (wk.logBuffer ++ b).length < BatchSize := by
        simp only [heldBy, hc, hw, hq, hbuf, hpc1, beforeNil, List.flatten_cons,
          List.length_append] at hsz ⊢
        omega
      simp only [ge_iff_le, not_le.mpr hlen, if_false]
      exact hflk
    · exact noFlush_of_cores_eq c w _ (setCore_cores_ne _ _ _ _ hcc) hfl
  | workerFlush c1 core1 wk1 hc1 hw1 hpc1 hf =>
    by_cases hcc : c1 = c
    · subst hcc
      rw [hc] at hc1; cases hc1; rw [hw] at hw1; cases hw1
      rw [hflk] at hf; cases hf
    · exact ⟨hown.resolve_left (by simp [Action.ofCore, hcc]),
        noFlush_of_cores_eq c w _ (setCore_cores_ne _ _ _ _ hcc) hfl⟩
  | workerNoFlush c1 core1 wk1 hc1 hw1 hpc1 hf =>
    refine ⟨rfl, ?_⟩
    by_cases hcc : c1 = c
    · subst hcc
      rw [hc] at hc1; cases hc1; rw [hw] at hw1; cases hw1
      exact noFlush_setCore c1 w _ _ rfl hflk
    · exact noFlush_of_cores_eq c w _ (setCore_cores_ne _ _ _ _ hcc) hfl
  | workerDrain c1 core1 wk1 hc1 hw1 hpc1 =>
    by_cases hcc : c1 = c
    · subst hcc
      rw [hc] at hc1; cases hc1; rw [hw] at hw1; cases hw1
      rcases hpc with h1 | h1 <;> (rw [hpc1] at h1; cases h1)
    · exact ⟨hown.resolve_left (by simp [Action.ofCore, hcc]),
        noFlush_of_cores_eq c w _ (setCore_cores_ne _ _ _ _ hcc) hfl⟩
  | workerSignal c1 core1 wk1 d1 hc1 hw1 hpc1 hd1 hroom =>
    refine ⟨rfl, ?_⟩
    by_cases hcc : c1 = c
    · subst hcc
      rw [hc] at hc1; cases hc1; rw [hw] at hw1; cases hw1
      exact noFlush_setCore c1 w _ _ rfl hflk
    · exact noFlush_of_cores_eq c w _ (setCore_cores_ne _ _ _ _ hcc) hfl
  | tick c1 core1 wk1 hc1 hw1 hpc1 =>
    have hcc : c1 ≠ c := by simpa [Action.quiet] using ha
    exact ⟨rfl, noFlush_of_cores_eq c w _ (setCore_cores_ne _ _ _ _ hcc) hfl⟩
  | newCore id enc1 ws enab hfree =>
    have hcc : id ≠ c := fun e => by rw [e, hc] at hfree; cases hfree
    exact ⟨rfl, noFlush_of_cores_eq c w _ (setCore_cores_ne _ _ _ _ hcc) hfl⟩
  | withFields c1 fields id core1 hc1 hfree =>
    have hcc : id ≠ c := fun e => by rw [e, hc] at hfree; cases hfree
    exact ⟨rfl, noFlush_of_cores_eq c w _ (setCore_cores_ne _ _ _ _ hcc) hfl⟩

/-! ## The account of the bytes in every step -/

theorem beforeNil_append_mem (q l : List (Option Bytes)) (h : none ∈ q) :
    beforeNil (q ++ l) = beforeNil q := by
  induction q with
  | nil => simp at h
  | cons x rest ih =>
    cases x with
    | none => rfl
    | some b =>
      simp only [List.cons_append, beforeNil, List.cons.injEq, true_and]
      exact ih (by simpa using h)

theorem live_of_cores_eq (c s : Nat) (enc : Encoder) (w w1 : World) (hL : Live c s enc w)
    (hc : w1.cores c = w.cores c) : Live c s enc w1 := by
  unfold Live
  rw [hc]
  exact hL

/-- A step that leaves core `c` and the bytes of its sink as they are. -/
theorem flow_frame (c s : Nat) (enc : Encoder) (w w1 : World) (a : Action)
    (hL : Live c s enc w) (hc : w1.cores c = w.cores c)
    (hs : (w1.sinks s).received.flatten = (w.sinks s).received.flatten) :
    Live c s enc w1 ∧
    (w1.sinks s).received.flatten ++ heldBy c w1 =
      (w.sinks s).received.flatten ++ heldBy c w ++
        (sentEarly c w (sentBy c w w1 a)).flatten ∧
    ∀ l, sentEarly c w (sentBy c w w1 a ++ l) =
      sentEarly c w (sentBy c w w1 a) ++ sentEarly c w1 l := by
  refine ⟨live_of_cores_eq c s enc w w1 hL hc, flow_same c s w w1 a hc hs, ?_⟩
  intro l
  rw [sentBy_of_cores_eq c w w1 a hc]
  simp [sentEarly, isOpen_of_cores_eq c w w1 hc, beforeNil]

/-- A step of a goroutine that appends `x` to the queue of core `c`. -/
theorem flow_send (c s : Nat) (enc : Encoder) (w w1 : World) (u : Nat) (x : Option Bytes)
    (core : Core) (ch : Chan (Option Bytes)) (wk : Worker)
    (hc : w.cores c = some core) (hout : core.out = s) (henc : core.enc = enc)
    (hq : core.logCh = some ch) (hw : core.worker = some wk)
    (hc1 : w1.cores c =
      some { core with logCh := some { cap := ch.cap, buf := ch.buf ++ [x] } })
    (hs : w1.sinks = w.sinks) :
    Live c s enc w1 ∧
    (w1.sinks s).received.flatten ++ heldBy c w1 =
      (w.sinks s).received.flatten ++ heldBy c w ++
        (sentEarly c w (sentBy c w w1 (Action.thread u))).flatten ∧
    ∀ l, sentEarly c w (sentBy c w w1 (Action.thread u) ++ l) =
      sentEarly c w (sentBy c w w1 (Action.thread u)) ++ sentEarly c w1 l := by
  have henq : sentBy c w w1 (Action.thread u) = [(u, x)] := by
    simp only [sentBy]
    rw [sentAt_send c w w1 core _ ch x hc hq hc1 rfl]
  refine ⟨⟨_, _, wk, hc1, hout, henc, rfl, hw⟩, ?_, ?_⟩
  · rw [henq, hs]
    by_cases hn : none ∈ ch.buf
    · cases hp : wk.pc <;>
        simp [heldBy, isOpen, sentEarly, hc, hc1, hw, hq, hp, hn, beforeNil_append_mem _ _ hn]
    · cases hp : wk.pc <;> cases x <;>
        simp [heldBy, isOpen, sentEarly, hc, hc1, hw, hq, hp, hn, beforeNil_append _ _ hn,
          beforeNil]
  · intro l
    rw [henq]
    by_cases hn : none ∈ ch.buf
    · cases hp : wk.pc <;> simp [isOpen, sentEarly, hc, hc1, hw, hq, hp, hn]
    · cases hp : wk.pc <;> cases x <;>
        simp [isOpen, sentEarly, hc, hc1, hw, hq, hp, hn, beforeNil]

/-- A step of the worker of core `c` (or of its ticker): nothing is enqueued, and the bytes
that leave the core reach the sink. -/
theorem flow_worker (c s : Nat) (enc : Encoder) (w w1 : World) (a : Action)
    (core1 : Core) (ch1 : Chan (Option Bytes)) (wk1 : Worker)
    (hc1 : w1.cores c = some core1) (hout1 : core1.out = s) (henc1 : core1.enc = enc)
    (hq1 : core1.logCh = some ch1) (hw1 : core1.worker = some wk1)
    (ha : sentBy c w w1 a = [])
    (hopen : isOpen c w1 = isOpen c w)
    (hflow : (w1.sinks s).received.flatten ++ heldBy c w1 =
      (w.sinks s).received.flatten ++ heldBy c w) :
    Live c s enc w1 ∧
    (w1.sinks s).received.flatten ++ heldBy c w1 =
      (w.sinks s).received.flatten ++ heldBy c w ++
        (sentEarly c w (sentBy c w w1 a)).flatten ∧
    ∀ l, sentEarly c w (sentBy c w w1 a ++ l) =
      sentEarly c w (sentBy c w w1 a) ++ sentEarly c w1 l := by
  refine ⟨⟨core1, ch1, wk1, hc1, hout1, henc1, hq1, hw1⟩, ?_, ?_⟩
  · rw [ha, hflow]
    simp
  · intro l
    rw [ha]
    simp [sentEarly, hopen, beforeNil]

theorem sentBy_worker (c : Nat) (w w1 : World) (c1 : Nat) :
    sentBy c w w1 (Action.worker c1) = [] := rfl

theorem sentBy_tick (c : Nat) (w w1 : World) (c1 : Nat) :
    sentBy c w w1 (Action.tick c1) = [] := rfl

/-- Every step other than a write to the sink by a goroutine in a call on core `c` keeps the
account of the bytes: those handed to the sink and those held by the core grow by the record
enqueued, if one is enqueued ahead of any nil buffer. -/
theorem flow_step (c s : Nat) (enc : Encoder) (w w1 : World) (a : Action)
    (hL : Live c s enc w) (hnw : writesSinkOn c w a = false)
    (hown : a.ofCore c w = true ∨ (w1.sinks s).received.flatten = (w.sinks s).received.flatten)
    (h : step w a = some w1) :
    Live c s enc w1 ∧
    (w1.sinks s).received.flatten ++ heldBy c w1 =
      (w.sinks s).received.flatten ++ heldBy c w ++
        (sentEarly c w (sentBy c w w1 a)).flatten ∧
    ∀ l, sentEarly c w (sentBy c w w1 a ++ l) =
      sentEarly c w (sentBy c w w1 a) ++ sentEarly c w1 l := by
  have hL0 := hL
  obtain ⟨core, ch, wk, hc, hout, henc, hq, hw⟩ := hL
  have hcase := step_cases w w1 a h
  cases hcase with
  | invWrite t c1 ent fields hidle => exact flow_frame c s enc w _ _ hL0 rfl rfl
  | invClose t c1 hidle => exact flow_frame c s enc w _ _ hL0 rfl rfl
  | encErr t c1 ent fields core1 err ht hc1 he => exact flow_frame c s enc w _ _ hL0 rfl rfl
  | encPanic t c1 ent fields core1 buf ht hc1 he hl => exact flow_frame c s enc w _ _ hL0 rfl rfl
  | encNormal t c1 ent fields core1 buf ht hc1 he hl => exact flow_frame c s enc w _ _ hL0 rfl rfl
  | readStopped t c1 buf core1 ht hc1 hs => exact flow_frame c s enc w _ _ hL0 rfl rfl
  | readNotStopped t c1 buf core1 ht hc1 hs => exact flow_frame c s enc w _ _ hL0 rfl rfl
  | selectDefault t c1 buf core1 ht hc1 hfull => exact flow_frame c s enc w _ _ hL0 rfl rfl
  | timerFires t c1 k ht => exact flow_frame c s enc w _ _ hL0 rfl rfl
  | setStopped t c1 k core1 ht hc1 => exact flow_frame c s enc w _ _ hL0 rfl rfl
  | direct t c1 buf core1 ht hc1 =>
    have hcc : c1 ≠ c := by simpa [writesSinkOn, ht] using hnw
    exact flow_frame c s enc w _ _ hL0 rfl
      (hown.resolve_left (by simp [Action.ofCore, ht, PC.core?, hcc]))
  | warn t c1 buf core1 ht hc1 =>
    have hcc : c1 ≠ c := by simpa [writesSinkOn, ht] using hnw
    exact flow_frame c s enc w _ _ hL0 rfl
      (hown.resolve_left (by simp [Action.ofCore, ht, PC.core?, hcc]))
  | timeoutNote t c1 k core1 ht hc1 =>
    have hcc : c1 ≠ c := by simpa [writesSinkOn, ht] using hnw
    exact flow_frame c s enc w _ _ hL0 rfl
      (hown.resolve_left (by simp [Action.ofCore, ht, PC.core?, hcc]))
  | successNote t c1 k core1 ht hc1 =>
    have hcc : c1 ≠ c := by simpa [writesSinkOn, ht] using hnw
    exact flow_frame c s enc w _ _ hL0 rfl
      (hown.resolve_left (by simp [Action.ofCore, ht, PC.core?, hcc]))
  | panicSend t c1 buf core1 ch1 ht hc1 hq1 hroom =>
    by_cases hcc : c1 = c
    · subst hcc
      rw [hc] at hc1; cases hc1; rw [hq] at hq1; cases hq1
      exact flow_send c1 s enc w _ t (some buf) core ch wk hc hout henc hq hw
        (setPC_setCore_self _ _ _ _ _) rfl
    · exact flow_frame c s enc w _ _ hL0 (setCore_cores_ne _ _ _ _ hcc) rfl
  | selectSend t c1 buf core1 ch1 ht hc1 hq1 hroom =>
    by_cases hcc : c1 = c
    · subst hcc
      rw [hc] at hc1; cases hc1; rw [hq] at hq1; cases hq1
      exact flow_send c1 s enc w _ t (some buf) core ch wk hc hout henc hq hw
        (setPC_setCore_self _ _ _ _ _) rfl
    · exact flow_frame c s enc w _ _ hL0 (setCore_cores_ne _ _ _ _ hcc) rfl
  | blockedSend t c1 buf core1 ch1 ht hc1 hq1 hroom =>
    by_cases hcc : c1 = c
    · subst hcc
      rw [hc] at hc1; cases hc1; rw [hq] at hq1; cases hq1
      exact flow_send c1 s enc w _ t (some buf) core ch wk hc hout henc hq hw
        (setPC_setCore_self _ _ _ _ _) rfl
    · exact flow_frame c s enc w _ _ hL0 (setCore_cores_ne _ _ _ _ hcc) rfl
  | sendNil t c1 k core1 ch1 ht hc1 hq1 hroom =>
    by_cases hcc : c1 = c
    · subst hcc
      rw [hc] at hc1; cases hc1; rw [hq] at hq1; cases hq1
      exact flow_send c1 s enc w _ t none core ch wk hc hout henc hq hw
        (setPC_setCore_self _ _ _ _ _) rfl
    · exact flow_frame c s enc w _ _ hL0 (setCore_cores_ne _ _ _ _ hcc) rfl
  | recvDone t c1 k core1 d1 x rest ht hc1 hd1 hbuf =>
    by_cases hcc : c1 = c
    · subst hcc
      rw [hc] at hc1; cases hc1
      refine flow_worker c1 s enc w _ _ _ ch wk
        (setPC_setCore_self _ _ _ _ _) hout henc hq hw ?_ ?_ ?_
      · simp [sentBy, sentAt, hc, hq]
      · simp [isOpen, hc, hq, hw]
      · simp [heldBy, hc, hq, hw]
    · exact flow_frame c s enc w _ _ hL0 (setCore_cores_ne _ _ _ _ hcc) rfl
  | workerNil c1 core1 wk1 ch1 rest hc1 hw1 hpc1 hq1 hbuf =>
    by_cases hcc : c1 = c
    · subst hcc
      rw [hc] at hc1; cases hc1; rw [hq] at hq1; cases hq1; rw [hw] at hw1; cases hw1
      refine flow_worker c1 s enc w _ _ _ _ _
        (setCore_self _ _ _) hout henc rfl rfl (sentBy_worker _ _ _ _) ?_ ?_
      · simp [isOpen, hc, hq, hw, hbuf, hpc1]
      · simp [heldBy, hc, hq, hw, hbuf, hpc1, beforeNil]
    · exact flow_frame c s enc w _ _ hL0 (setCore_cores_ne _ _ _ _ hcc) rfl
  | workerRecv c1 core1 wk1 ch1 b rest hc1 hw1 hpc1 hq1 hbuf =>
    by_cases hcc : c1 = c
    · subst hcc
      rw [hc] at hc1; cases hc1; rw [hq] at hq1; cases hq1; rw [hw] at hw1; cases hw1
      refine flow_worker c1 s enc w _ _ _ _ _
        (setCore_self _ _ _) hout henc rfl rfl (sentBy_worker _ _ _ _) ?_ ?_
      · simp [isOpen, hc, hq, hw, hbuf, hpc1]
      · simp [heldBy, hc, hq, hw, hbuf, hpc1, beforeNil]
    · exact flow_frame c s enc w _ _ hL0 (setCore_cores_ne _ _ _ _ hcc) rfl
  | workerFlush c1 core1 wk1 hc1 hw1 hpc1 hf =>
    by_cases hcc : c1 = c
    · subst hcc
      rw [hc] at hc1; cases hc1; rw [hw] at hw1; cases hw1
      refine flow_worker c1 s enc w _ _ _ ch _
        (setCore_self _ _ _) hout henc hq rfl (sentBy_worker _ _ _ _) ?_ ?_
      · simp [isOpen, hc, hq, hw, hpc1]
      · simp [heldBy, hc, hq, hw, hpc1, hout]
    · exact flow_frame c s enc w _ _ hL0 (setCore_cores_ne _ _ _ _ hcc)
        (hown.resolve_left (by simp [Action.ofCore, hcc]))
  | workerNoFlush c1 core1 wk1 hc1 hw1 hpc1 hf =>
    by_cases hcc : c1 = c
    · subst hcc
      rw [hc] at hc1; cases hc1; rw [hw] at hw1; cases hw1
      refine flow_worker c1 s enc w _ _ _ ch _
        (setCore_self _ _ _) hout henc hq rfl (sentBy_worker _ _ _ _) ?_ ?_
      · simp [isOpen, hc, hq, hw, hpc1]
      · simp [heldBy, hc, hq, hw, hpc1]
    · exact flow_frame c s enc w _ _ hL0 (setCore_cores_ne _ _ _ _ hcc) rfl
  | workerDrain c1 core1 wk1 hc1 hw1 hpc1 =>
    by_cases hcc : c1 = c
    · subst hcc
      rw [hc] at hc1; cases hc1; rw [hw] at hw1; cases hw1
      refine flow_worker c1 s enc w _ _ _ ch _
        (setCore_self _ _ _) hout henc hq rfl (sentBy_worker _ _ _ _) ?_ ?_
      · simp [isOpen, hc, hq, hw, hpc1]
        rfl
      · simp [heldBy, hc, hq, hw, hpc1, hout]
    · exact flow_frame c s enc w _ _ hL0 (setCore_cores_ne _ _ _ _ hcc)
        (hown.resolve_left (by simp [Action.ofCore, hcc]))
  | workerSignal c1 core1 wk1 d1 hc1 hw1 hpc1 hd1 hroom =>
    by_cases hcc : c1 = c
    · subst hcc
      rw [hc] at hc1; cases hc1; rw [hw] at hw1; cases hw1
      refine flow_worker c1 s enc w _ _ _ ch _
        (setCore_self _ _ _) hout henc hq rfl (sentBy_worker _ _ _ _) ?_ ?_
      · simp [isOpen, hc, hq, hw, hpc1]
        rfl
      · simp [heldBy, hc, hq, hw, hpc1]
    · exact flow_frame c s enc w _ _ hL0 (setCore_cores_ne _ _ _ _ hcc) rfl
  | tick c1 core1 wk1 hc1 hw1 hpc1 =>
    by_cases hcc : c1 = c
    · subst hcc
      rw [hc] at hc1; cases hc1; rw [hw] at hw1; cases hw1
      refine flow_worker c1 s enc w _ _ _ ch _
        (setCore_self _ _ _) hout henc hq rfl (sentBy_tick _ _ _ _) ?_ ?_
      · simp [isOpen, hc, hq, hw, hpc1]
      · simp [heldBy, hc, hq, hw, hpc1]
    · exact flow_frame c s enc w _ _ hL0 (setCore_cores_ne _ _ _ _ hcc) rfl
  | newCore id enc1 ws enab hfree =>
    have hcc : id ≠ c := fun e => by rw [e, hc] at hfree; cases hfree
    exact flow_frame c s enc w _ _ hL0 (setCore_cores_ne _ _ _ _ hcc) rfl
  | withFields c1 fields id core1 hc1 hfree =>
    have hcc : id ≠ c := fun e => by rw [e, hc] at hfree; cases hfree
    exact flow_frame c s enc w _ _ hL0 (setCore_cores_ne _ _ _ _ hcc) rfl

/-! ## During `Close` -/

theorem closing_threads (t c : Nat) (w w1 : World) (t1 : Nat) (pc1 : PC)
    (hcl : (w.threads t).closing c = true) (hcalm : ∀ u, u ≠ t → (w.threads u).calm c = true)
    (hthr : ∀ u, w1.threads u = if u = t1 then pc1 else w.threads u)
    (hne : t1 ≠ t) (hpc : pc1.calm c = true) :
    (w1.threads t).closing c = true ∧ ∀ u, u ≠ t → (w1.threads u).calm c = true := by
  refine ⟨by rw [hthr t, if_neg (Ne.symm hne)]; exact hcl, ?_⟩
  intro u hu
  rw [hthr u]
  split
  · exact hpc
  · exact hcalm u hu

theorem closing_threads_self (t c : Nat) (w w1 : World) (pc1 : PC)
    (hcalm : ∀ u, u ≠ t → (w.threads u).calm c = true)
    (hthr : ∀ u, w1.threads u = if u = t then pc1 else w.threads u)
    (hpc : pc1.closing c = true) :
    (w1.threads t).closing c = true ∧ ∀ u, u ≠ t → (w1.threads u).calm c = true := by
  refine ⟨by rw [hthr t, if_pos rfl]; exact hpc, ?_⟩
  intro u hu
  rw [hthr u, if_neg hu]
  exact hcalm u hu

theorem closing_threads_same (t c : Nat) (w w1 : World)
    (hcl : (w.threads t).closing c = true) (hcalm : ∀ u, u ≠ t → (w.threads u).calm c = true)
    (hthr : w1.threads = w.threads) :
    (w1.threads t).closing c = true ∧ ∀ u, u ≠ t → (w1.threads u).calm c = true := by
  rw [hthr]
  exact ⟨hcl, hcalm⟩

theorem record_of_threads (c : Nat) (enc : Encoder) (w w1 : World) (t1 : Nat) (pc1 : PC)
    (hthr : ∀ u, w1.threads u = if u = t1 then pc1 else w.threads u)
    (h : pc1.record c enc = (w.threads t1).record c enc) :
    ∀ u, (w1.threads u).record c enc = (w.threads u).record c enc := by
  intro u
  rw [hthr u]
  split
  · rename_i e; subst e; exact h
  · rfl

theorem record_notInCall (c : Nat) (enc : Encoder) (pc : PC) (h : pc.notInCall = true) :
    pc.record c enc = [] := by
  cases pc <;> simp_all [PC.record, PC.notInCall]

theorem notInCall_not_closing (c : Nat) (pc : PC) (h : pc.notInCall = true) :
    pc.closing c = false := by
  cases pc <;> simp_all [PC.closing, PC.notInCall]

/-- A step during the `Close` of goroutine `t` on core `c`, with every other goroutine under
normal load: either `t` leaves the part of `Close` before its notice, or the goroutines stay as
they are, the step is no write to the sink by a goroutine in a call on `c`, and the goroutine
that acts enqueues the record it holds, if it enqueues. -/
theorem closing_threads_step (t c s : Nat) (enc : Encoder) (w w1 : World) (a : Action)
    (hC : Closing t c s enc w) (ha : a.normalLoad = true)
    (hnf : fullQueuePathOn c w a = false) (hns : findsStoppedOn c w a = false)
    (h : step w a = some w1) :
    (w1.threads t).closing c = false ∨
    (((w1.threads t).closing c = true ∧ (∀ u, u ≠ t → (w1.threads u).calm c = true)) ∧
      writesSinkOn c w a = false ∧
      ∀ u, ((sentBy c w w1 a).filter (fun p => p.1 = u)).filterMap Prod.snd ++
          (w1.threads u).record c enc =
        (w.threads u).record c enc ++ recordsOn c enc (callsOf u [a])) := by
  obtain ⟨⟨core, ch, wk, hc, hout, henc, hq, hw⟩, hcl, hcalm⟩ := hC
  have hne : ∀ t1, (w.threads t1).closing c = false → t1 ≠ t := fun t1 h1 e => by
    rw [e, hcl] at h1; cases h1
  have hnc : ∀ t1, (w.threads t1).calm c = false → t1 = t := fun t1 h1 => by
    by_contra e
    rw [hcalm t1 e] at h1; cases h1
  have hcase := step_cases w w1 a h
  cases hcase with
  | invWrite t1 c1 ent fields hidle =>
    have hne1 : t1 ≠ t := hne t1 (notInCall_not_closing c _ hidle)
    right
    refine ⟨closing_threads t c w (w.setPC t1 (PC.wEncode c1 ent fields)) t1
      (PC.wEncode c1 ent fields) hcl hcalm (fun u => setPC_threads _ _ _ _)
      hne1 (by simpa [PC.calm, Action.normalLoad] using ha),
      rfl, ?_⟩
    intro u
    by_cases hu : u = t1
    · subst hu
      have : (w.threads u).record c enc = [] := record_notInCall c enc _ hidle
      simp only [sentBy, setPC_threads, if_true, callsOf, this]
      simp [PC.record]
    · simp [sentBy, callsOf, hu, Ne.symm hu, recordsOn]
  | invClose t1 c1 hidle => simp [Action.normalLoad] at ha
  | encErr t1 c1 ent fields core1 err ht hc1 he =>
    have hne1 : t1 ≠ t := hne t1 (by rw [ht]; rfl)
    right
    refine ⟨closing_threads t c w _ t1 _ hcl hcalm (fun u => setPC_threads _ _ _ _)
      hne1 (by rfl),
      by simp [writesSinkOn, ht],
      record_step_none c enc w _ _ (sentBy_of_cores_eq c w _ _ rfl) (fun _ => rfl)
        (record_setPC c enc w t1 _ ?_)⟩
    rw [ht]
    simp only [PC.record, recordsOn]
    split
    · rename_i e; subst e
      rw [hc] at hc1; cases hc1
      rw [← henc, he]
    · rfl
  | encPanic t1 c1 ent fields core1 buf ht hc1 he hl =>
    have hne1 : t1 ≠ t := hne t1 (by rw [ht]; rfl)
    have := hcalm t1 hne1
    rw [ht] at this
    simp only [PC.calm, decide_eq_true_eq] at this
    exact absurd this (not_le.mpr hl)
  | encNormal t1 c1 ent fields core1 buf ht hc1 he hl =>
    have hne1 : t1 ≠ t := hne t1 (by rw [ht]; rfl)
    right
    refine ⟨closing_threads t c w _ t1 _ hcl hcalm (fun u => setPC_threads _ _ _ _)
      hne1 (by rfl),
      by simp [writesSinkOn, ht],
      record_step_none c enc w _ _ (sentBy_of_cores_eq c w _ _ rfl) (fun _ => rfl)
        (record_setPC c enc w t1 _ ?_)⟩
    rw [ht]
    simp only [PC.record, recordsOn]
    split
    · rename_i e; subst e
      rw [hc] at hc1; cases hc1
      rw [← henc, he]
    · rfl
  | panicSend t1 c1 buf core1 ch1 ht hc1 hq1 hroom =>
    have hne1 : t1 ≠ t := hne t1 (by rw [ht]; rfl)
    have := hcalm t1 hne1
    rw [ht] at this
    simp [PC.calm] at this
  | readStopped t1 c1 buf core1 ht hc1 hs =>
    have hne1 : t1 ≠ t := hne t1 (by rw [ht]; rfl)
    have hcc : c1 ≠ c := by
      intro e
      subst e
      simp [findsStoppedOn, ht, hs] at hns
    right
    refine ⟨closing_threads t c w _ t1 _ hcl hcalm (fun u => setPC_threads _ _ _ _)
      hne1 (by simpa [PC.calm] using hcc),
      by simp [writesSinkOn, ht],
      record_step_none c enc w _ _ (sentBy_of_cores_eq c w _ _ rfl) (fun _ => rfl)
        (record_setPC c enc w t1 _ ?_)⟩
    simp [ht, PC.record, hcc]
  | readNotStopped t1 c1 buf core1 ht hc1 hs =>
    have hne1 : t1 ≠ t := hne t1 (by rw [ht]; rfl)
    right
    refine ⟨closing_threads t c w _ t1 _ hcl hcalm (fun u => setPC_threads _ _ _ _)
      hne1 (by rfl),
      by simp [writesSinkOn, ht],
      record_step_none c enc w _ _ (sentBy_of_cores_eq c w _ _ rfl) (fun _ => rfl)
        (record_setPC c enc w t1 _ ?_)⟩
    rw [ht]
    rfl
  | direct t1 c1 buf core1 ht hc1 =>
    have hne1 : t1 ≠ t := hne t1 (by rw [ht]; rfl)
    have hcc : c1 ≠ c := by
      have := hcalm t1 hne1
      rw [ht] at this
      simpa [PC.calm] using this
    right
    refine ⟨closing_threads t c w _ t1 _ hcl hcalm
      (fun u => setPC_threads (w.sinkWrite _ _) _ _ _) hne1 (by rfl),
      by simp [writesSinkOn, ht, hcc],
      record_step_none c enc w _ _ (sentBy_of_cores_eq c w _ _ rfl) (fun _ => rfl)
        (record_setPC c enc (w.sinkWrite _ _) t1 _ ?_)⟩
    simp [ht, PC.record, hcc]
  | selectSend t1 c1 buf core1 ch1 ht hc1 hq1 hroom =>
    have hne1 : t1 ≠ t := hne t1 (by rw [ht]; rfl)
    right
    refine ⟨closing_threads t c w _ t1 _ hcl hcalm
      (fun u => setPC_threads (w.setCore _ _) _ _ _) hne1 (by rfl),
      by simp [writesSinkOn, ht], ?_⟩
    by_cases hcc : c1 = c
    · subst hcc
      rw [hc] at hc1; cases hc1; rw [hq] at hq1; cases hq1
      have henq : sentBy c1 w
          ((w.setCore c1 { core with logCh := some { cap := ch.cap, buf := ch.buf ++ [some buf] } }).setPC
            t1 (PC.retWrite none)) (Action.thread t1) = [(t1, some buf)] := by
        simp only [sentBy]
        rw [sentAt_send c1 w _ core _ ch (some buf) hc hq (setPC_setCore_self _ _ _ _ _) rfl]
      intro u
      rw [henq]
      by_cases hu : u = t1
      · subst hu
        simp [ht, PC.record, callsOf, recordsOn]
      · simp [hu, Ne.symm hu, callsOf, recordsOn]
    · refine record_step_none c enc w _ _
        (sentBy_of_cores_eq c w _ _ (setCore_cores_ne _ _ _ _ hcc)) (fun _ => rfl)
        (record_setPC c enc (w.setCore c1 _) t1 _ ?_)
      simp [ht, PC.record, hcc]
  | selectDefault t1 c1 buf core1 ht hc1 hfull =>
    have hne1 : t1 ≠ t := hne t1 (by rw [ht]; rfl)
    have hcc : c1 ≠ c := by
      intro e
      subst e
      have hs : send core1.logCh (some buf) = none := (send_eq_none _ _).2 hfull
      simp [fullQueuePathOn, ht, hc1, hs] at hnf
    right
    refine ⟨closing_threads t c w _ t1 _ hcl hcalm (fun u => setPC_threads _ _ _ _)
      hne1 (by simpa [PC.calm] using hcc),
      by simp [writesSinkOn, ht],
      record_step_none c enc w _ _ (sentBy_of_cores_eq c w _ _ rfl) (fun _ => rfl)
        (record_setPC c enc w t1 _ ?_)⟩
    simp [ht, PC.record, hcc]
  | warn t1 c1 buf core1 ht hc1 =>
    have hne1 : t1 ≠ t := hne t1 (by rw [ht]; rfl)
    have hcc : c1 ≠ c := by
      have := hcalm t1 hne1
      rw [ht] at this
      simpa [PC.calm] using this
    right
    refine ⟨closing_threads t c w _ t1 _ hcl hcalm
      (fun u => setPC_threads (w.sinkWrite _ _) _ _ _) hne1 (by simpa [PC.calm] using hcc),
      by simp [writesSinkOn, ht, hcc],
      record_step_none c enc w _ _ (sentBy_of_cores_eq c w _ _ rfl) (fun _ => rfl)
        (record_setPC c enc (w.sinkWrite _ _) t1 _ ?_)⟩
    simp [ht, PC.record]
  | blockedSend t1 c1 buf core1 ch1 ht hc1 hq1 hroom =>
    have hne1 : t1 ≠ t := hne t1 (by rw [ht]; rfl)
    have hcc : c1 ≠ c := by
      have := hcalm t1 hne1
      rw [ht] at this
      simpa [PC.calm] using this
    right
    refine ⟨closing_threads t c w _ t1 _ hcl hcalm
      (fun u => setPC_threads (w.setCore _ _) _ _ _) hne1 (by rfl),
      by simp [writesSinkOn, ht],
      record_step_none c enc w _ _
        (sentBy_of_cores_eq c w _ _ (setCore_cores_ne _ _ _ _ hcc)) (fun _ => rfl)
        (record_setPC c enc (w.setCore c1 _) t1 _ ?_)⟩
    simp [ht, PC.record]
  | setStopped t1 c1 k core1 ht hc1 =>
    have ht1 : t1 = t := hnc t1 (by rw [ht]; rfl)
    subst ht1
    have hk : c1 = c ∧ k = false := by simpa [ht, PC.closing] using hcl
    obtain ⟨hcc, hk⟩ := hk
    subst hcc; subst hk
    right
    refine ⟨closing_threads_self t1 c1 w
      ({ w with stopped := true }.setPC t1 (PC.cSendNil c1 false)) _ hcalm
      (fun u => setPC_threads _ _ _ _) (by simp [PC.closing]),
      by simp [writesSinkOn, ht],
      record_step_none c1 enc w _ _ (sentBy_of_cores_eq c1 w _ _ rfl) (fun _ => rfl)
        (record_of_threads c1 enc w _ t1 _ (fun u => setPC_threads _ _ _ _) ?_)⟩
    simp [ht, PC.record]
  | sendNil t1 c1 k core1 ch1 ht hc1 hq1 hroom =>
    have ht1 : t1 = t := hnc t1 (by rw [ht]; rfl)
    subst ht1
    have hk : c1 = c ∧ k = false := by simpa [ht, PC.closing] using hcl
    obtain ⟨hcc, hk⟩ := hk
    subst hcc; subst hk
    rw [hc] at hc1; cases hc1; rw [hq] at hq1; cases hq1
    right
    refine ⟨closing_threads_self t1 c1 w _ _ hcalm
      (fun u => setPC_threads (w.setCore _ _) _ _ _) (by simp [PC.closing]),
      by simp [writesSinkOn, ht], ?_⟩
    have henq : sentBy c1 w
        ((w.setCore c1 { core with logCh := some { cap := ch.cap, buf := ch.buf ++ [none] } }).setPC
          t1 (PC.cSelect c1 false)) (Action.thread t1) = [(t1, none)] := by
      simp only [sentBy]
      rw [sentAt_send c1 w _ core _ ch none hc hq (setPC_setCore_self _ _ _ _ _) rfl]
    intro u
    rw [henq]
    by_cases hu : u = t1
    · subst hu
      simp [ht, PC.record, callsOf, recordsOn]
    · simp [hu, Ne.symm hu, callsOf, recordsOn]
  | recvDone t1 c1 k core1 d1 x rest ht hc1 hd1 hbuf =>
    have ht1 : t1 = t := hnc t1 (by rw [ht]; rfl)
    subst ht1
    have hk : c1 = c ∧ k = false := by simpa [ht, PC.closing] using hcl
    obtain ⟨hcc, hk⟩ := hk
    subst hcc; subst hk
    rw [hc] at hc1; cases hc1
    right
    refine ⟨closing_threads_self t1 c1 w _ _ hcalm
      (fun u => setPC_threads (w.setCore _ _) _ _ _) (by simp [PC.closing]),
      by simp [writesSinkOn, ht],
      record_step_none c1 enc w _ _ (by simp [sentBy, sentAt, hc, hq]) (fun _ => rfl)
        (record_setPC c1 enc (w.setCore c1 _) t1 _ ?_)⟩
    simp [ht, PC.record]
  | timerFires t1 c1 k ht =>
    have ht1 : t1 = t := hnc t1 (by rw [ht]; rfl)
    subst ht1
    left
    simp [PC.closing]
  | timeoutNote t1 c1 k core1 ht hc1 =>
    have ht1 : t1 = t := hnc t1 (by rw [ht]; rfl)
    subst ht1
    simp [ht, PC.closing] at hcl
  | successNote t1 c1 k core1 ht hc1 =>
    have ht1 : t1 = t := hnc t1 (by rw [ht]; rfl)
    subst ht1
    have hk : c1 = c ∧ k = false := by simpa [ht, PC.closing] using hcl
    left
    simp [hk.2, afterClose, PC.closing]
  | workerNil c1 core1 wk1 ch1 rest hc1 hw1 hpc1 hq1 hbuf =>
    right
    exact ⟨closing_threads_same t c w _ hcl hcalm (by rfl),
      rfl, record_step_worker c enc w _ _ rfl (fun _ => rfl) rfl⟩
  | workerRecv c1 core1 wk1 ch1 b rest hc1 hw1 hpc1 hq1 hbuf =>
    right
    exact ⟨closing_threads_same t c w _ hcl hcalm (by rfl),
      rfl, record_step_worker c enc w _ _ rfl (fun _ => rfl) rfl⟩
  | workerFlush c1 core1 wk1 hc1 hw1 hpc1 hf =>
    right
    exact ⟨closing_threads_same t c w _ hcl hcalm (by rfl),
      rfl, record_step_worker c enc w _ _ rfl (fun _ => rfl) rfl⟩
  | workerNoFlush c1 core1 wk1 hc1 hw1 hpc1 hf =>
    right
    exact ⟨closing_threads_same t c w _ hcl hcalm (by rfl),
      rfl, record_step_worker c enc w _ _ rfl (fun _ => rfl) rfl⟩
  | workerDrain c1 core1 wk1 hc1 hw1 hpc1 =>
    right
    exact ⟨closing_threads_same t c w _ hcl hcalm (by rfl),
      rfl, record_step_worker c enc w _ _ rfl (fun _ => rfl) rfl⟩
  | workerSignal c1 core1 wk1 d1 hc1 hw1 hpc1 hd1 hroom =>
    right
    exact ⟨closing_threads_same t c w _ hcl hcalm (by rfl),
      rfl, record_step_worker c enc w _ _ rfl (fun _ => rfl) rfl⟩
  | tick c1 core1 wk1 hc1 hw1 hpc1 =>
    right
    exact ⟨closing_threads_same t c w _ hcl hcalm (by rfl),
      rfl, record_step_worker c enc w _ _ rfl (fun _ => rfl) rfl⟩
  | newCore id enc1 ws enab hfree =>
    right
    have hcc : id ≠ c := fun e => by rw [e, hc] at hfree; cases hfree
    exact ⟨closing_threads_same t c w _ hcl hcalm (by rfl), rfl, record_step_none c enc w _ _
      (sentBy_of_cores_eq c w _ _ (setCore_cores_ne _ _ _ _ hcc)) (fun _ => rfl) (fun _ => rfl)⟩
  | withFields c1 fields id core1 hc1 hfree =>
    right
    have hcc : id ≠ c := fun e => by rw [e, hc] at hfree; cases hfree
    exact ⟨closing_threads_same t c w _ hcl hcalm (by rfl), rfl, record_step_none c enc w _ _
      (sentBy_of_cores_eq c w _ _ (setCore_cores_ne _ _ _ _ hcc)) (fun _ => rfl) (fun _ => rfl)⟩

/-- A step during the `Close` of goroutine `t` on core `c`: either `t` leaves the part of
`Close` before its notice, or the invariant holds after the step, the account of the bytes is
kept, and the goroutine that acts enqueues the record it holds, if it enqueues. -/
theorem closing_step (t c s : Nat) (enc : Encoder) (w w1 : World) (a : Action)
    (hC : Closing t c s enc w) (ha : a.normalLoad = true)
    (hnf : fullQueuePathOn c w a = false) (hns : findsStoppedOn c w a = false)
    (hown : a.ofCore c w = true ∨ (w1.sinks s).received.flatten = (w.sinks s).received.flatten)
    (h : step w a = some w1) :
    (w1.threads t).closing c = false ∨
    (Closing t c s enc w1 ∧
      (w1.sinks s).received.flatten ++ heldBy c w1 =
        (w.sinks s).received.flatten ++ heldBy c w ++
          (sentEarly c w (sentBy c w w1 a)).flatten ∧
      (∀ l, sentEarly c w (sentBy c w w1 a ++ l) =
        sentEarly c w (sentBy c w w1 a) ++ sentEarly c w1 l) ∧
      ∀ u, ((sentBy c w w1 a).filter (fun p => p.1 = u)).filterMap Prod.snd ++
          (w1.threads u).record c enc =
        (w.threads u).record c enc ++ recordsOn c enc (callsOf u [a])) := by
  rcases closing_threads_step t c s enc w w1 a hC ha hnf hns h with h1 | ⟨⟨h1, h2⟩, h3, h4⟩
  · exact Or.inl h1
  · obtain ⟨hL1, hF, hT⟩ := flow_step c s enc w w1 a hC.1 h3 hown h
    exact Or.inr ⟨⟨hL1, h1, h2⟩, hF, hT, h4⟩

/-- Once goroutine `t` has left the part of its `Close` on core `c` before the notice, it does
not come back to it under normal load. -/
theorem closeOver_step (t c : Nat) (w w1 : World) (a : Action)
    (hover : (w.threads t).closing c = false) (ha : a.normalLoad = true)
    (h : step w a = some w1) : (w1.threads t).closing c = false := by
  have hcase := step_cases w w1 a h
  cases hcase with
  | timeoutNote t1 c1 k core1 ht hc1 =>
    simp only [setPC_threads]
    split
    · cases k <;> simp [afterClose, PC.closing]
    · exact hover
  | successNote t1 c1 k core1 ht hc1 =>
    simp only [setPC_threads]
    split
    · cases k <;> simp [afterClose, PC.closing]
    · exact hover
  | _ =>
    first
    | exact hover
    | (simp only [setPC_threads]
       split
       · first
         | rfl
         | (rename_i e; subst e; simp_all [PC.closing, Action.normalLoad])
       · exact hover)

/-! ## Runs -/

theorem callsOf_cons (u : Nat) (a : Action) (rest : List Action) :
    callsOf u (a :: rest) = callsOf u [a] ++ callsOf u rest := by
  cases a with
  | invoke t call =>
    simp only [callsOf]
    split <;> simp
  | _ => rfl

theorem recordsOn_append (c : Nat) (enc : Encoder) (l1 l2 : List Call) :
    recordsOn c enc (l1 ++ l2) = recordsOn c enc l1 ++ recordsOn c enc l2 := by
  induction l1 with
  | nil => rfl
  | cons call rest ih =>
    cases call with
    | Write c1 ent fields =>
      simp only [List.cons_append, recordsOn]
      split
      · split <;> simp [ih]
      · exact ih
    | Close c1 => simpa [recordsOn] using ih

theorem sentAt_mem (c : Nat) (w w1 : World) (x : Option Bytes) (h : sentAt c w w1 = some x) :
    ∃ core1 ch1, w1.cores c = some core1 ∧ core1.logCh = some ch1 ∧ x ∈ ch1.buf := by
  unfold sentAt at h
  cases hc : w.cores c with
  | none => simp [hc] at h
  | some core =>
    cases hc1 : w1.cores c with
    | none => simp [hc, hc1] at h
    | some core1 =>
      cases hq : core.logCh with
      | none => simp [hc, hc1, hq] at h
      | some ch =>
        cases hq1 : core1.logCh with
        | none => simp [hc, hc1, hq, hq1] at h
        | some ch1 =>
          simp only [hc, hc1, hq, hq1] at h
          split at h
          · exact ⟨core1, ch1, rfl, hq1, List.mem_of_mem_getLast? h⟩
          · cases h

/-- What a step enqueues on a core that is in normal operation after it is a record. -/
theorem normal_sent (c s : Nat) (enc : Encoder) (w w1 : World) (a : Action)
    (hN : Normal c s enc w1) : ∀ p ∈ sentBy c w w1 a, p.2 ≠ none := by
  obtain ⟨_, _, core, ch, d, wk, hc, _, _, hq, hnil, _⟩ := hN
  intro p hp
  cases a with
  | thread u =>
    simp only [sentBy] at hp
    cases hs : sentAt c w w1 with
    | none => simp [hs] at hp
    | some x =>
      simp only [hs, List.mem_singleton] at hp
      subst hp
      obtain ⟨core1, ch1, hc1, hq1, hx⟩ := sentAt_mem c w w1 x hs
      rw [hc] at hc1; cases hc1; rw [hq] at hq1; cases hq1
      intro e
      exact hnil (e ▸ hx)
  | _ => simp [sentBy] at hp

theorem beforeNil_records (l : List (Nat × Option Bytes)) (h : ∀ p ∈ l, p.2 ≠ none) :
    beforeNil (l.map Prod.snd) = l.filterMap Prod.snd := by
  induction l with
  | nil => rfl
  | cons p rest ih =>
    obtain ⟨u, x⟩ := p
    cases x with
    | none => exact absurd rfl (h (u, none) (List.mem_cons_self _ _))
    | some b =>
      simp only [List.map_cons, beforeNil, List.filterMap_cons]
      rw [ih (fun q hq => h q (List.mem_cons_of_mem _ hq))]

/-- In normal operation, a step under normal load that does not take the full-queue path keeps
the core in normal operation; what it enqueues is a record; the bytes handed to the sink and
those held by the core grow by it; and the goroutine that acts enqueues the record it holds. -/
theorem normal_step_records (c s : Nat) (enc : Encoder) (w w1 : World) (a : Action)
    (hN : Normal c s enc w) (ha : a.normalLoad = true) (hnf : fullQueuePathOn c w a = false)
    (hown : a.ofCore c w = true ∨ (w1.sinks s).received.flatten = (w.sinks s).received.flatten)
    (h : step w a = some w1) :
    Normal c s enc w1 ∧
    (w1.sinks s).received.flatten ++ heldBy c w1 =
      (w.sinks s).received.flatten ++ heldBy c w ++
        ((sentBy c w w1 a).filterMap Prod.snd).flatten ∧
    (∀ u, ((sentBy c w w1 a).filter (fun p => p.1 = u)).filterMap Prod.snd ++
        (w1.threads u).record c enc =
      (w.threads u).record c enc ++ recordsOn c enc (callsOf u [a])) ∧
    ∀ p ∈ sentBy c w w1 a, p.2 ≠ none := by
  obtain ⟨hN1, hflow, hrec⟩ := normal_step c s enc w w1 a hN ha hnf hown h
  have hrecs := normal_sent c s enc w w1 a hN1
  refine ⟨hN1, ?_, hrec, hrecs⟩
  rw [hflow]
  simp only [sentEarly, normal_open c s enc w hN, if_true]
  rw [beforeNil_records _ hrecs]

/-- A run under normal load that never takes the full-queue path on core `c` keeps the core in
normal operation; only records are enqueued; the bytes handed to the sink and those held by the
core grow by the records enqueued, in enqueue order; and each goroutine enqueues the records of
its `Write` calls on `c`, in call order, each once. -/
theorem normal_run (c s : Nat) (enc : Encoder) (σ : List Action) :
    ∀ (w w1 : World), Normal c s enc w → (∀ a ∈ σ, a.normalLoad = true) →
      neverFullQueueOn c w σ = true → ownSink c s w σ = true → run w σ = some w1 →
      Normal c s enc w1 ∧
      (w1.sinks s).received.flatten ++ heldBy c w1 =
        (w.sinks s).received.flatten ++ heldBy c w ++
          ((enqueueOrder c w σ).filterMap Prod.snd).flatten ∧
      (∀ u, ((enqueueOrder c w σ).filter (fun p => p.1 = u)).filterMap Prod.snd ++
          (w1.threads u).record c enc =
        (w.threads u).record c enc ++ recordsOn c enc (callsOf u σ)) ∧
      ∀ p ∈ enqueueOrder c w σ, p.2 ≠ none := by
  induction σ with
  | nil =>
    intro w w1 hN _ _ _ hrun
    simp only [run, Option.some.injEq] at hrun
    subst hrun
    exact ⟨hN, by simp [enqueueOrder], fun u => by simp [enqueueOrder, callsOf, recordsOn],
      by simp [enqueueOrder]⟩
  | cons a rest ih =>
    intro w w1 hN hσ hnf hown hrun
    simp only [run] at hrun
    cases hs : step w a with
    | none => simp [hs] at hrun
    | some w2 =>
      simp only [hs] at hrun
      simp only [neverFullQueueOn, hs, Bool.and_eq_true, Bool.not_eq_true'] at hnf
      simp only [ownSink, hs, Bool.and_eq_true, Bool.or_eq_true, decide_eq_true_eq] at hown
      obtain ⟨hN2, hflow, hrec, hrecs⟩ := normal_step_records c s enc w w2 a hN
        (hσ a (List.mem_cons_self _ _)) hnf.1 hown.1 hs
      obtain ⟨hN1, hflow1, hrec1, hrecs1⟩ := ih w2 w1 hN2
        (fun b hb => hσ b (List.mem_cons_of_mem _ hb)) hnf.2 hown.2 hrun
      refine ⟨hN1, ?_, ?_, ?_⟩
      · rw [hflow1, hflow]
        simp [enqueueOrder, hs]
      · intro u
        have h1 := hrec1 u
        have h2 := hrec u
        simp only [enqueueOrder, hs, List.filter_append, List.filterMap_append,
          List.append_assoc]
        rw [h1, ← List.append_assoc, h2, callsOf_cons u a rest, recordsOn_append,
          List.append_assoc]
      · intro p hp
        simp only [enqueueOrder, hs, List.mem_append] at hp
        rcases hp with hp | hp
        · exact hrecs p hp
        · exact hrecs1 p hp

/-- A run under normal load without tick that never takes the full-queue path and in which the
bytes held at the start and the records enqueued stay below the threshold hands no byte to the
sink. -/
theorem quiet_run (c s : Nat) (enc : Encoder) (σ : List Action) :
    ∀ (w w1 : World), Normal c s enc w → (∀ a ∈ σ, a.quiet c = true) →
      neverFullQueueOn c w σ = true → ownSink c s w σ = true → noFlushPending c w →
      (heldBy c w).length + ((enqueueOrder c w σ).filterMap Prod.snd).flatten.length <
        BatchSize →
      run w σ = some w1 →
      (w1.sinks s).received.flatten = (w.sinks s).received.flatten ∧ noFlushPending c w1 := by
  induction σ with
  | nil =>
    intro w w1 _ _ _ _ hfl _ hrun
    simp only [run, Option.some.injEq] at hrun
    subst hrun
    exact ⟨rfl, hfl⟩
  | cons a rest ih =>
    intro w w1 hN hσ hnf hown hfl hsz hrun
    simp only [run] at hrun
    cases hs : step w a with
    | none => simp [hs] at hrun
    | some w2 =>
      simp only [hs] at hrun
      simp only [neverFullQueueOn, hs, Bool.and_eq_true, Bool.not_eq_true'] at hnf
      simp only [ownSink, hs, Bool.and_eq_true, Bool.or_eq_true, decide_eq_true_eq] at hown
      have ha := hσ a (List.mem_cons_self _ _)
      obtain ⟨hN2, hflow, _, _⟩ := normal_step_records c s enc w w2 a hN
        (normalLoad_of_quiet c a ha) hnf.1 hown.1 hs
      simp only [enqueueOrder, hs, List.filterMap_append, List.flatten_append,
        List.length_append] at hsz
      obtain ⟨hr2, hfl2⟩ := quiet_step c s enc w w2 a hN ha hown.1 hfl (by omega) hs
      have hlen := congrArg List.length hflow
      rw [hr2] at hlen
      simp only [List.length_append] at hlen
      obtain ⟨hr1, hfl1⟩ := ih w2 w1 hN2 (fun b hb => hσ b (List.mem_cons_of_mem _ hb)) hnf.2
        hown.2 hfl2 (by omega) hrun
      exact ⟨hr1.trans hr2, hfl1⟩

/-- Once goroutine `t` has left the part of its `Close` on core `c` before the notice, it does
not come back to it in a run under normal load. -/
theorem closeOver_run (t c : Nat) (σ : List Action) (w w1 : World)
    (hσ : ∀ a ∈ σ, a.normalLoad = true) (hover : (w.threads t).closing c = false)
    (hrun : run w σ = some w1) : (w1.threads t).closing c = false :=
  run_induction_on (fun x => (x.threads t).closing c = false) σ
    (fun x a x1 ha h0 hs => closeOver_step t c x x1 a h0 (hσ a ha) hs) w w1 hover hrun

/-- A run during the `Close` of goroutine `t` on core `c`, every other goroutine under normal
load, in which no `Write` on `c` takes the full-queue path or finds `stopped` set, and after
which `t` has not left the part of `Close` before its notice: the bytes handed to the sink and
those held by the core grow by the records enqueued ahead of the nil buffer, in enqueue order;
and each goroutine enqueues the records of its `Write` calls on `c`, in call order, each
once. -/
theorem closing_run (t c s : Nat) (enc : Encoder) (σ : List Action) :
    ∀ (w w1 : World), Closing t c s enc w → (∀ a ∈ σ, a.normalLoad = true) →
      neverFullQueueOn c w σ = true → neverStoppedOn c w σ = true → ownSink c s w σ = true →
      run w σ = some w1 → (w1.threads t).closing c = true →
      Closing t c s enc w1 ∧
      (w1.sinks s).received.flatten ++ heldBy c w1 =
        (w.sinks s).received.flatten ++ heldBy c w ++
          (sentEarly c w (enqueueOrder c w σ)).flatten ∧
      ∀ u, ((enqueueOrder c w σ).filter (fun p => p.1 = u)).filterMap Prod.snd ++
          (w1.threads u).record c enc =
        (w.threads u).record c enc ++ recordsOn c enc (callsOf u σ) := by
  induction σ with
  | nil =>
    intro w w1 hC _ _ _ _ hrun _
    simp only [run, Option.some.injEq] at hrun
    subst hrun
    exact ⟨hC, by simp [enqueueOrder], fun u => by simp [enqueueOrder, callsOf, recordsOn]⟩
  | cons a rest ih =>
    intro w w1 hC hσ hnf hns hown hrun hend
    simp only [run] at hrun
    cases hs : step w a with
    | none => simp [hs] at hrun
    | some w2 =>
      simp only [hs] at hrun
      simp only [neverFullQueueOn, hs, Bool.and_eq_true, Bool.not_eq_true'] at hnf
      simp only [neverStoppedOn, hs, Bool.and_eq_true, Bool.not_eq_true'] at hns
      simp only [ownSink, hs, Bool.and_eq_true, Bool.or_eq_true, decide_eq_true_eq] at hown
      have hσ2 : ∀ b ∈ rest, b.normalLoad = true := fun b hb => hσ b (List.mem_cons_of_mem _ hb)
      rcases closing_step t c s enc w w2 a hC (hσ a (List.mem_cons_self _ _)) hnf.1 hns.1
        hown.1 hs with hover | ⟨hC2, hflow, htr, hrec⟩
      · rw [closeOver_run t c rest w2 w1 hσ2 hover hrun] at hend
        cases hend
      · obtain ⟨hC1, hflow1, hrec1⟩ := ih w2 w1 hC2 hσ2 hnf.2 hns.2 hown.2 hrun hend
        refine ⟨hC1, ?_, ?_⟩
        · rw [hflow1, hflow]
          simp only [enqueueOrder, hs, htr, List.flatten_append, List.append_assoc]
        · intro u
          have h1 := hrec1 u
          have h2 := hrec u
          simp only [enqueueOrder, hs, List.filter_append, List.filterMap_append,
            List.append_assoc]
          rw [h1, ← List.append_assoc, h2, callsOf_cons u a rest, recordsOn_append,
            List.append_assoc]

/-! ## The records enqueued are the records of the calls -/

theorem countP_tagged {α : Type} [DecidableEq α] (l : List (Nat × α)) (u : Nat) (b : α) :
    List.countP (fun p => decide (p = (u, b))) l =
      ((l.filter (fun p => p.1 = u)).map Prod.snd).count b := by
  induction l with
  | nil => rfl
  | cons p rest ih =>
    obtain ⟨v, x⟩ := p
    rw [List.countP_cons, ih]
    by_cases hv : v = u
    · subst hv
      by_cases hx : x = b
      · subst hx
        simp
      · simp [List.count_cons, hx]
    · simp [hv]

theorem perm_of_tagged {α : Type} [DecidableEq α] (l1 l2 : List (Nat × α))
    (h : ∀ u, (l1.filter (fun p => p.1 = u)).map Prod.snd =
      (l2.filter (fun p => p.1 = u)).map Prod.snd) : l1.Perm l2 := by
  rw [List.perm_iff_count]
  rintro ⟨u, b⟩
  show List.countP (fun p => decide (p = (u, b))) l1 = List.countP (fun p => decide (p = (u, b))) l2
  rw [countP_tagged, countP_tagged, h u]

theorem subperm_of_tagged {α : Type} [DecidableEq α] (l1 l2 : List (Nat × α))
    (h : ∀ u, (l1.filter (fun p => p.1 = u)).map Prod.snd <+:
      (l2.filter (fun p => p.1 = u)).map Prod.snd) : l1.Subperm l2 := by
  rw [List.subperm_ext_iff]
  rintro ⟨u, b⟩ _
  show List.countP (fun p => decide (p = (u, b))) l1 ≤ List.countP (fun p => decide (p = (u, b))) l2
  rw [countP_tagged, countP_tagged]
  exact (h u).sublist.count_le b

theorem flatten_length_le_of_subperm (l1 l2 : List (Nat × Bytes)) (h : l1.Subperm l2) :
    (l1.map Prod.snd).flatten.length ≤ (l2.map Prod.snd).flatten.length := by
  obtain ⟨l, hp, hs⟩ := h
  rw [List.length_flatten, List.length_flatten]
  have h1 : ((l.map Prod.snd).map List.length).sum = ((l1.map Prod.snd).map List.length).sum :=
    ((hp.map Prod.snd).map List.length).sum_eq
  rw [← h1]
  exact ((hs.map Prod.snd).map List.length).sum_le_sum (fun _ _ => Nat.zero_le _)

theorem calledRecords_snd (c : Nat) (enc : Encoder) (σ : List Action) :
    (calledRecords c enc σ).map Prod.snd = recordsOn c enc (allCalls σ) := by
  induction σ with
  | nil => rfl
  | cons a rest ih =>
    cases a with
    | invoke u call =>
      simp only [calledRecords, allCalls, List.map_append, List.map_map, ih]
      rw [show call :: allCalls rest = [call] ++ allCalls rest from rfl, recordsOn_append]
      congr 1
      simp [Function.comp_def]
    | _ => exact ih

theorem calledRecords_of (c : Nat) (enc : Encoder) (σ : List Action) (u : Nat) :
    ((calledRecords c enc σ).filter (fun p => p.1 = u)).map Prod.snd =
      recordsOn c enc (callsOf u σ) := by
  induction σ with
  | nil => rfl
  | cons a rest ih =>
    cases a with
    | invoke t call =>
      simp only [calledRecords, List.filter_append, List.map_append, ih, callsOf]
      by_cases ht : t = u
      · subst ht
        rw [if_pos rfl, show call :: callsOf t rest = [call] ++ callsOf t rest from rfl,
          recordsOn_append]
        congr 1
        simp [List.filter_map, Function.comp_def]
      · rw [if_neg ht]
        simp [List.filter_map, Function.comp_def, ht]
    | _ => exact ih

theorem recordsOf_snd (l : List (Nat × Option Bytes)) :
    (recordsOf l).map Prod.snd = l.filterMap Prod.snd := by
  induction l with
  | nil => rfl
  | cons p rest ih =>
    obtain ⟨u, x⟩ := p
    cases x with
    | none => simpa [recordsOf] using ih
    | some b => simpa [recordsOf] using ih

theorem recordsOf_of (l : List (Nat × Option Bytes)) (u : Nat) :
    ((recordsOf l).filter (fun p => p.1 = u)).map Prod.snd =
      (l.filter (fun p => p.1 = u)).filterMap Prod.snd := by
  induction l with
  | nil => rfl
  | cons p rest ih =>
    obtain ⟨v, x⟩ := p
    by_cases hv : v = u
    · cases x with
      | none => simpa [recordsOf, hv] using ih
      | some b => simpa [recordsOf, hv] using ih
    · cases x with
      | none => simpa [recordsOf, hv] using ih
      | some b => simpa [recordsOf, hv] using ih

/-- If each goroutine has enqueued the records of its calls, in order, the records enqueued are
those of all the calls, each once. -/
theorem enqueued_perm (c : Nat) (enc : Encoder) (σ : List Action)
    (l : List (Nat × Option Bytes))
    (h : ∀ u, (l.filter (fun p => p.1 = u)).filterMap Prod.snd =
      recordsOn c enc (callsOf u σ)) :
    (l.filterMap Prod.snd).Perm (recordsOn c enc (allCalls σ)) := by
  rw [← calledRecords_snd, ← recordsOf_snd]
  exact (perm_of_tagged _ _ (fun u => by rw [recordsOf_of, h u, calledRecords_of])).map Prod.snd

/-- If each goroutine has enqueued some of the records of its calls, the records enqueued have
at most the bytes of the records of all the calls. -/
theorem enqueued_length_le (c : Nat) (enc : Encoder) (σ : List Action)
    (l : List (Nat × Option Bytes))
    (h : ∀ u, (l.filter (fun p => p.1 = u)).filterMap Prod.snd <+:
      recordsOn c enc (callsOf u σ)) :
    (l.filterMap Prod.snd).flatten.length ≤ (recordsOn c enc (allCalls σ)).flatten.length := by
  rw [← calledRecords_snd, ← recordsOf_snd]
  apply flatten_length_le_of_subperm
  apply subperm_of_tagged
  intro u
  rw [recordsOf_of, calledRecords_of]
  exact h u

theorem filterMap_nil_of_tagged (l : List (Nat × Option Bytes))
    (h : ∀ u, (l.filter (fun p => p.1 = u)).filterMap Prod.snd = []) :
    l.filterMap Prod.snd = [] := by
  induction l with
  | nil => rfl
  | cons p rest ih =>
    obtain ⟨v, x⟩ := p
    cases x with
    | some b =>
      have := h v
      simp at this
    | none =>
      simp only [List.filterMap_cons]
      apply ih
      intro u
      have := h u
      by_cases hv : v = u
      · simpa [hv] using this
      · simpa [hv] using this

theorem beforeNil_nil_of_records (l : List (Nat × Option Bytes))
    (h : l.filterMap Prod.snd = []) : beforeNil (l.map Prod.snd) = [] := by
  cases l with
  | nil => rfl
  | cons p rest =>
    obtain ⟨v, x⟩ := p
    cases x with
    | none => rfl
    | some b => simp at h

/-! ## C1: no loss and no duplication under normal load -/

/-- A goroutine that does not act in a schedule stands after its run where it stood. -/
theorem run_threads_other (u : Nat) (σ : List Action) (w w1 : World)
    (hσ : ∀ a ∈ σ, a ≠ Action.thread u ∧ (∀ call, a ≠ Action.invoke u call) ∧ a ≠ Action.timer u)
    (hrun : run w σ = some w1) : w1.threads u = w.threads u :=
  run_induction_on (fun x => x.threads u = w.threads u) σ
    (fun x a x1 ha h0 hs =>
      (step_threads_other x x1 a u hs (hσ a ha).1 (hσ a ha).2.1 (hσ a ha).2.2).trans h0)
    w w1 rfl hrun

theorem recordsOn_noCall (c : Nat) (enc : Encoder) (u : Nat) (σ : List Action)
    (h : ∀ a ∈ σ, a.noCallOn c = true) : recordsOn c enc (callsOf u σ) = [] := by
  induction σ with
  | nil => rfl
  | cons a rest ih =>
    rw [callsOf_cons, recordsOn_append, ih (fun b hb => h b (List.mem_cons_of_mem _ hb)),
      List.append_nil]
    have ha := h a (List.mem_cons_self _ _)
    cases a with
    | invoke v call =>
      simp only [callsOf]
      split
      · cases call with
        | Write c1 ent fields =>
          have hcc : c1 ≠ c := by simpa [Action.noCallOn, Call.core] using ha
          simp [recordsOn, hcc]
        | Close c1 => rfl
      · rfl
    | _ => rfl

/-- A core that is not shut down, with every goroutine calm, is in normal operation. -/
theorem normal_init (w0 : World) (c : Nat) (core : Core) (ch : Chan (Option Bytes))
    (d : Chan Unit) (wk : Worker)
    (hcalm : ∀ u, (w0.threads u).calm c = true) (hns : w0.stopped = false)
    (hc : w0.cores c = some core) (hq : core.logCh = some ch) (hnil : none ∉ ch.buf)
    (hd : core.done = some d) (hdb : d.buf = []) (hw : core.worker = some wk)
    (hpc : wk.pc = WorkerPC.select ∨ wk.pc = WorkerPC.flush) :
    Normal c core.out core.enc w0 ∧ heldBy c w0 = wk.logBuffer ++ queuedBytes ch.buf := by
  refine ⟨⟨hns, hcalm, core, ch, d, wk, hc, rfl, rfl, hq, hnil, hd, hdb, hw, hpc⟩, ?_⟩
  rw [normal_heldBy c w0 core ch wk hc hq hw hpc, beforeNil_flatten _ hnil]

/-- From normal operation, the call of `Close` by `t` starts the invariant of the goroutine in
`Close`. -/
theorem closing_init (t c s : Nat) (enc : Encoder) (w : World) (hN : Normal c s enc w) :
    Closing t c s enc (w.setPC t (PC.cStopped c false)) := by
  obtain ⟨hns, hcalm, core, ch, d, wk, hc, hout, henc, hq, hnil, hd, hdb, hw, hpc⟩ := hN
  refine ⟨⟨core, ch, wk, hc, hout, henc, hq, hw⟩, by simp [PC.closing], ?_⟩
  intro u hu
  simpa [hu] using hcalm u

theorem heldBy_exited (c : Nat) (w : World) (core : Core) (wk : Worker)
    (hc : w.cores c = some core) (hw : core.worker = some wk) (hpc : wk.pc = WorkerPC.exited) :
    heldBy c w = [] := by
  cases hq : core.logCh <;> simp [heldBy, hc, hw, hq, hpc]

/-- C1: no loss and no duplication under normal load, for any number of producers. Take a core
that is not shut down (`stopped` unset, worker in its loop, no nil buffer queued, `done` empty)
and a process in which every goroutine is calm: between calls, or in a `Write` of severity at
most error that is on neither the full-queue path nor the direct-write path of this core. In a
first run, any number of
goroutines make `Write` calls of severity at most error, on this core and on others, in any
interleaving with the workers and their tickers, such that no `Write` on this core takes the
full-queue path and only this core writes to its sink. Then a goroutine `t` calls `Close` on
the core, and the run goes on in the same way, with `Write` calls still in flight or newly
made, such that every `Write` on this core that reads `stopped` finds it unset. Once the worker
has signalled `done` and returned, while `Close` still waits at its `select` or has just
received `done` (it has not written its notice yet): what was enqueued before `Close` was
called are records, not the Shutdown Signal; the bytes the sink has received, all its writes
concatenated, are exactly what it held at the start, followed by what the accumulator and the
queue held at the start (nothing, on a fresh core), followed by the records enqueued before the
call of `Close`, in enqueue order, followed by the records enqueued after the call and ahead of
the Shutdown Signal, in enqueue order; in each of the two runs each goroutine has enqueued the
records of its `Write` calls on the core, in call order, each once (those it held at the start
first, those it still holds at the end missing). In particular, if no goroutine holds a record
at the start or when `Close` is called, and no call is made on the core after that, the
records enqueued are those of all the `Write` calls, each once, and the sink has received
exactly them, in enqueue order, after what it and the core held at the start. -/
theorem records_reach_sink_exactly_once_in_order (w0 : World) (t c : Nat) (core : Core)
    (ch : Chan (Option Bytes)) (d : Chan Unit) (wk : Worker) (σ1 σ2 : List Action)
    (w1 w : World)
    (hcalm : ∀ u, (w0.threads u).calm c = true) (hns : w0.stopped = false)
    (hc : w0.cores c = some core) (hq : core.logCh = some ch) (hnil : none ∉ ch.buf)
    (hd : core.done = some d) (hdb : d.buf = []) (hw : core.worker = some wk)
    (hpc : wk.pc = WorkerPC.select ∨ wk.pc = WorkerPC.flush)
    (hσ1 : ∀ a ∈ σ1, a.normalLoad = true) (hnf1 : neverFullQueueOn c w0 σ1 = true)
    (hown1 : ownSink c core.out w0 σ1 = true) (hrun1 : run w0 σ1 = some w1)
    (hσ2 : ∀ a ∈ σ2, a.normalLoad = true)
    (hnf2 : neverFullQueueOn c w1 (Action.invoke t (Call.Close c) :: σ2) = true)
    (hns2 : neverStoppedOn c w1 (Action.invoke t (Call.Close c) :: σ2) = true)
    (hown2 : ownSink c core.out w1 (Action.invoke t (Call.Close c) :: σ2) = true)
    (hrun2 : run w1 (Action.invoke t (Call.Close c) :: σ2) = some w)
    (hsig : ∃ core2 wk2, w.cores c = some core2 ∧ core2.worker = some wk2 ∧
      wk2.pc = WorkerPC.exited)
    (hwait : w.threads t = PC.cSelect c false ∨ w.threads t = PC.cSuccess c false) :
    (∀ p ∈ enqueueOrder c w0 σ1, p.2 ≠ none) ∧
    (w.sinks core.out).received.flatten =
      (w0.sinks core.out).received.flatten ++ wk.logBuffer ++ queuedBytes ch.buf ++
        ((enqueueOrder c w0 σ1).filterMap Prod.snd).flatten ++
        (beforeNil ((enqueueOrder c w1 (Action.invoke t (Call.Close c) :: σ2)).map
          Prod.snd)).flatten ∧
    (∀ u, ((enqueueOrder c w0 σ1).filter (fun p => p.1 = u)).filterMap Prod.snd ++
        (w1.threads u).record c core.enc =
      (w0.threads u).record c core.enc ++ recordsOn c core.enc (callsOf u σ1)) ∧
    (∀ u, ((enqueueOrder c w1 (Action.invoke t (Call.Close c) :: σ2)).filter
          (fun p => p.1 = u)).filterMap Prod.snd ++ (w.threads u).record c core.enc =
      (w1.threads u).record c core.enc ++ recordsOn c core.enc (callsOf u σ2)) ∧
    ((∀ u, (w0.threads u).record c core.enc = []) →
      (∀ u, (w1.threads u).record c core.enc = []) → (∀ a ∈ σ2, a.noCallOn c = true) →
      ((enqueueOrder c w0 σ1).filterMap Prod.snd).Perm (recordsOn c core.enc (allCalls σ1)) ∧
      (w.sinks core.out).received.flatten =
        (w0.sinks core.out).received.flatten ++ wk.logBuffer ++ queuedBytes ch.buf ++
          ((enqueueOrder c w0 σ1).filterMap Prod.snd).flatten) := by
  obtain ⟨hN0, hheld0⟩ := normal_init w0 c core ch d wk hcalm hns hc hq hnil hd hdb hw hpc
  obtain ⟨hN1, hflow1, hrec1, hrecs1⟩ :=
    normal_run c core.out core.enc σ1 w0 w1 hN0 hσ1 hnf1 hown1 hrun1
  -- the call of `Close`
  simp only [run] at hrun2
  cases hs : step w1 (Action.invoke t (Call.Close c)) with
  | none => simp [hs] at hrun2
  | some w2 =>
    simp only [hs] at hrun2
    simp only [neverFullQueueOn, hs, Bool.and_eq_true] at hnf2
    simp only [neverStoppedOn, hs, Bool.and_eq_true] at hns2
    simp only [ownSink, hs, Bool.and_eq_true] at hown2
    have hcase := step_cases _ _ _ hs
    cases hcase with
    | invClose _ _ hidle =>
      have hcl : (w.threads t).closing c = true := by
        rcases hwait with hp | hp <;> simp [hp, PC.closing]
      obtain ⟨hC, hflow2, hrec2⟩ := closing_run t c core.out core.enc σ2 _ w
        (closing_init t c core.out core.enc w1 hN1) hσ2 hnf2.2 hns2.2 hown2.2 hrun2 hcl
      obtain ⟨core2, wk2, hc2, hw2, hex⟩ := hsig
      have hτ : enqueueOrder c w1 (Action.invoke t (Call.Close c) :: σ2) =
          enqueueOrder c (w1.setPC t (PC.cStopped c false)) σ2 := by
        simp [enqueueOrder, hs, sentBy]
      have hopen : isOpen c (w1.setPC t (PC.cStopped c false)) = true := by
        rw [isOpen_of_cores_eq c w1 (w1.setPC t (PC.cStopped c false)) rfl]
        exact normal_open c core.out core.enc w1 hN1
      have hsink : (w.sinks core.out).received.flatten =
          (w0.sinks core.out).received.flatten ++ wk.logBuffer ++ queuedBytes ch.buf ++
            ((enqueueOrder c w0 σ1).filterMap Prod.snd).flatten ++
            (beforeNil ((enqueueOrder c w1 (Action.invoke t (Call.Close c) :: σ2)).map
              Prod.snd)).flatten := by
        rw [heldBy_exited c w core2 wk2 hc2 hw2 hex, List.append_nil] at hflow2
        rw [hflow2, hτ]
        simp only [setPC_sinks, heldBy_setPC, sentEarly, hopen, if_true]
        rw [hflow1, hheld0]
        simp only [List.append_assoc]
      have hper2 : ∀ u, ((enqueueOrder c w1 (Action.invoke t (Call.Close c) :: σ2)).filter
            (fun p => p.1 = u)).filterMap Prod.snd ++ (w.threads u).record c core.enc =
          (w1.threads u).record c core.enc ++ recordsOn c core.enc (callsOf u σ2) := by
        intro u
        rw [hτ, hrec2 u]
        congr 1
        simp only [setPC_threads]
        split
        · rename_i e
          subst e
          rw [record_notInCall c core.enc _ hidle]
          rfl
        · rfl
      refine ⟨hrecs1, hsink, hrec1, hper2, ?_⟩
      intro h0 h1 hno
      have hper1 : ∀ u, ((enqueueOrder c w0 σ1).filter (fun p => p.1 = u)).filterMap Prod.snd =
          recordsOn c core.enc (callsOf u σ1) := by
        intro u
        have := hrec1 u
        rwa [h0 u, h1 u, List.append_nil, List.nil_append] at this
      refine ⟨enqueued_perm c core.enc σ1 _ hper1, ?_⟩
      have hnone : ∀ u, ((enqueueOrder c w1 (Action.invoke t (Call.Close c) :: σ2)).filter
          (fun p => p.1 = u)).filterMap Prod.snd = [] := by
        intro u
        have := hper2 u
        rw [h1 u, recordsOn_noCall c core.enc u σ2 hno] at this
        exact (List.append_eq_nil.1 this).1
      rw [hsink, beforeNil_nil_of_records _ (filterMap_nil_of_tagged _ hnone)]
      simp

/-- Witness of C1: two producers on the fresh core of `demoWorld`. First, one of them is still
in its `Write` when the other calls `Close`: goroutine 0 enqueues "ab"; goroutine 1 has read
`stopped` and stands at its `select` when goroutine 0 calls `Close`, and enqueues "cd" before
`Close` sends the Shutdown Signal; when the worker has signalled `done` the sink has received
"abcd". Second, both calls of `Write` have returned when `Close` is called: the records
enqueued are those of the two calls, and the sink has received exactly them. -/
theorem records_reach_sink_exactly_once_in_order_witness :
    (neverFullQueueOn 0 demoWorld twoProducers = true ∧
      ownSink 0 0 demoWorld twoProducers = true ∧
      enqueueOrder 0 demoWorld twoProducers = [(0, some [97, 98])] ∧
      enqueueOrder 0 ((run demoWorld twoProducers).getD demoWorld)
        (Action.invoke 0 (Call.Close 0) :: closeAfterTwo) = [(1, some [99, 100]), (0, none)] ∧
      (∃ w, run demoWorld (twoProducers ++ Action.invoke 0 (Call.Close 0) :: closeAfterTwo) =
          some w ∧ w.threads 0 = PC.cSelect 0 false ∧ w.threads 1 = PC.retWrite none ∧
          (w.sinks 0).received = [[97, 98, 99, 100]]) ∧
      (((run ((run demoWorld twoProducers).getD demoWorld)
        (Action.invoke 0 (Call.Close 0) :: closeAfterTwo)).getD demoWorld).sinks 0).received.flatten =
          [97, 98, 99, 100]) ∧
    (enqueueOrder 0 demoWorld twoProducersDone = [(0, some [97, 98]), (1, some [99, 100])] ∧
      recordsOn 0 demoEncoder (allCalls twoProducersDone) = [[97, 98], [99, 100]] ∧
      (∃ w, run demoWorld (twoProducersDone ++ Action.invoke 0 (Call.Close 0) :: closeAfterDone) =
          some w ∧ w.threads 0 = PC.cSelect 0 false ∧
          (w.sinks 0).received = [[97, 98, 99, 100]]) ∧
      ([[97, 98], [99, 100]] : List Bytes).Perm [[97, 98], [99, 100]] ∧
      (((run ((run demoWorld twoProducersDone).getD demoWorld)
        (Action.invoke 0 (Call.Close 0) :: closeAfterDone)).getD demoWorld).sinks 0).received.flatten =
          [97, 98, 99, 100]) :=
  ⟨⟨rfl, rfl, rfl, rfl, ⟨_, rfl, rfl, rfl, rfl⟩,
    (records_reach_sink_exactly_once_in_order demoWorld 0 0 (NewCore demoEncoder 0 (fun _ => true))
      { cap := logChCap, buf := [] } { cap := 1, buf := [] }
      { pc := WorkerPC.select, logBuffer := [], flushLog := false } twoProducers closeAfterTwo
      ((run demoWorld twoProducers).getD demoWorld)
      ((run ((run demoWorld twoProducers).getD demoWorld)
        (Action.invoke 0 (Call.Close 0) :: closeAfterTwo)).getD demoWorld)
      (fun _ => rfl) rfl rfl rfl (by simp) rfl rfl rfl (Or.inl rfl) (by decide) rfl rfl rfl
      (by decide) rfl rfl rfl rfl ⟨_, _, rfl, rfl, rfl⟩ (Or.inl rfl)).2.1⟩,
    rfl, rfl, ⟨_, rfl, rfl, rfl⟩,
    (records_reach_sink_exactly_once_in_order demoWorld 0 0 (NewCore demoEncoder 0 (fun _ => true))
      { cap := logChCap, buf := [] } { cap := 1, buf := [] }
      { pc := WorkerPC.select, logBuffer := [], flushLog := false } twoProducersDone
      closeAfterDone ((run demoWorld twoProducersDone).getD demoWorld)
      ((run ((run demoWorld twoProducersDone).getD demoWorld)
        (Action.invoke 0 (Call.Close 0) :: closeAfterDone)).getD demoWorld)
      (fun _ => rfl) rfl rfl rfl (by simp) rfl rfl rfl (Or.inl rfl) (by decide) rfl rfl rfl
      (by decide) rfl rfl rfl rfl ⟨_, _, rfl, rfl, rfl⟩ (Or.inl rfl)).2.2.2.2
      (fun _ => rfl)
      (fun u => by
        by_cases h0 : u = 0
        · subst h0; rfl
        · by_cases h1 : u = 1
          · subst h1; rfl
          · rw [run_threads_other u twoProducersDone demoWorld
              ((run demoWorld twoProducersDone).getD demoWorld) (by
                intro a ha
                have : ∀ b ∈ twoProducersDone,
                    b ≠ Action.thread u ∧ (∀ call, b ≠ Action.invoke u call) ∧
                      b ≠ Action.timer u := by
                  simp [twoProducersDone, twoProducers, h0, h1, Ne.symm h0, Ne.symm h1]
                exact this a ha) rfl]
            rfl)
      (by decide)⟩

/-! ## C4: batching -/

/-- C4 (amended), for any number of producers. Take a core that is not shut down (`stopped`
unset, worker in its loop, no nil buffer queued, `done` empty), with no flush pending, and a
process in which every goroutine is calm (between calls, or in a `Write` of severity at most
error that is on neither the full-queue path nor the direct-write path of this core) and none
holds a record for this core that it has yet to enqueue. Any number of goroutines make `Write` calls of severity at most error (so that none
calls `Close`), on this core and on others, in any interleaving with the workers in which the
worker of this core takes no tick, no `Write` on this core takes the full-queue path (that path
writes its warning to the sink) and only this core writes to its sink. If what the accumulator
and the queue hold at the start plus the encoded records of all the `Write` calls on the core
stays below the threshold of 102400 bytes, the sink receives no byte during the run. And once
every record has been enqueued and the worker has drained the queue and is back at its
`select`, the records enqueued are those of the calls, each once, and the next tick makes the
worker hand the sink exactly one write: all the bytes, in enqueue order (one write of 60 bytes
in the scenario of six records of 10 bytes). -/
theorem small_batch_waits_for_tick (w0 : World) (c : Nat) (core : Core)
    (ch : Chan (Option Bytes)) (d : Chan Unit) (wk : Worker) (σ : List Action) (w : World)
    (hcalm : ∀ u, (w0.threads u).calm c = true)
    (hrec0 : ∀ u, (w0.threads u).record c core.enc = []) (hns : w0.stopped = false)
    (hc : w0.cores c = some core) (hq : core.logCh = some ch) (hnil : none ∉ ch.buf)
    (hd : core.done = some d) (hdb : d.buf = []) (hw : core.worker = some wk)
    (hpc : wk.pc = WorkerPC.select ∨ wk.pc = WorkerPC.flush) (hfl : wk.flushLog = false)
    (hσ : ∀ a ∈ σ, a.quiet c = true)
    (hsize : wk.logBuffer.length + (queuedBytes ch.buf).length +
      (recordsOn c core.enc (allCalls σ)).flatten.length < BatchSize)
    (hnf : neverFullQueueOn c w0 σ = true) (hown : ownSink c core.out w0 σ = true)
    (hrun : run w0 σ = some w) :
    (w.sinks core.out).received.flatten = (w0.sinks core.out).received.flatten ∧
    ∀ core1 ch1 wk1, (∀ u, (w.threads u).record c core.enc = []) → w.cores c = some core1 →
      core1.logCh = some ch1 → ch1.buf = [] → core1.worker = some wk1 →
      wk1.pc = WorkerPC.select →
      ((enqueueOrder c w0 σ).filterMap Prod.snd).Perm (recordsOn c core.enc (allCalls σ)) ∧
      ∃ w2, run w [Action.tick c, Action.worker c] = some w2 ∧
        (w2.sinks core.out).received = (w.sinks core.out).received ++
          [wk.logBuffer ++ queuedBytes ch.buf ++
            ((enqueueOrder c w0 σ).filterMap Prod.snd).flatten] := by
  obtain ⟨hN0, hheld0⟩ := normal_init w0 c core ch d wk hcalm hns hc hq hnil hd hdb hw hpc
  obtain ⟨hN1, hflow, hrec, _⟩ := normal_run c core.out core.enc σ w0 w hN0
    (fun a ha => normalLoad_of_quiet c a (hσ a ha)) hnf hown hrun
  have hle : ((enqueueOrder c w0 σ).filterMap Prod.snd).flatten.length ≤
      (recordsOn c core.enc (allCalls σ)).flatten.length := by
    apply enqueued_length_le
    intro u
    have := hrec u
    rw [hrec0 u, List.nil_append] at this
    exact ⟨_, this⟩
  have hfl0 : noFlushPending c w0 := by
    intro core2 wk2 h1 h2
    rw [hc] at h1; cases h1; rw [hw] at h2; cases h2
    exact hfl
  obtain ⟨hr, hfl1⟩ := quiet_run c core.out core.enc σ w0 w hN0 hσ hnf hown hfl0
    (by rw [hheld0, List.length_append]; omega) hrun
  refine ⟨hr, ?_⟩
  intro core1 ch1 wk1 hret hc1 hq1 hqe hw1 hpc1
  have hper : ∀ u, ((enqueueOrder c w0 σ).filter (fun p => p.1 = u)).filterMap Prod.snd =
      recordsOn c core.enc (callsOf u σ) := by
    intro u
    have := hrec u
    rwa [hret u, hrec0 u, List.append_nil, List.nil_append] at this
  refine ⟨enqueued_perm c core.enc σ _ hper, ?_⟩
  obtain ⟨_, _, core2, _, _, _, hc2, hout2, _⟩ := hN1
  rw [hc1] at hc2; cases hc2
  rw [hr, hheld0] at hflow
  have hacc : wk1.logBuffer = wk.logBuffer ++ queuedBytes ch.buf ++
      ((enqueueOrder c w0 σ).filterMap Prod.snd).flatten := by
    have := List.append_cancel_left (by simpa only [List.append_assoc] using hflow)
    simpa [heldBy, hc1, hw1, hq1, hqe, hpc1, beforeNil] using this
  refine ⟨_, run_cons_some (step_of_case _ _ _ (StepCase.tick c core1 wk1 hc1 hw1 hpc1))
    (run_cons_some (step_of_case _ _ _
      (StepCase.workerFlush c
        { core1 with worker := some { wk1 with pc := WorkerPC.flush, flushLog := true } }
        { wk1 with pc := WorkerPC.flush, flushLog := true } (setCore_self _ _ _) rfl rfl rfl))
      rfl), ?_⟩
  simp [hout2, hacc]

/-- Witness of C4 (amended): the scenario. Six records of 10 bytes on the fresh core of
`demoWorld`, all received by the worker: the sink has received nothing, and the first tick
produces one write of 60 bytes. -/
theorem small_batch_waits_for_tick_witness :
    (∀ a ∈ sixWritesDrained, a.quiet 0 = true) ∧
    neverFullQueueOn 0 demoWorld sixWritesDrained = true ∧
    ownSink 0 0 demoWorld sixWritesDrained = true ∧
    (recordsOn 0 demoEncoder (allCalls sixWritesDrained)).flatten.length = 60 ∧
    (((run demoWorld sixWritesDrained).getD demoWorld).sinks 0).received = [] ∧
    (((run demoWorld sixWritesDrained).getD demoWorld).sinks 0).received.flatten = [] ∧
    ∃ w2, run ((run demoWorld sixWritesDrained).getD demoWorld) [Action.tick 0, Action.worker 0] =
        some w2 ∧
      (w2.sinks 0).received = [bytesOf
        "aaaaaaaaaabbbbbbbbbbccccccccccddddddddddeeeeeeeeeeffffffffff"] :=
  ⟨by decide, rfl, rfl, rfl, rfl,
    (small_batch_waits_for_tick demoWorld 0 (NewCore demoEncoder 0 (fun _ => true))
      { cap := logChCap, buf := [] } { cap := 1, buf := [] }
      { pc := WorkerPC.select, logBuffer := [], flushLog := false } sixWritesDrained
      ((run demoWorld sixWritesDrained).getD demoWorld)
      (fun _ => rfl) (fun _ => rfl) rfl rfl rfl (by simp) rfl rfl rfl (Or.inl rfl) rfl
      (by decide) (by decide) rfl rfl rfl).1,
    ((small_batch_waits_for_tick demoWorld 0 (NewCore demoEncoder 0 (fun _ => true))
      { cap := logChCap, buf := [] } { cap := 1, buf := [] }
      { pc := WorkerPC.select, logBuffer := [], flushLog := false } sixWritesDrained
      ((run demoWorld sixWritesDrained).getD demoWorld)
      (fun _ => rfl) (fun _ => rfl) rfl rfl rfl (by simp) rfl rfl rfl (Or.inl rfl) rfl
      (by decide) (by decide) rfl rfl rfl).2 _ _ _
      (fun u => by
        by_cases h0 : u = 0
        · subst h0; rfl
        · rw [run_threads_other u sixWritesDrained demoWorld
            ((run demoWorld sixWritesDrained).getD demoWorld) (by
              intro a ha
              have : ∀ b ∈ sixWritesDrained,
                  b ≠ Action.thread u ∧ (∀ call, b ≠ Action.invoke u call) ∧
                    b ≠ Action.timer u := by
                simp [sixWritesDrained, sixWrites, sixEntries, quickWrite, h0, Ne.symm h0]
              exact this a ha) rfl]
          rfl)
      rfl rfl rfl rfl rfl).2⟩

/-- One more quick `Write` of one byte leaves one more record in the queue and nothing in the
sink. -/
theorem quickWrite_round (w : World) (t c n : Nat) (h : filledWith w t c n) (hn : n < logChCap) :
    ∃ w1, run w (quickWrite t c entryX) = some w1 ∧ filledWith w1 t c (n + 1) := by
  obtain ⟨hidle, hns, hr, core, hc, henc, hout, hq⟩ := h
  have he : core.enc.EncodeEntry entryX [] = Except.ok [120] := by rw [henc]; rfl
  refine ⟨_,
    run_cons_some (step_of_case _ _ _ (StepCase.invWrite t c entryX [] hidle))
    (run_cons_some (step_of_case _ _ _
      (StepCase.encNormal t c entryX [] core [120] (by simp) hc he (by decide)))
    (run_cons_some (step_of_case _ _ _
      (StepCase.readNotStopped t c [120] core (by simp) hc hns))
    (run_cons_some (step_of_case _ _ _
      (StepCase.selectSend t c [120] core
        { cap := logChCap, buf := List.replicate n (some [120]) } (by simp) hc hq
        (by simpa using hn))) rfl))), ?_⟩
  refine ⟨by simp [PC.notInCall], hns, hr,
    { core with logCh := some { cap := logChCap, buf := List.replicate n (some [120]) ++ [some [120]] } },
    setPC_setCore_self _ _ _ _ _, henc, hout, ?_⟩
  simp [List.replicate_succ']

theorem quickWrite_rounds (t c k : Nat) (w : World) (n : Nat) (h : filledWith w t c n)
    (hn : n + k ≤ logChCap) :
    ∃ w1, run w (List.replicate k (quickWrite t c entryX)).flatten = some w1 ∧
      filledWith w1 t c (n + k) := by
  induction k generalizing w n with
  | zero => exact ⟨w, rfl, h⟩
  | succ k ih =>
    obtain ⟨w1, hr1, hc1⟩ := quickWrite_round w t c n h (by omega)
    obtain ⟨w2, hr2, hc2⟩ := ih w1 (n + 1) hc1 (by omega)
    refine ⟨w2, ?_, by rw [← Nat.add_assoc, Nat.add_right_comm]; exact hc2⟩
    rw [List.replicate_succ, List.flatten_cons]
    exact run_append_some hr1 hr2

/-- On a full queue the next `Write` writes its warning to the sink. -/
theorem Write_on_full_queue_warns (w : World) (t c : Nat) (h : filledWith w t c logChCap) :
    ∃ w1, run w [Action.invoke t (Call.Write c entryX []), Action.thread t, Action.thread t,
        Action.thread t, Action.thread t] = some w1 ∧
      (w1.sinks 0).received = [blockedNotice] := by
  obtain ⟨hidle, hns, hr, core, hc, henc, hout, hq⟩ := h
  have he : core.enc.EncodeEntry entryX [] = Except.ok [120] := by rw [henc]; rfl
  refine ⟨_,
    run_cons_some (step_of_case _ _ _ (StepCase.invWrite t c entryX [] hidle))
    (run_cons_some (step_of_case _ _ _
      (StepCase.encNormal t c entryX [] core [120] (by simp) hc he (by decide)))
    (run_cons_some (step_of_case _ _ _
      (StepCase.readNotStopped t c [120] core (by simp) hc hns))
    (run_cons_some (step_of_case _ _ _
      (StepCase.selectDefault t c [120] core (by simp) hc
        (by intro ch1 h1; rw [hq] at h1; cases h1; simp)))
    (run_cons_some (step_of_case _ _ _
      (StepCase.warn t c [120] core (by simp) hc)) rfl)))), ?_⟩
  simp [hout, hr]

theorem allCalls_append (l1 l2 : List Action) :
    allCalls (l1 ++ l2) = allCalls l1 ++ allCalls l2 := by
  induction l1 with
  | nil => rfl
  | cons a rest ih => cases a <;> simp [allCalls, ih]

theorem allCalls_quickWrites (t c k : Nat) (ent : Entry) :
    allCalls (List.replicate k (quickWrite t c ent)).flatten =
      List.replicate k (Call.Write c ent []) := by
  induction k with
  | zero => rfl
  | succ k ih =>
    rw [List.replicate_succ, List.flatten_cons, allCalls_append, ih]
    simp [quickWrite, allCalls, List.replicate_succ]

theorem recordsOn_replicate_entryX (c k : Nat) :
    recordsOn c demoEncoder (List.replicate k (Call.Write c entryX [])) =
      List.replicate k [120] := by
  induction k with
  | zero => rfl
  | succ k ih =>
    rw [List.replicate_succ, List.replicate_succ, recordsOn, if_pos rfl, ih]
    rfl

theorem length_flatten_replicate_one (k : Nat) :
    (List.replicate k ([120] : Bytes)).flatten.length = k := by
  induction k with
  | zero => rfl
  | succ k ih =>
    rw [List.replicate_succ, List.flatten_cons, List.length_append, ih]
    simp [Nat.add_comm]

theorem allCalls_overfill : allCalls overfill = List.replicate 10241 (Call.Write 0 entryX []) := by
  rw [overfill, allCalls_append, allCalls_quickWrites]
  simp only [allCalls, List.append_nil]
  rw [show (10241 : Nat) = logChCap + 1 from rfl, List.replicate_succ']

/-- C4 as stated fails. First, 10241 `Write` calls of one byte each (10241 bytes in all, far
below the threshold of 102400), with no tick, no `Close` and a worker that has not run yet:
the last call finds the queue full and the sink receives the warning "log chan blocked\n".
Second, in the scenario of six records of 10 bytes, a tick that the worker takes when it has
received only three of the records produces a write of 30 bytes, not 60. -/
theorem small_batch_may_reach_sink_and_tick_may_flush_less :
    ((∀ a ∈ overfill, a.quiet 0 = true) ∧
      allCalls overfill = List.replicate 10241 (Call.Write 0 entryX []) ∧
      (recordsOn 0 demoEncoder (allCalls overfill)).flatten.length = 10241 ∧ 10241 < BatchSize ∧
      ∃ w, run demoWorld overfill = some w ∧ (w.sinks 0).received = [blockedNotice]) ∧
    ((allCalls sixWritesEarlyTick = sixEntries.map (fun e => Call.Write 0 e.1 e.2)) ∧
      ∃ w, run demoWorld sixWritesEarlyTick = some w ∧
        (w.sinks 0).received = [bytesOf "aaaaaaaaaabbbbbbbbbbcccccccccc"] ∧
        ((w.sinks 0).received.map List.length) = [30]) := by
  refine ⟨⟨?_, ?_, ?_, by decide, ?_⟩, rfl, _, rfl, rfl, rfl⟩
  · intro a ha
    simp only [overfill, List.mem_append, List.mem_flatten, List.mem_replicate] at ha
    rcases ha with ⟨l, ⟨_, rfl⟩, hl⟩ | ha
    · simp only [quickWrite, List.mem_cons, List.mem_singleton, List.not_mem_nil, or_false] at hl
      rcases hl with rfl | rfl | rfl | rfl <;> rfl
    · simp only [List.mem_cons, List.mem_singleton, List.not_mem_nil, or_false] at ha
      rcases ha with rfl | rfl | rfl | rfl | rfl <;> rfl
  · exact allCalls_overfill
  · rw [allCalls_overfill, recordsOn_replicate_entryX]
    exact length_flatten_replicate_one 10241
  · have h0 : filledWith demoWorld 0 0 0 := ⟨rfl, rfl, rfl, _, rfl, rfl, rfl, rfl⟩
    obtain ⟨w1, hr1, hf1⟩ := quickWrite_rounds 0 0 logChCap demoWorld 0 h0 (by omega)
    obtain ⟨w2, hr2, hs2⟩ := Write_on_full_queue_warns w1 0 0 (by simpa using hf1)
    exact ⟨w2, run_append_some hr1 hr2, hs2⟩

end AsyncLog
